import Mathlib

/-!
Verification of the Cockatrice deck-editor undo/redo command engine
(`command_manager.cpp`, `deck_command.{h,cpp}`, `concrete_deck_commands.h`)
against its natural-language specification.

The engine's Document collaborator (`DeckListModel`) is not part of the
verified sources; it is modelled from the specification's Document adapter
contract (spec sections 3 and 4.3).  Everything else is a direct shallow
embedding of the C++ sources.
-/

/-- Models `ExactCard`: a card reference carrying a name and a printing
(provider id `getPrinting().getUuid()` and collector number
`getPrinting().getProperty("num")`).  `hasCardInfo` models the two null
checks of `DeckCommand::isValidCard` (`!card` and `!card.getCardPtr()`)
collapsed into one flag. -/
structure ExactCard where
  hasCardInfo : Bool
  name : String
  pid : String
  num : String
deriving DecidableEq, Repr

/-- Embeds `DeckCommand::isValidCard` (deck_command.cpp): the card must have
backing card data and a non-empty name. -/
def isValidCard (c : ExactCard) : Bool :=
  c.hasCardInfo && !(c.name == "")

/-- Modelled from the spec: one Document row --- "one logical line in a zone: a
card identity (+ optional printing) and a count of copies" (spec glossary).
`eid` is the stable handle the Document hands out for the row; the engine
itself never inspects it. -/
structure Entry where
  eid : Nat
  name : String
  pid : String
  num : String
  zone : String
  count : Int
deriving DecidableEq, Repr

/-- Modelled from the spec: the Document (`DeckListModel` is not among the
verified sources).  An "addressable collection of entries" (spec section 2)
together with a fresh-handle counter. -/
structure Doc where
  entries : List Entry
  nextId : Nat
deriving DecidableEq, Repr

/-- Matching by card name and zone: the fallback lookup policy
"identity+zone ignoring printing" (spec section 3). -/
def nameMatch (name z : String) (e : Entry) : Bool :=
  e.name == name && e.zone == z

/-- Matching by name, zone and printing: the exact lookup policy
"identity+zone+printing+collector-number" (spec section 3). -/
def exactPred (c : ExactCard) (z : String) (e : Entry) : Bool :=
  e.name == c.name && e.pid == c.pid && e.num == c.num && e.zone == z

/-- Modelled from the spec: `findEntry(name, zone, printingId, collectorNumber)`
of the Document adapter contract (spec section 4.3), exact-match flavour. -/
def findCardFull (d : Doc) (c : ExactCard) (z : String) : Option Nat :=
  Option.map Entry.eid (d.entries.find? (exactPred c z))

/-- Modelled from the spec: `findEntry(name, zone)` of the Document adapter
contract, the any-printing fallback flavour. -/
def findCard (d : Doc) (name z : String) : Option Nat :=
  Option.map Entry.eid (d.entries.find? (nameMatch name z))

/-- Modelled from the spec: `getCount(handle)` of the Document adapter
contract (the engine reads it as `m_deck->data(numberIndex, EditRole).toInt()`). -/
def getCount (d : Doc) (h : Nat) : Int :=
  match d.entries.find? (fun e => e.eid == h) with
  | some e => e.count
  | none => 0

/-- Modelled from the spec: `setCount(handle, int)` of the Document adapter
contract (the engine writes it as `m_deck->setData(numberIndex, v, EditRole)`). -/
def setCount (d : Doc) (h : Nat) (v : Int) : Doc :=
  { d with entries := d.entries.map (fun e => if e.eid == h then { e with count := v } else e) }

/-- Modelled from the spec: `removeEntry(handle)` of the Document adapter
contract (the engine calls `m_deck->removeRow(index.row(), index.parent())`). -/
def removeRow (d : Doc) (h : Nat) : Doc :=
  { d with entries := d.entries.filter (fun e => !(e.eid == h)) }

/-- Modelled from the spec: `QModelIndex::isValid()` on a stored handle.  The
spec says "the core never assumes handles remain valid across unrelated
mutations" (section 4.3): a handle is valid exactly while its row exists. -/
def validHandle (d : Doc) (h : Nat) : Bool :=
  d.entries.any (fun e => e.eid == h)

/-- Modelled from the spec: `addEntry(card, zone) -> handle` of the Document
adapter contract.  Rows of the same card in the same zone are kept merged by
count (spec section 3: "rows are removed/merged by count"), so adding either
increments the existing row's count or appends a fresh row with count 1. -/
def addCard (d : Doc) (c : ExactCard) (z : String) : Nat × Doc :=
  match d.entries.find? (exactPred c z) with
  | some e => (e.eid, setCount d e.eid (e.count + 1))
  | none =>
      (d.nextId,
       { entries := d.entries ++ [{ eid := d.nextId, name := c.name, pid := c.pid,
                                    num := c.num, zone := z, count := 1 }],
         nextId := d.nextId + 1 })

/-- Total number of copies of a card name present in a zone (sums the counts
of every row matching name+zone, any printing). -/
def countNameZone (d : Doc) (name z : String) : Int :=
  ((d.entries.filter (nameMatch name z)).map Entry.count).sum

/-- A row's observable content: everything except the internal handle. -/
def entryKey (e : Entry) : String × String × String × String × Int :=
  (e.name, e.pid, e.num, e.zone, e.count)

/-- The Document's full zone/count state: the multiset of rows (card identity,
printing, zone, count), independent of handles and row order. -/
def mstate (d : Doc) : Multiset (String × String × String × String × Int) :=
  (d.entries.map entryKey : List _)

/-- Well-formedness of a Document: handles are pairwise distinct and below the
fresh-handle counter, and every row holds at least one copy (a count-0 row is
always removed rather than kept, spec section 3). -/
def WF (d : Doc) : Prop :=
  (d.entries.map Entry.eid).Nodup ∧
  (∀ e ∈ d.entries, e.eid < d.nextId) ∧
  (∀ e ∈ d.entries, 1 ≤ e.count)

/-- The store of documents: commands hold a (possibly null) pointer to a
document, modelled as an index into this store. -/
abbrev Store := Nat → Doc

/-- Replace the document at index `i`. -/
def setDoc (st : Store) (i : Nat) (d : Doc) : Store :=
  fun j => if j = i then d else st j

/-- Embeds the three concrete `DeckCommand` subclasses of
concrete_deck_commands.h, each with its constructor parameters
(deck pointer, card, zone(s), count, creation timestamp) and its mutable
bookkeeping state (`m_executed`, `m_addedIndexes`, `m_actuallyRemoved`,
`m_removedCards`, `m_actuallyMoved`, `m_movedCards`). -/
inductive Cmd where
  | add (deck : Option Nat) (card : ExactCard) (zone : String) (count : Int) (ts : Int)
      (executed : Bool) (addedIndexes : List Nat)
  | remove (deck : Option Nat) (card : ExactCard) (zone : String) (count : Int) (ts : Int)
      (executed : Bool) (actuallyRemoved : Int) (removedCards : List (Nat × Bool))
  | swap (deck : Option Nat) (card : ExactCard) (fromZone toZone : String) (count : Int) (ts : Int)
      (executed : Bool) (actuallyMoved : Int) (movedCards : List (Nat × Nat × Bool))
deriving DecidableEq, Repr

/-- The loop body of `AddCardCommand::execute`: add the card `fuel` times,
appending every returned handle to `m_addedIndexes`. -/
def addLoop (c : ExactCard) (z : String) : Nat → Doc → List Nat → Doc × List Nat
  | 0, d, acc => (d, acc)
  | fuel + 1, d, acc =>
      let r := addCard d c z
      addLoop c z fuel r.2 (acc ++ [r.1])

/-- The loop body of `AddCardCommand::undo`: for each recorded handle that is
still valid, decrement its count or remove the row if the count was one. -/
def addUndoStep (d : Doc) (h : Nat) : Doc :=
  if validHandle d h then
    let cnt := getCount d h
    if 1 < cnt then setCount d h (cnt - 1) else removeRow d h
  else d

/-- The lookup used by `RemoveCardCommand::execute` and
`SwapCardCommand::execute`: exact printing first, then any printing in the
zone (spec section 3's lookup policy). -/
def findForRemoval (d : Doc) (c : ExactCard) (z : String) : Option Nat :=
  match findCardFull d c z with
  | some h => some h
  | none => findCard d c.name z

/-- The loop body of `RemoveCardCommand::execute`: resolve the card up to
`fuel` times, decrementing or removing the found row and recording
`(handle, wasRowRemoved)`; stop early when no row is found.  Returns the new
document, the recorded list (chronological order) and `m_actuallyRemoved`. -/
def removeExecLoop (c : ExactCard) (z : String) : Nat → Doc → Doc × List (Nat × Bool) × Int
  | 0, d => (d, [], 0)
  | fuel + 1, d =>
      match findForRemoval d c z with
      | none => (d, [], 0)
      | some h =>
          let cnt := getCount d h
          if 1 < cnt then
            let r := removeExecLoop c z fuel (setCount d h (cnt - 1))
            (r.1, (h, false) :: r.2.1, r.2.2 + 1)
          else
            let r := removeExecLoop c z fuel (removeRow d h)
            (r.1, (h, true) :: r.2.1, r.2.2 + 1)

/-- One step of `RemoveCardCommand::undo`: re-add the full row for a
`wasRowRemoved` record, otherwise re-resolve by name+zone and increment;
a failed lookup is silently skipped. -/
def removeUndoStep (c : ExactCard) (z : String) (d : Doc) (r : Nat × Bool) : Doc :=
  if r.2 then (addCard d c z).2
  else
    match findCard d c.name z with
    | some h => setCount d h (getCount d h + 1)
    | none => d

/-- The loop body of `SwapCardCommand::execute`: up to `fuel` times, resolve
the card in the source zone, decrement/remove it there, add it to the
destination zone, and record `(fromHandle, toHandle, wasRowRemoved)`. -/
def swapExecLoop (c : ExactCard) (fz tz : String) : Nat → Doc → Doc × List (Nat × Nat × Bool) × Int
  | 0, d => (d, [], 0)
  | fuel + 1, d =>
      match findForRemoval d c fz with
      | none => (d, [], 0)
      | some h =>
          let cnt := getCount d h
          let step := if 1 < cnt then (setCount d h (cnt - 1), false) else (removeRow d h, true)
          let ar := addCard step.1 c tz
          let r := swapExecLoop c fz tz fuel ar.2
          (r.1, (h, ar.1, step.2) :: r.2.1, r.2.2 + 1)

/-- One step of `SwapCardCommand::undo`: first remove the unit from the
destination zone (decrement or remove, lookup by name+zone, silently skipped
on failure), then restore it to the source zone (re-add the row or increment,
again skipping a failed lookup). -/
def swapUndoStep (c : ExactCard) (fz tz : String) (d : Doc) (r : Nat × Nat × Bool) : Doc :=
  let d1 :=
    match findCard d c.name tz with
    | some h =>
        let cnt := getCount d h
        if 1 < cnt then setCount d h (cnt - 1) else removeRow d h
    | none => d
  if r.2.2 then (addCard d1 c fz).2
  else
    match findCard d1 c.name fz with
    | some h => setCount d1 h (getCount d1 h + 1)
    | none => d1

/-- Embeds `execute()` of the three concrete commands.  Returns the boolean
result, the command's new internal state, and the updated store. -/
def Cmd.execute : Cmd → Store → Bool × Cmd × Store
  | .add dk c z n ts ex ai, st =>
      match dk with
      | none => (false, .add none c z n ts ex ai, st)
      | some i =>
          if isValidCard c = false ∨ n ≤ 0 then (false, .add (some i) c z n ts ex ai, st)
          else
            let r := addLoop c z n.toNat (st i) ai
            (true, .add (some i) c z n ts true r.2, setDoc st i r.1)
  | .remove dk c z n ts ex ar rc, st =>
      match dk with
      | none => (false, .remove none c z n ts ex ar rc, st)
      | some i =>
          if isValidCard c = false ∨ n ≤ 0 then (false, .remove (some i) c z n ts ex ar rc, st)
          else
            let r := removeExecLoop c z n.toNat (st i)
            (decide (0 < r.2.2), .remove (some i) c z n ts true r.2.2 r.2.1, setDoc st i r.1)
  | .swap dk c fz tz n ts ex am mc, st =>
      match dk with
      | none => (false, .swap none c fz tz n ts ex am mc, st)
      | some i =>
          if isValidCard c = false ∨ n ≤ 0 then (false, .swap (some i) c fz tz n ts ex am mc, st)
          else if fz = tz then (false, .swap (some i) c fz tz n ts ex am mc, st)
          else
            let r := swapExecLoop c fz tz n.toNat (st i)
            (decide (0 < r.2.2), .swap (some i) c fz tz n ts true r.2.2 r.2.1, setDoc st i r.1)

/-- Embeds `undo()` of the three concrete commands.  Fails only on the
precondition check (`!m_executed || !m_deck || !isValidCard`); otherwise walks
the recorded bookkeeping (in reverse order for remove/swap), clears it, resets
`m_executed`, and returns true. -/
def Cmd.undo : Cmd → Store → Bool × Cmd × Store
  | .add dk c z n ts ex ai, st =>
      match dk with
      | none => (false, .add none c z n ts ex ai, st)
      | some i =>
          if ex = false ∨ isValidCard c = false then (false, .add (some i) c z n ts ex ai, st)
          else (true, .add (some i) c z n ts false [], setDoc st i (ai.foldl addUndoStep (st i)))
  | .remove dk c z n ts ex ar rc, st =>
      match dk with
      | none => (false, .remove none c z n ts ex ar rc, st)
      | some i =>
          if ex = false ∨ isValidCard c = false then (false, .remove (some i) c z n ts ex ar rc, st)
          else
            (true, .remove (some i) c z n ts false ar [],
             setDoc st i (rc.reverse.foldl (removeUndoStep c z) (st i)))
  | .swap dk c fz tz n ts ex am mc, st =>
      match dk with
      | none => (false, .swap none c fz tz n ts ex am mc, st)
      | some i =>
          if ex = false ∨ isValidCard c = false then (false, .swap (some i) c fz tz n ts ex am mc, st)
          else
            (true, .swap (some i) c fz tz n ts false am [],
             setDoc st i (mc.reverse.foldl (swapUndoStep c fz tz) (st i)))

/-- Embeds the shared `getZoneDisplayName` helper. -/
def getZoneDisplayName (z : String) : String :=
  if z = "main" then "main deck"
  else if z = "side" then "sideboard"
  else if z = "tokens" then "tokens"
  else z

/-- Embeds `getDescription()` of the three concrete commands (singular or
plural phrasing keyed off `count == 1`). -/
def Cmd.getDescription : Cmd → String
  | .add _ c z n _ _ _ =>
      if n = 1 then "Add " ++ c.name ++ " to " ++ getZoneDisplayName z
      else "Add " ++ toString n ++ "x " ++ c.name ++ " to " ++ getZoneDisplayName z
  | .remove _ c z n _ _ _ _ =>
      if n = 1 then "Remove " ++ c.name ++ " from " ++ getZoneDisplayName z
      else "Remove " ++ toString n ++ "x " ++ c.name ++ " from " ++ getZoneDisplayName z
  | .swap _ c fz tz n _ _ _ _ =>
      if n = 1 then
        "Move " ++ c.name ++ " from " ++ getZoneDisplayName fz ++ " to " ++ getZoneDisplayName tz
      else
        "Move " ++ toString n ++ "x " ++ c.name ++ " from " ++ getZoneDisplayName fz ++ " to " ++
          getZoneDisplayName tz

/-- Embeds `getType()`: the stable type tag of each command. -/
def Cmd.getType : Cmd → String
  | .add _ _ _ _ _ _ _ => "AddCard"
  | .remove _ _ _ _ _ _ _ _ => "RemoveCard"
  | .swap _ _ _ _ _ _ _ _ _ => "SwapCard"

/-- Embeds `getTimestamp()`. -/
def Cmd.getTimestamp : Cmd → Int
  | .add _ _ _ _ ts _ _ => ts
  | .remove _ _ _ _ ts _ _ _ => ts
  | .swap _ _ _ _ _ ts _ _ _ => ts

/-- The requested count of a command (`m_count`). -/
def Cmd.count : Cmd → Int
  | .add _ _ _ n _ _ _ => n
  | .remove _ _ _ n _ _ _ _ => n
  | .swap _ _ _ _ n _ _ _ _ => n

/-- Embeds `isModifying()` of the three concrete commands. -/
def Cmd.isModifying : Cmd → Bool
  | .add _ c _ n _ _ _ => decide (0 < n) && isValidCard c
  | .remove _ c _ n _ _ _ _ => decide (0 < n) && isValidCard c
  | .swap _ c fz tz n _ _ _ _ => decide (0 < n) && isValidCard c && decide (fz ≠ tz)

/-- Embeds `canMergeWith()`: same concrete kind (the `dynamic_cast`), same
deck pointer, same card name, same zone(s), timestamps within 5000ms. -/
def Cmd.canMergeWith : Cmd → Cmd → Bool
  | .add dk c z _ ts _ _, .add dk2 c2 z2 _ ts2 _ _ =>
      dk == dk2 && c.name == c2.name && z == z2 && decide (|ts - ts2| < 5000)
  | .remove dk c z _ ts _ _ _, .remove dk2 c2 z2 _ ts2 _ _ _ =>
      dk == dk2 && c.name == c2.name && z == z2 && decide (|ts - ts2| < 5000)
  | .swap dk c fz tz _ ts _ _ _, .swap dk2 c2 fz2 tz2 _ ts2 _ _ _ =>
      dk == dk2 && c.name == c2.name && fz == fz2 && tz == tz2 && decide (|ts - ts2| < 5000)
  | _, _ => false

/-- Embeds `mergeWith()`: re-checks `canMergeWith` and absorbs the other
command's count into `m_count`; all other fields (including the recorded undo
bookkeeping) are left untouched, exactly as in the source. -/
def Cmd.mergeWith (self other : Cmd) : Bool × Cmd :=
  if self.canMergeWith other then
    match self, other with
    | .add dk c z n ts ex ai, .add _ _ _ n2 _ _ _ => (true, .add dk c z (n + n2) ts ex ai)
    | .remove dk c z n ts ex ar rc, .remove _ _ _ n2 _ _ _ _ =>
        (true, .remove dk c z (n + n2) ts ex ar rc)
    | .swap dk c fz tz n ts ex am mc, .swap _ _ _ _ n2 _ _ _ _ =>
        (true, .swap dk c fz tz (n + n2) ts ex am mc)
    | s, _ => (false, s)
  else (false, self)

/-- Embeds the `CommandManager` state: the two stacks (head = top), the
history bound, the merging flag, and whether the single-shot cleanup timer
has been started and not yet fired. -/
structure CM where
  undoStack : List Cmd
  redoStack : List Cmd
  maxHistorySize : Int
  mergingEnabled : Bool
  cleanupPending : Bool
deriving DecidableEq, Repr

/-- The notifications the manager emits, in emission order. -/
inductive Ev where
  | undoRedoStateChanged (canUndo canRedo : Bool)
  | descriptionsChanged (undoDesc redoDesc : String)
  | commandExecuted (desc : String)
  | commandUndone (desc : String)
  | commandRedone (desc : String)
  | historyCleared
deriving DecidableEq, Repr

/-- Embeds `CommandManager::canUndo`. -/
def CM.canUndo (m : CM) : Bool := !m.undoStack.isEmpty

/-- Embeds `CommandManager::canRedo`. -/
def CM.canRedo (m : CM) : Bool := !m.redoStack.isEmpty

/-- Embeds `CommandManager::undoDescription`. -/
def CM.undoDescription (m : CM) : String :=
  match m.undoStack with
  | [] => ""
  | c :: _ => "Undo " ++ c.getDescription

/-- Embeds `CommandManager::redoDescription`. -/
def CM.redoDescription (m : CM) : String :=
  match m.redoStack with
  | [] => ""
  | c :: _ => "Redo " ++ c.getDescription

/-- The two notifications emitted by `CommandManager::updateState`, in order:
`undoRedoStateChanged` then `descriptionsChanged`. -/
def stateEvents (m : CM) : List Ev :=
  [.undoRedoStateChanged m.canUndo m.canRedo,
   .descriptionsChanged m.undoDescription m.redoDescription]

/-- The description of the current undo-stack top, or empty. -/
def topDescription (m : CM) : String :=
  match m.undoStack with
  | [] => ""
  | c :: _ => c.getDescription

/-- Embeds `CommandManager::tryMergeCommand`: only the current top of the
undo stack is ever consulted. -/
def CM.tryMergeCommand (m : CM) (cmd : Cmd) : Bool × CM :=
  match m.undoStack with
  | [] => (false, m)
  | top :: rest =>
      if top.canMergeWith cmd then
        let r := top.mergeWith cmd
        if r.1 then (true, { m with undoStack := r.2 :: rest }) else (false, m)
      else (false, m)

/-- The manager-state part of `CommandManager::executeCommand`'s success path:
clear the redo stack, merge with the undo-stack top or push, and start the
cleanup timer when over the history bound.  `c` is the already-executed
command. -/
def execSuccessPush (m : CM) (c : Cmd) : CM :=
  let m1 : CM := { m with redoStack := [] }
  let mr := if m1.mergingEnabled then m1.tryMergeCommand c else (false, m1)
  let m3 := if mr.1 then mr.2 else { mr.2 with undoStack := c :: mr.2.undoStack }
  if 0 < m3.maxHistorySize ∧ m3.maxHistorySize < (m3.undoStack.length : Int) then
    { m3 with cleanupPending := true }
  else m3

/-- Embeds `CommandManager::executeCommand`: reject null, skip non-modifying,
execute, clear the redo stack, merge-or-push, schedule cleanup when over the
bound, then emit `updateState` followed by `commandExecuted`. -/
def CM.executeCommand (m : CM) (cmd? : Option Cmd) (st : Store) : Bool × CM × Store × List Ev :=
  match cmd? with
  | none => (false, m, st, [])
  | some cmd =>
      if cmd.isModifying = false then (true, m, st, [])
      else
        let r := cmd.execute st
        if r.1 = false then (false, m, r.2.2, [])
        else
          let m4 := execSuccessPush m r.2.1
          (true, m4, r.2.2, stateEvents m4 ++ [.commandExecuted (topDescription m4)])

/-- Embeds `CommandManager::undo`: pop, call the command's `undo`, push back
on failure; on success move it to the redo stack and emit `updateState`
followed by `commandUndone`. -/
def CM.undo (m : CM) (st : Store) : Bool × CM × Store × List Ev :=
  match m.undoStack with
  | [] => (false, m, st, [])
  | top :: rest =>
      let r := top.undo st
      if r.1 = false then (false, { m with undoStack := r.2.1 :: rest }, r.2.2, [])
      else
        let m2 := { m with undoStack := rest, redoStack := r.2.1 :: m.redoStack }
        (true, m2, r.2.2, stateEvents m2 ++ [.commandUndone r.2.1.getDescription])

/-- Embeds `CommandManager::redo`: pop the redo stack, re-execute, push back
on failure; on success move it to the undo stack and emit `updateState`
followed by `commandRedone`. -/
def CM.redo (m : CM) (st : Store) : Bool × CM × Store × List Ev :=
  match m.redoStack with
  | [] => (false, m, st, [])
  | top :: rest =>
      let r := top.execute st
      if r.1 = false then (false, { m with redoStack := r.2.1 :: rest }, r.2.2, [])
      else
        let m2 := { m with redoStack := rest, undoStack := r.2.1 :: m.undoStack }
        (true, m2, r.2.2, stateEvents m2 ++ [.commandRedone r.2.1.getDescription])

/-- Embeds `CommandManager::clearHistory`: discard both stacks, emit
`updateState` followed by `historyCleared`. -/
def CM.clearHistory (m : CM) : CM × List Ev :=
  let m2 := { m with undoStack := [], redoStack := [] }
  (m2, stateEvents m2 ++ [.historyCleared])

/-- Embeds `CommandManager::removeOldCommands`: keep the newest
`size - count` commands (the loop over the temporary stack), discarding the
oldest `count` from the bottom. -/
def CM.removeOldCommands (m : CM) (count : Int) : CM :=
  { m with undoStack := m.undoStack.take (((m.undoStack.length : Int) - count).toNat) }

/-- Embeds `CommandManager::cleanupHistory`: a no-op unless
`maxHistorySize > 0` and the undo stack exceeds it, in which case exactly the
excess is removed. -/
def CM.cleanupHistory (m : CM) : CM :=
  if m.maxHistorySize ≤ 0 ∨ (m.undoStack.length : Int) ≤ m.maxHistorySize then m
  else m.removeOldCommands ((m.undoStack.length : Int) - m.maxHistorySize)

/-- Embeds `CommandManager::setMaxHistorySize`: update the bound and start the
cleanup timer if now over it. -/
def CM.setMaxHistorySize (m : CM) (n : Int) : CM :=
  let m2 := { m with maxHistorySize := n }
  if 0 < m2.maxHistorySize ∧ m2.maxHistorySize < (m2.undoStack.length : Int) then
    { m2 with cleanupPending := true }
  else m2

/-! ### Shared concrete fixtures used by witnesses and counterexamples -/

/-- A concrete valid card used by several concrete scenarios. -/
def cardX : ExactCard := ⟨true, "X", "p", "1"⟩

/-- A concrete valid card with the same name as `cardX` but another printing. -/
def cardXother : ExactCard := ⟨true, "X", "p2", "2"⟩

/-- The store holding only empty documents. -/
def emptyStore : Store := fun _ => ⟨[], 0⟩

/-- A freshly constructed manager (defaults of the `CommandManager`
constructor: `maxHistorySize = 100`, merging enabled). -/
def baseCM : CM := ⟨[], [], 100, true, false⟩

/-- True for the per-operation events `executed`/`undone`/`redone`/`cleared`. -/
def isOpEvent : Ev → Bool
  | .commandExecuted _ => true
  | .commandUndone _ => true
  | .commandRedone _ => true
  | .historyCleared => true
  | _ => false

/-- True for the `state-changed` and `descriptions-changed` notifications. -/
def isNotifyEvent : Ev → Bool
  | .undoRedoStateChanged _ _ => true
  | .descriptionsChanged _ _ => true
  | _ => false

/-- The ordering property claimed by C8 for a single operation's trace: every
state-changed/descriptions-changed notification comes strictly after the
operation's own event, never before it. -/
def notifyAfterOp (evs : List Ev) : Prop :=
  ∀ i j : Fin evs.length,
    isOpEvent (evs.get i) = true → isNotifyEvent (evs.get j) = true → (i : Nat) < (j : Nat)

instance (evs : List Ev) : Decidable (notifyAfterOp evs) := by
  unfold notifyAfterOp; infer_instance

/-- First step of Scenario D: `executeCommand(AddCard(X, "main", 1))` at
timestamp 0 on a fresh manager and an empty document. -/
def scenarioD1 : Bool × CM × Store × List Ev :=
  baseCM.executeCommand (some (.add (some 0) cardX "main" 1 0 false [])) emptyStore

/-- Second step of Scenario D: the same AddCard again at timestamp 500ms
(within 1 second, so within the 5000ms merge window). -/
def scenarioD2 : Bool × CM × Store × List Ev :=
  scenarioD1.2.1.executeCommand (some (.add (some 0) cardX "main" 1 500 false [])) scenarioD1.2.2.1

/-- Third step of Scenario D: a single `undo()`. -/
def scenarioD3 : Bool × CM × Store × List Ev :=
  scenarioD2.2.1.undo scenarioD2.2.2.1

/-- Copy count of a card name in a zone over a plain entry list. -/
def countL (name z : String) (L : List Entry) : Int :=
  ((L.filter (nameMatch name z)).map Entry.count).sum

/-- Concrete store for the C4 witness: main zone holds two copies of X. -/
def c4Store : Store := fun _ => ⟨[⟨0, "X", "p", "1", "main", 2⟩], 1⟩

instance decWF (d : Doc) : Decidable (WF d) := by
  unfold WF
  infer_instance

/-- First step of the C5 scenario: `executeCommand` of an AddCard on a fresh
manager (empty undo stack, history bound 100, configurable merging flag,
arbitrary prior redo stack). -/
def c5Run1 (i : Nat) (c1 : ExactCard) (z1 : String) (n1 t1 : Int) (rs : List Cmd)
    (mflag : Bool) (st : Store) : Bool × CM × Store × List Ev :=
  (CM.mk [] rs 100 mflag false).executeCommand (some (.add (some i) c1 z1 n1 t1 false [])) st

/-- Second step of the C5 scenario: `executeCommand` of a second AddCard. -/
def c5Run2 (i jj : Nat) (c1 c2 : ExactCard) (z1 z2 : String) (n1 n2 t1 t2 : Int)
    (rs : List Cmd) (mflag : Bool) (st : Store) : Bool × CM × Store × List Ev :=
  (c5Run1 i c1 z1 n1 t1 rs mflag st).2.1.executeCommand
    (some (.add (some jj) c2 z2 n2 t2 false [])) (c5Run1 i c1 z1 n1 t1 rs mflag st).2.2.1

/-- Kind-mismatch variant of the C5 second step: a RemoveCard for the same
card and zone follows the AddCard. -/
def c5RunR (i : Nat) (c1 : ExactCard) (z1 : String) (n1 n3 t1 t3 : Int)
    (rs : List Cmd) (mflag : Bool) (st : Store) : Bool × CM × Store × List Ev :=
  (c5Run1 i c1 z1 n1 t1 rs mflag st).2.1.executeCommand
    (some (.remove (some i) c1 z1 n3 t3 false 0 [])) (c5Run1 i c1 z1 n1 t1 rs mflag st).2.2.1

/-- C1 counterexample scenario 1, step 1: AddCard X main on an empty document. -/
def c1SeqA : Bool × Cmd × Store :=
  (Cmd.add (some 0) cardX "main" 1 0 false []).execute emptyStore

/-- C1 counterexample scenario 1, step 2: RemoveCard X main. -/
def c1SeqR : Bool × Cmd × Store :=
  (Cmd.remove (some 0) cardX "main" 1 10 false 0 []).execute c1SeqA.2.2

/-- C1 counterexample scenario 1, step 3: undo the RemoveCard. -/
def c1SeqRu : Bool × Cmd × Store := c1SeqR.2.1.undo c1SeqR.2.2

/-- C1 counterexample scenario 1, step 4: undo the AddCard. -/
def c1SeqAu : Bool × Cmd × Store := c1SeqA.2.1.undo c1SeqRu.2.2

/-- C1 counterexample scenario 2: a document holding only another printing of X. -/
def c1PrintDoc : Doc := ⟨[⟨0, "X", "p2", "2", "main", 1⟩], 1⟩

/-- C1 counterexample scenario 2: RemoveCard for printing p of X. -/
def c1PrintRun : Bool × Cmd × Store :=
  (Cmd.remove (some 0) cardX "main" 1 0 false 0 []).execute (fun _ => c1PrintDoc)

/-- C1 counterexample scenario 2: undo of that RemoveCard. -/
def c1PrintUndo : Bool × Cmd × Store := c1PrintRun.2.1.undo c1PrintRun.2.2

/-- A one-row store used to witness the amended C1 round trip: two copies of
card X (printing p) in the main deck. -/
def c1wStB : Store := fun _ => ⟨[⟨0, "X", "p", "1", "main", 2⟩], 1⟩

/-! ### Basic loop lemmas -/

theorem addLoop_length (c : ExactCard) (z : String) :
    ∀ (fuel : Nat) (d : Doc) (acc : List Nat),
      ((addLoop c z fuel d acc).2).length = acc.length + fuel := by
  intro fuel
  induction fuel with
  | zero => intro d acc; simp [addLoop]
  | succ k ih =>
      intro d acc
      simp only [addLoop]
      rw [ih]
      simp
      omega

/-! ### C9 and C10 -/

/-- C9: `RemoveCardCommand::undo` and `SwapCardCommand::undo` return true
exactly when the precondition check passes (previously executed, non-null deck
pointer, valid card); the result never depends on the document or on the
recorded entries, so a failed mid-undo lookup is silently skipped and never
reported. -/
theorem C9_remove_swap_undo_result
    (dk : Option Nat) (c : ExactCard) (z fz tz : String) (n ts ar am : Int)
    (ex : Bool) (rc : List (Nat × Bool)) (mc : List (Nat × Nat × Bool)) (st : Store) :
    ((Cmd.remove dk c z n ts ex ar rc).undo st).1 = (ex && dk.isSome && isValidCard c) ∧
    ((Cmd.swap dk c fz tz n ts ex am mc).undo st).1 = (ex && dk.isSome && isValidCard c) := by
  constructor <;>
    cases dk <;> cases ex <;>
      simp [Cmd.undo] <;>
        cases h : isValidCard c <;> simp [h]

/-- C10: `AddCardCommand::execute` never partially fails: with a non-null deck
pointer, a valid card and a positive count it always returns true and records
exactly `count` added handles (one `addCard` call per unit), appended to any
previously recorded ones. -/
theorem C10_addcard_execute_total
    (i : Nat) (c : ExactCard) (z : String) (n ts : Int) (ex : Bool) (ai : List Nat) (st : Store)
    (hv : isValidCard c = true) (hn : 0 < n) :
    ((Cmd.add (some i) c z n ts ex ai).execute st).1 = true ∧
    ((Cmd.add (some i) c z n ts ex ai).execute st).2.1
      = .add (some i) c z n ts true (addLoop c z n.toNat (st i) ai).2 ∧
    ((addLoop c z n.toNat (st i) ai).2).length = ai.length + n.toNat := by
  have hcond : ¬(isValidCard c = false ∨ n ≤ 0) := by
    simp [hv]; omega
  refine ⟨?_, ?_, addLoop_length c z n.toNat (st i) ai⟩ <;>
    simp [Cmd.execute, hcond]

/-- Witness for C10 at a concrete input. -/
theorem C10_witness :
    isValidCard ⟨true, "X", "p", "1"⟩ = true ∧ (0 : Int) < 3 ∧
    ((Cmd.add (some 0) ⟨true, "X", "p", "1"⟩ "main" 3 0 false []).execute (fun _ => ⟨[], 0⟩)).1
      = true ∧
    ((addLoop ⟨true, "X", "p", "1"⟩ "main" (3 : Int).toNat ((fun _ => (⟨[], 0⟩ : Doc)) 0) []).2).length
      = List.length ([] : List Nat) + (3 : Int).toNat :=
  ⟨by decide, by decide,
   (C10_addcard_execute_total 0 ⟨true, "X", "p", "1"⟩ "main" 3 0 false [] (fun _ => ⟨[], 0⟩)
      (by decide) (by decide)).1,
   (C10_addcard_execute_total 0 ⟨true, "X", "p", "1"⟩ "main" 3 0 false [] (fun _ => ⟨[], 0⟩)
      (by decide) (by decide)).2.2⟩

/-! ### C6: bounded history cleanup -/

/-- C6: `cleanupHistory` trims exactly the excess oldest commands from the
bottom of the undo stack: when `maxHistorySize > 0` and the stack is longer,
the result is the most-recent `maxHistorySize` entries in unchanged order
(`take`); otherwise it is a no-op.  The top of the stack is always preserved,
the kept entries are an unchanged prefix (the dropped ones are the suffix,
i.e. the oldest), and the redo stack and configuration are untouched. -/
theorem C6_cleanup_trims_oldest (m : CM) :
    m.cleanupHistory =
      (if 0 < m.maxHistorySize ∧ m.maxHistorySize < (m.undoStack.length : Int) then
        { m with undoStack := m.undoStack.take m.maxHistorySize.toNat }
      else m) ∧
    (m.cleanupHistory).undoStack.length
      = min m.undoStack.length
          (if 0 < m.maxHistorySize then m.maxHistorySize.toNat else m.undoStack.length) ∧
    (m.cleanupHistory).undoStack.head? = m.undoStack.head? ∧
    (∃ dropped, m.undoStack = (m.cleanupHistory).undoStack ++ dropped) ∧
    (m.cleanupHistory).redoStack = m.redoStack ∧
    (m.cleanupHistory).maxHistorySize = m.maxHistorySize ∧
    (m.cleanupHistory).mergingEnabled = m.mergingEnabled := by
  by_cases h : 0 < m.maxHistorySize ∧ m.maxHistorySize < (m.undoStack.length : Int)
  · have hno : ¬(m.maxHistorySize ≤ 0 ∨ (m.undoStack.length : Int) ≤ m.maxHistorySize) := by
      omega
    have harith : ((m.undoStack.length : Int) - ((m.undoStack.length : Int) - m.maxHistorySize)).toNat
        = m.maxHistorySize.toNat := by omega
    have hstack : (m.cleanupHistory).undoStack = m.undoStack.take m.maxHistorySize.toNat := by
      simp [CM.cleanupHistory, hno, CM.removeOldCommands, harith]
    refine ⟨?_, ?_, ?_, ?_, ?_, ?_, ?_⟩
    · simp [CM.cleanupHistory, hno, CM.removeOldCommands, harith, h]
    · rw [hstack, if_pos h.1, List.length_take, Nat.min_comm]
    · rw [hstack]
      rcases m.undoStack with _ | ⟨a, l⟩
      · simp
      · have : 1 ≤ m.maxHistorySize.toNat := by omega
        rcases hk : m.maxHistorySize.toNat with _ | k
        · omega
        · simp [List.take]
    · exact ⟨m.undoStack.drop m.maxHistorySize.toNat, by rw [hstack, List.take_append_drop]⟩
    · simp [CM.cleanupHistory, hno, CM.removeOldCommands]
    · simp [CM.cleanupHistory, hno, CM.removeOldCommands]
    · simp [CM.cleanupHistory, hno, CM.removeOldCommands]
  · have hyes : m.maxHistorySize ≤ 0 ∨ (m.undoStack.length : Int) ≤ m.maxHistorySize := by
      omega
    have hid : m.cleanupHistory = m := by simp [CM.cleanupHistory, hyes]
    rw [hid]
    refine ⟨by simp [h], ?_, rfl, ⟨[], by simp⟩, rfl, rfl, rfl⟩
    by_cases hp : 0 < m.maxHistorySize
    · rw [if_pos hp]
      have : m.undoStack.length ≤ m.maxHistorySize.toNat := by omega
      omega
    · rw [if_neg hp]; omega

/-! ### Manager helper lemmas -/

theorem tryMergeCommand_redoStack (m : CM) (c : Cmd) :
    (m.tryMergeCommand c).2.redoStack = m.redoStack := by
  unfold CM.tryMergeCommand
  rcases m.undoStack with _ | ⟨t, r⟩
  · rfl
  · simp only
    split
    · split <;> rfl
    · rfl

theorem tryMergeCommand_config (m : CM) (c : Cmd) :
    (m.tryMergeCommand c).2.maxHistorySize = m.maxHistorySize ∧
    (m.tryMergeCommand c).2.mergingEnabled = m.mergingEnabled ∧
    (m.tryMergeCommand c).2.cleanupPending = m.cleanupPending := by
  unfold CM.tryMergeCommand
  rcases m.undoStack with _ | ⟨t, r⟩
  · exact ⟨rfl, rfl, rfl⟩
  · simp only
    split
    · split <;> exact ⟨rfl, rfl, rfl⟩
    · exact ⟨rfl, rfl, rfl⟩

theorem execSuccessPush_redoStack (m : CM) (c : Cmd) :
    (execSuccessPush m c).redoStack = [] := by
  have hlast : ∀ x : CM,
      ((if 0 < x.maxHistorySize ∧ x.maxHistorySize < (x.undoStack.length : Int) then
          { x with cleanupPending := true } else x)).redoStack = x.redoStack := by
    intro x; split <;> rfl
  have hpush : ∀ (p : Bool × CM),
      ((if p.1 then p.2 else { p.2 with undoStack := c :: p.2.undoStack })).redoStack
        = p.2.redoStack := by
    intro p; split <;> rfl
  simp only [execSuccessPush]
  rw [hlast, hpush]
  split
  · rw [tryMergeCommand_redoStack]
  · rfl

/-! ### C3: redo invalidation -/

/-- Counterexample to C3 as stated: a command that is skipped as
non-modifying (here an AddCard with count 0) makes `executeCommand` return
true while leaving a previously non-empty redo stack untouched, so `canRedo`
is still true after a successful `executeCommand` call. -/
theorem C3_counterexample :
    ((CM.mk [] [.add (some 0) cardX "main" 1 0 false []] 100 true false).executeCommand
        (some (.add (some 0) cardX "main" 0 0 false [])) emptyStore).1 = true ∧
    ((CM.mk [] [.add (some 0) cardX "main" 1 0 false []] 100 true false).executeCommand
        (some (.add (some 0) cardX "main" 0 0 false [])) emptyStore).2.1.canRedo = true := by
  constructor <;> rfl

/-- C3 amended: after `executeCommand` returns true for a *modifying* command
(`isModifying()` true --- the non-modifying skip path returns true without
touching the stacks), the redo stack is empty and `canRedo()` is false,
regardless of prior redo-stack contents. -/
theorem C3_amended_redo_cleared (m : CM) (st : Store) (cmd : Cmd)
    (hmod : cmd.isModifying = true)
    (hok : (m.executeCommand (some cmd) st).1 = true) :
    (m.executeCommand (some cmd) st).2.1.redoStack = [] ∧
    (m.executeCommand (some cmd) st).2.1.canRedo = false := by
  have hmod' : ¬ cmd.isModifying = false := by simp [hmod]
  by_cases hr : (cmd.execute st).1 = false
  · exfalso
    simp [CM.executeCommand, hmod', hr] at hok
  · have h1 : (m.executeCommand (some cmd) st).2.1 = execSuccessPush m (cmd.execute st).2.1 := by
      simp [CM.executeCommand, hmod', hr]
    rw [h1]
    refine ⟨execSuccessPush_redoStack m _, ?_⟩
    simp [CM.canRedo, execSuccessPush_redoStack]

/-- Witness for the amended C3 at a concrete input: a modifying AddCard
executed on a manager whose redo stack was non-empty. -/
theorem C3_amended_witness :
    (Cmd.add (some 0) cardX "main" 1 0 false []).isModifying = true ∧
    ((CM.mk [] [.add (some 0) cardX "side" 1 0 false []] 100 true false).executeCommand
        (some (.add (some 0) cardX "main" 1 0 false [])) emptyStore).1 = true ∧
    ((CM.mk [] [.add (some 0) cardX "side" 1 0 false []] 100 true false).executeCommand
        (some (.add (some 0) cardX "main" 1 0 false [])) emptyStore).2.1.canRedo = false :=
  ⟨by decide, by decide,
   (C3_amended_redo_cleared (CM.mk [] [.add (some 0) cardX "side" 1 0 false []] 100 true false)
      emptyStore (.add (some 0) cardX "main" 1 0 false []) (by decide) (by decide)).2⟩

/-! ### C7: rejected inputs -/

/-- Counterexample to C7 as stated: a command with count 0 (likewise a
negative count or an invalid card) does NOT make `executeCommand` return
false --- the manager skips it as non-modifying and returns true. -/
theorem C7_counterexample :
    (baseCM.executeCommand (some (.add (some 0) cardX "main" 0 0 false [])) emptyStore).1
      = true := by
  rfl

/-- C7 amended: a null command is reported as a boolean failure with no state
change, no mutation and no notification; a command with zero or negative
count, or with an invalid card, is *skipped*: `executeCommand` returns true
(not false) while leaving the stacks and the store unchanged, attempting no
mutation and emitting no notification.  This holds for all three command
kinds. -/
theorem C7_amended_rejected_inputs
    (dk : Option Nat) (c : ExactCard) (z fz tz : String) (n ts ar am : Int)
    (ex : Bool) (ai : List Nat) (rc : List (Nat × Bool)) (mc : List (Nat × Nat × Bool))
    (m : CM) (st : Store)
    (h : n ≤ 0 ∨ isValidCard c = false) :
    m.executeCommand none st = (false, m, st, []) ∧
    m.executeCommand (some (.add dk c z n ts ex ai)) st = (true, m, st, []) ∧
    m.executeCommand (some (.remove dk c z n ts ex ar rc)) st = (true, m, st, []) ∧
    m.executeCommand (some (.swap dk c fz tz n ts ex am mc)) st = (true, m, st, []) := by
  have hn' : (decide (0 < n) && isValidCard c) = false := by
    rcases h with h | h
    · have : decide (0 < n) = false := decide_eq_false (by omega)
      simp [this]
    · simp [h]
  refine ⟨rfl, ?_, ?_, ?_⟩ <;>
    simp [CM.executeCommand, Cmd.isModifying, hn']

/-- Witness for the amended C7 at a concrete input (count 0). -/
theorem C7_amended_witness :
    ((0 : Int) ≤ 0 ∨ isValidCard cardX = false) ∧
    baseCM.executeCommand (some (.add (some 0) cardX "main" 0 0 false [])) emptyStore
      = (true, baseCM, emptyStore, []) ∧
    baseCM.executeCommand none emptyStore = (false, baseCM, emptyStore, []) :=
  ⟨Or.inl (by decide),
   (C7_amended_rejected_inputs (some 0) cardX "main" "a" "b" 0 0 0 0 false [] [] []
      baseCM emptyStore (Or.inl (by decide))).2.1,
   (C7_amended_rejected_inputs (some 0) cardX "main" "a" "b" 0 0 0 0 false [] [] []
      baseCM emptyStore (Or.inl (by decide))).1⟩

/-! ### C8: notification ordering -/

/-- Counterexample to C8 as stated: for a concrete successful
`executeCommand` call the emitted trace is
`[state-changed, descriptions-changed, executed]`, so the state/description
notifications come strictly *before* the `executed` event, not after it. -/
theorem C8_counterexample :
    (baseCM.executeCommand (some (.add (some 0) cardX "main" 1 0 false []))
        emptyStore).2.2.2
      = [.undoRedoStateChanged true false,
         .descriptionsChanged "Undo Add X to main deck" "",
         .commandExecuted "Add X to main deck"] ∧
    ¬ notifyAfterOp
        ((baseCM.executeCommand (some (.add (some 0) cardX "main" 1 0 false []))
            emptyStore).2.2.2) := by
  constructor
  · rfl
  · decide

/-- C8 amended: in the trace of every single successful `executeCommand`,
`undo`, `redo` or `clearHistory` call, the state-changed and
descriptions-changed notifications are emitted immediately *before* the
corresponding executed/undone/redone/cleared event --- the operation event is
the last event of the call's trace, so the pair is never interleaved with a
subsequent operation's events. -/
theorem C8_amended_notify_precede_op
    (m1 : CM) (st1 : Store) (cmd : Cmd)
    (hmod : cmd.isModifying = true) (hok : (cmd.execute st1).1 = true)
    (m2 : CM) (st2 : Store) (top2 : Cmd) (rest2 : List Cmd)
    (hu : m2.undoStack = top2 :: rest2) (huok : (top2.undo st2).1 = true)
    (m3 : CM) (st3 : Store) (top3 : Cmd) (rest3 : List Cmd)
    (hr : m3.redoStack = top3 :: rest3) (hrok : (top3.execute st3).1 = true)
    (m4 : CM) :
    (m1.executeCommand (some cmd) st1).2.2.2
      = stateEvents (m1.executeCommand (some cmd) st1).2.1
          ++ [.commandExecuted (topDescription (m1.executeCommand (some cmd) st1).2.1)] ∧
    (m2.undo st2).2.2.2
      = stateEvents (m2.undo st2).2.1
          ++ [.commandUndone ((top2.undo st2).2.1.getDescription)] ∧
    (m3.redo st3).2.2.2
      = stateEvents (m3.redo st3).2.1
          ++ [.commandRedone ((top3.execute st3).2.1.getDescription)] ∧
    (m4.clearHistory).2 = stateEvents (m4.clearHistory).1 ++ [.historyCleared] := by
  have hmod' : ¬ cmd.isModifying = false := by simp [hmod]
  have hok' : ¬ (cmd.execute st1).1 = false := by simp [hok]
  have huok' : ¬ (top2.undo st2).1 = false := by simp [huok]
  have hrok' : ¬ (top3.execute st3).1 = false := by simp [hrok]
  refine ⟨?_, ?_, ?_, rfl⟩
  · simp [CM.executeCommand, hmod', hok']
  · unfold CM.undo
    rw [hu]
    simp [huok']
  · unfold CM.redo
    rw [hr]
    simp [hrok']

/-- Witness for the amended C8 at concrete inputs (one successful execute,
undo, redo and clear). -/
theorem C8_amended_witness :
    (Cmd.add (some 0) cardX "main" 1 0 false []).isModifying = true ∧
    ((Cmd.add (some 0) cardX "main" 1 0 false []).execute emptyStore).1 = true ∧
    (CM.mk [.add (some 0) cardX "main" 1 0 true [0]] [] 100 true false).undoStack
      = [.add (some 0) cardX "main" 1 0 true [0]] ∧
    ((Cmd.add (some 0) cardX "main" 1 0 true [0]).undo emptyStore).1 = true ∧
    (CM.mk [] [.add (some 0) cardX "main" 1 0 false []] 100 true false).redoStack
      = [.add (some 0) cardX "main" 1 0 false []] ∧
    (baseCM.clearHistory).2 = stateEvents (baseCM.clearHistory).1 ++ [.historyCleared] :=
  ⟨by decide, by decide, rfl, by decide, rfl,
   (C8_amended_notify_precede_op
      baseCM emptyStore (.add (some 0) cardX "main" 1 0 false []) (by decide) (by decide)
      (CM.mk [.add (some 0) cardX "main" 1 0 true [0]] [] 100 true false) emptyStore
      (.add (some 0) cardX "main" 1 0 true [0]) [] rfl (by decide)
      (CM.mk [] [.add (some 0) cardX "main" 1 0 false []] 100 true false) emptyStore
      (.add (some 0) cardX "main" 1 0 false []) [] rfl (by decide)
      baseCM).2.2.2⟩

/-! ### C2: Scenario D (merged add, single undo) -/

/-- C2, evaluated at the claimed scenario: both executes succeed and merge
(undo-stack length 1, description "Add 2x X to main deck"), the single undo
succeeds, but one copy of X is left in the main zone --- the document does NOT
show "no X in main".  `mergeWith` absorbs only `m_count`, not the merged
command's recorded `m_addedIndexes`, so the merged entry's undo reverses one
copy instead of two, contradicting the merge contract ("incorporate the
effect of the other command") and the undo contract ("reverse exactly what
execute() did"). -/
theorem C2_single_undo_leaves_copy :
    scenarioD1.1 = true ∧
    scenarioD2.1 = true ∧
    scenarioD2.2.1.undoStack.length = 1 ∧
    topDescription scenarioD2.2.1 = "Add 2x X to main deck" ∧
    countNameZone (scenarioD2.2.2.1 0) "X" "main" = 2 ∧
    scenarioD3.1 = true ∧
    countNameZone (scenarioD3.2.2.1 0) "X" "main" = 1 ∧
    ¬ countNameZone (scenarioD3.2.2.1 0) "X" "main" = 0 := by
  refine ⟨rfl, rfl, rfl, rfl, rfl, rfl, rfl, by decide⟩

/-! ### Generic list lemmas -/

theorem findDecomp (p : Entry → Bool) :
    ∀ (l : List Entry) (e : Entry), l.find? p = some e →
      ∃ A B, l = A ++ e :: B ∧ ∀ x ∈ A, ¬ p x = true := by
  intro l
  induction l with
  | nil => intro e h; simp at h
  | cons a t ih =>
      intro e h
      by_cases hp : p a = true
      · rw [List.find?_cons_of_pos _ hp] at h
        injection h with h
        subst h
        exact ⟨[], t, rfl, by simp⟩
      · rw [List.find?_cons_of_neg _ hp] at h
        obtain ⟨A, B, hl, hA⟩ := ih e h
        refine ⟨a :: A, B, by rw [hl]; rfl, ?_⟩
        intro x hx
        rcases List.mem_cons.mp hx with rfl | hx
        · exact hp
        · exact hA x hx

theorem nodupMid (l₁ l₂ : List Nat) (a : Nat) (h : (l₁ ++ a :: l₂).Nodup) :
    a ∉ l₁ ∧ a ∉ l₂ := by
  have h2 := List.nodup_middle.mp h
  rcases List.nodup_cons.mp h2 with ⟨hna, _⟩
  exact ⟨fun hm => hna (List.mem_append.mpr (Or.inl hm)),
         fun hm => hna (List.mem_append.mpr (Or.inr hm))⟩

theorem permMidEnd (A : List Entry) (e : Entry) (B : List Entry) :
    (A ++ e :: B).Perm (A ++ B ++ [e]) :=
  (List.perm_middle).trans (List.perm_append_singleton e (A ++ B)).symm

theorem sumGeLen : ∀ (l : List Int), (∀ x ∈ l, 1 ≤ x) → (l.length : Int) ≤ l.sum := by
  intro l
  induction l with
  | nil => simp
  | cons a t ih =>
      intro h
      have ha := h a (by simp)
      have ht := ih (fun x hx => h x (List.mem_cons_of_mem a hx))
      simp only [List.length_cons, List.sum_cons]
      push_cast
      omega

/-! ### Counting lemmas -/

theorem countNameZone_eq_countL (d : Doc) (name z : String) :
    countNameZone d name z = countL name z d.entries := rfl

theorem countL_append (name z : String) (A B : List Entry) :
    countL name z (A ++ B) = countL name z A + countL name z B := by
  simp [countL, List.filter_append]

theorem countL_cons (name z : String) (e : Entry) (L : List Entry) :
    countL name z (e :: L)
      = (if nameMatch name z e = true then e.count else 0) + countL name z L := by
  simp only [countL, List.filter_cons]
  split
  · simp
  · simp

theorem countL_nonneg (name z : String) (L : List Entry) (h : ∀ x ∈ L, 1 ≤ x.count) :
    0 ≤ countL name z L := by
  have := sumGeLen ((L.filter (nameMatch name z)).map Entry.count) (by
    intro x hx
    obtain ⟨e, he, rfl⟩ := List.mem_map.mp hx
    exact h e (List.mem_of_mem_filter he))
  simp only [countL]
  omega

theorem countL_pos_of_filter_ne (name z : String) (L : List Entry)
    (h : ∀ x ∈ L, 1 ≤ x.count) (hne : L.filter (nameMatch name z) ≠ []) :
    1 ≤ countL name z L := by
  have hlen : 1 ≤ (L.filter (nameMatch name z)).length := by
    rcases hfe : L.filter (nameMatch name z) with _ | ⟨a, t⟩
    · exact absurd hfe hne
    · simp
  have := sumGeLen ((L.filter (nameMatch name z)).map Entry.count) (by
    intro x hx
    obtain ⟨e, he, rfl⟩ := List.mem_map.mp hx
    exact h e (List.mem_of_mem_filter he))
  simp only [countL]
  rw [List.length_map] at this
  omega

theorem countL_zero_filter (name z : String) (L : List Entry)
    (h : ∀ x ∈ L, 1 ≤ x.count) (hz : countL name z L = 0) :
    L.filter (nameMatch name z) = [] := by
  by_contra hne
  have := countL_pos_of_filter_ne name z L h hne
  omega

/-! ### Lookup lemmas -/

theorem exactPred_nameMatch (c : ExactCard) (z : String) (e : Entry)
    (h : exactPred c z e = true) : nameMatch c.name z e = true := by
  simp only [exactPred, Bool.and_eq_true, beq_iff_eq] at h
  simp [nameMatch, h.1.1.1, h.2]

theorem findCard_mem (d : Doc) (name z : String) (h : Nat)
    (hf : findCard d name z = some h) :
    ∃ e ∈ d.entries, e.eid = h ∧ nameMatch name z e = true := by
  simp only [findCard, Option.map_eq_some'] at hf
  obtain ⟨e, he, rfl⟩ := hf
  exact ⟨e, List.mem_of_find?_eq_some he, rfl, List.find?_some he⟩

theorem findCard_none_iff (d : Doc) (name z : String) :
    findCard d name z = none ↔ d.entries.filter (nameMatch name z) = [] := by
  simp only [findCard, Option.map_eq_none', List.find?_eq_none, List.filter_eq_nil_iff]

theorem findForRemoval_mem (d : Doc) (c : ExactCard) (z : String) (h : Nat)
    (hf : findForRemoval d c z = some h) :
    ∃ e ∈ d.entries, e.eid = h ∧ nameMatch c.name z e = true := by
  unfold findForRemoval at hf
  rcases hfull : findCardFull d c z with _ | h'
  · rw [hfull] at hf
    exact findCard_mem d c.name z h hf
  · rw [hfull] at hf
    injection hf with hf
    subst hf
    simp only [findCardFull, Option.map_eq_some'] at hfull
    obtain ⟨e, he, rfl⟩ := hfull
    exact ⟨e, List.mem_of_find?_eq_some he, rfl,
           exactPred_nameMatch c z e (List.find?_some he)⟩

theorem findForRemoval_none_iff (d : Doc) (c : ExactCard) (z : String) :
    findForRemoval d c z = none ↔ d.entries.filter (nameMatch c.name z) = [] := by
  constructor
  · intro hf
    unfold findForRemoval at hf
    rcases hfull : findCardFull d c z with _ | h'
    · rw [hfull] at hf
      exact (findCard_none_iff d c.name z).mp hf
    · rw [hfull] at hf
      exact absurd hf (by simp)
  · intro hfe
    have hnm : ∀ x ∈ d.entries, ¬ nameMatch c.name z x = true :=
      List.filter_eq_nil_iff.mp hfe
    unfold findForRemoval
    have h1 : findCardFull d c z = none := by
      simp only [findCardFull, Option.map_eq_none', List.find?_eq_none]
      intro x hx hex
      exact hnm x hx (exactPred_nameMatch c z x hex)
    rw [h1]
    simp only [findCard, Option.map_eq_none', List.find?_eq_none]
    exact hnm

/-! ### Document operation lemmas on decomposed entry lists -/

theorem map_upd_id (A : List Entry) (h : Nat) (v : Int) (hA : ∀ x ∈ A, x.eid ≠ h) :
    A.map (fun e => if e.eid == h then { e with count := v } else e) = A := by
  conv_rhs => rw [← List.map_id A]
  refine List.map_congr_left ?_
  intro x hx
  have : (x.eid == h) = false := by
    simp [hA x hx]
  simp [this]

theorem filter_ne_id (A : List Entry) (h : Nat) (hA : ∀ x ∈ A, x.eid ≠ h) :
    A.filter (fun e => !(e.eid == h)) = A := by
  rw [List.filter_eq_self]
  intro x hx
  simp [hA x hx]

theorem getCount_decomp (A B : List Entry) (e : Entry) (nid : Nat)
    (hA : ∀ x ∈ A, x.eid ≠ e.eid) :
    getCount ⟨A ++ e :: B, nid⟩ e.eid = e.count := by
  unfold getCount
  have hAn : A.find? (fun x => x.eid == e.eid) = none := by
    rw [List.find?_eq_none]
    intro x hx
    simp [hA x hx]
  rw [List.find?_append, hAn]
  simp

theorem setCount_decomp (A B : List Entry) (e : Entry) (nid : Nat) (v : Int)
    (hA : ∀ x ∈ A, x.eid ≠ e.eid) (hB : ∀ x ∈ B, x.eid ≠ e.eid) :
    setCount ⟨A ++ e :: B, nid⟩ e.eid v = ⟨A ++ { e with count := v } :: B, nid⟩ := by
  simp only [setCount, List.map_append, List.map_cons]
  rw [map_upd_id A e.eid v hA, map_upd_id B e.eid v hB]
  simp

theorem removeRow_decomp (A B : List Entry) (e : Entry) (nid : Nat)
    (hA : ∀ x ∈ A, x.eid ≠ e.eid) (hB : ∀ x ∈ B, x.eid ≠ e.eid) :
    removeRow ⟨A ++ e :: B, nid⟩ e.eid = ⟨A ++ B, nid⟩ := by
  simp only [removeRow, List.filter_append, List.filter_cons]
  rw [filter_ne_id A e.eid hA, filter_ne_id B e.eid hB]
  simp

/-! ### Well-formedness lemmas -/

theorem WF_decomp_ne (A B : List Entry) (e : Entry) (nid : Nat)
    (h : WF ⟨A ++ e :: B, nid⟩) :
    (∀ x ∈ A, x.eid ≠ e.eid) ∧ (∀ x ∈ B, x.eid ≠ e.eid) := by
  obtain ⟨hnd, _, _⟩ := h
  simp only [List.map_append, List.map_cons] at hnd
  obtain ⟨hA, hB⟩ := nodupMid (A.map Entry.eid) (B.map Entry.eid) e.eid hnd
  constructor
  · intro x hx heq
    exact hA (List.mem_map.mpr ⟨x, hx, heq⟩)
  · intro x hx heq
    exact hB (List.mem_map.mpr ⟨x, hx, heq⟩)

theorem WF_setCount_mid (A B : List Entry) (e : Entry) (nid : Nat) (v : Int)
    (h : WF ⟨A ++ e :: B, nid⟩) (hv : 1 ≤ v) :
    WF ⟨A ++ { e with count := v } :: B, nid⟩ := by
  obtain ⟨hnd, hbd, hct⟩ := h
  refine ⟨?_, ?_, ?_⟩
  · simpa using hnd
  · intro x hx
    rcases List.mem_append.mp hx with hx | hx
    · exact hbd x (List.mem_append.mpr (Or.inl hx))
    · rcases List.mem_cons.mp hx with rfl | hx
      · exact hbd e (List.mem_append.mpr (Or.inr (List.mem_cons_self e B)))
      · exact hbd x (List.mem_append.mpr (Or.inr (List.mem_cons_of_mem e hx)))
  · intro x hx
    rcases List.mem_append.mp hx with hx | hx
    · exact hct x (List.mem_append.mpr (Or.inl hx))
    · rcases List.mem_cons.mp hx with rfl | hx
      · exact hv
      · exact hct x (List.mem_append.mpr (Or.inr (List.mem_cons_of_mem e hx)))

theorem WF_removeMid (A B : List Entry) (e : Entry) (nid : Nat)
    (h : WF ⟨A ++ e :: B, nid⟩) : WF ⟨A ++ B, nid⟩ := by
  obtain ⟨hnd, hbd, hct⟩ := h
  have hsub : (A ++ B).Sublist (A ++ e :: B) :=
    List.Sublist.append_left (List.sublist_cons_self e B) A
  refine ⟨?_, ?_, ?_⟩
  · exact hnd.sublist (hsub.map Entry.eid)
  · intro x hx
    exact hbd x (hsub.mem hx)
  · intro x hx
    exact hct x (hsub.mem hx)

theorem WF_append_fresh (d : Doc) (c : ExactCard) (z : String) (h : WF d) :
    WF ⟨d.entries ++ [{ eid := d.nextId, name := c.name, pid := c.pid,
                        num := c.num, zone := z, count := 1 }], d.nextId + 1⟩ := by
  obtain ⟨hnd, hbd, hct⟩ := h
  refine ⟨?_, ?_, ?_⟩
  · rw [List.map_append, List.map_cons, List.map_nil, List.nodup_middle]
    refine List.nodup_cons.mpr ⟨?_, by simpa using hnd⟩
    intro hm
    rw [List.append_nil] at hm
    obtain ⟨x, hx, hxe⟩ := List.mem_map.mp hm
    exact (Nat.ne_of_lt (hbd x hx)) hxe
  · intro x hx
    rcases List.mem_append.mp hx with hx | hx
    · exact Nat.lt_trans (hbd x hx) (Nat.lt_succ_self _)
    · rcases List.mem_cons.mp hx with rfl | hx
      · exact Nat.lt_succ_self _
      · simp at hx
  · intro x hx
    rcases List.mem_append.mp hx with hx | hx
    · exact hct x hx
    · rcases List.mem_cons.mp hx with rfl | hx
      · exact le_refl 1
      · simp at hx

/-! ### Count-level effect lemmas -/

theorem countL_nil (nm zz : String) : countL nm zz [] = 0 := rfl

theorem countL_mid (nm zz : String) (A B : List Entry) (e : Entry) :
    countL nm zz (A ++ e :: B)
      = countL nm zz A + (if nameMatch nm zz e = true then e.count else 0) + countL nm zz B := by
  rw [countL_append, countL_cons]
  ring

theorem nameMatch_elim (cn z nm zz : String) (e : Entry)
    (hm : nameMatch cn z e = true) (hne : ¬(nm = cn ∧ zz = z)) :
    nameMatch nm zz e = false := by
  simp only [nameMatch, Bool.and_eq_true, beq_iff_eq] at hm
  cases h : nameMatch nm zz e
  · rfl
  · simp only [nameMatch, Bool.and_eq_true, beq_iff_eq] at h
    exact absurd ⟨h.1.symm.trans hm.1, h.2.symm.trans hm.2⟩ hne

theorem addCard_effect (d : Doc) (c : ExactCard) (z : String) (h : WF d) :
    WF (addCard d c z).2 ∧
    countNameZone (addCard d c z).2 c.name z = countNameZone d c.name z + 1 ∧
    (∀ nm zz : String, ¬(nm = c.name ∧ zz = z) →
      countNameZone (addCard d c z).2 nm zz = countNameZone d nm zz) := by
  obtain ⟨L, nid⟩ := d
  rcases hf : (L : List Entry).find? (exactPred c z) with _ | e
  · have hfresh := WF_append_fresh ⟨L, nid⟩ c z h
    have haddc : addCard ⟨L, nid⟩ c z
        = (nid, ⟨L ++ [{ eid := nid, name := c.name, pid := c.pid,
                         num := c.num, zone := z, count := 1 }], nid + 1⟩) := by
      unfold addCard
      rw [hf]
    rw [haddc]
    refine ⟨hfresh, ?_, ?_⟩
    · have hm : nameMatch c.name z (⟨nid, c.name, c.pid, c.num, z, 1⟩ : Entry) = true := by
        simp [nameMatch]
      simp only [countNameZone_eq_countL, countL_append, countL_cons, countL_nil, hm,
        if_true]
      ring
    · intro nm zz hne
      have hm0 : nameMatch c.name z (⟨nid, c.name, c.pid, c.num, z, 1⟩ : Entry) = true := by
        simp [nameMatch]
      have hm : nameMatch nm zz (⟨nid, c.name, c.pid, c.num, z, 1⟩ : Entry) = false :=
        nameMatch_elim c.name z nm zz _ hm0 hne
      simp only [countNameZone_eq_countL, countL_append, countL_cons, countL_nil, hm]
      simp
  · obtain ⟨A, B, hl, _⟩ := findDecomp (exactPred c z) L e hf
    subst hl
    have hnm : nameMatch c.name z e = true :=
      exactPred_nameMatch c z e (List.find?_some hf)
    obtain ⟨hA, hB⟩ := WF_decomp_ne A B e nid h
    have hcnt : 1 ≤ e.count :=
      h.2.2 e (List.mem_append.mpr (Or.inr (List.mem_cons_self e B)))
    have haddc : addCard ⟨A ++ e :: B, nid⟩ c z
        = (e.eid, ⟨A ++ { e with count := e.count + 1 } :: B, nid⟩) := by
      unfold addCard
      rw [hf]
      show (e.eid, setCount ⟨A ++ e :: B, nid⟩ e.eid (e.count + 1))
          = (e.eid, (⟨A ++ { e with count := e.count + 1 } :: B, nid⟩ : Doc))
      rw [setCount_decomp A B e nid (e.count + 1) hA hB]
    rw [haddc]
    refine ⟨WF_setCount_mid A B e nid (e.count + 1) h (by omega), ?_, ?_⟩
    · have hnm' : nameMatch c.name z { e with count := e.count + 1 } = true := by
        simpa [nameMatch] using hnm
      simp only [countNameZone_eq_countL, countL_mid, hnm, hnm', if_true]
      ring
    · intro nm zz hne
      have h1 : nameMatch nm zz e = false := nameMatch_elim c.name z nm zz e hnm hne
      have h2 : nameMatch nm zz { e with count := e.count + 1 } = false := by
        simpa [nameMatch] using h1
      simp only [countNameZone_eq_countL, countL_mid, h1, h2]
      simp

/-- Count-level specification of the `RemoveCardCommand::execute` loop: it
removes `min fuel (count in zone)` copies one at a time, records one pair per
removed copy, ends with a `wasRowRemoved` record whenever it drained the zone,
and never touches other name/zone counts. -/
theorem removeExecLoop_spec (c : ExactCard) (z : String) :
    ∀ (fuel : Nat) (d : Doc), WF d →
      WF (removeExecLoop c z fuel d).1 ∧
      (removeExecLoop c z fuel d).2.2
        = min (fuel : Int) (countNameZone d c.name z) ∧
      countNameZone (removeExecLoop c z fuel d).1 c.name z
        = countNameZone d c.name z - (removeExecLoop c z fuel d).2.2 ∧
      (((removeExecLoop c z fuel d).2.1.length : Int) = (removeExecLoop c z fuel d).2.2) ∧
      (countNameZone (removeExecLoop c z fuel d).1 c.name z = 0 →
        1 ≤ (removeExecLoop c z fuel d).2.2 →
        ∃ r0 hh, (removeExecLoop c z fuel d).2.1 = r0 ++ [(hh, true)]) ∧
      (∀ nm zz : String, ¬(nm = c.name ∧ zz = z) →
        countNameZone (removeExecLoop c z fuel d).1 nm zz = countNameZone d nm zz) := by
  intro fuel
  induction fuel with
  | zero =>
      intro d hWF
      have h0 : 0 ≤ countNameZone d c.name z := by
        rw [countNameZone_eq_countL]; exact countL_nonneg _ _ _ hWF.2.2
      refine ⟨hWF, ?_, ?_, ?_, ?_, fun nm zz _ => rfl⟩
      · show (0 : Int) = min ((0 : Nat) : Int) (countNameZone d c.name z)
        omega
      · show countNameZone d c.name z = countNameZone d c.name z - 0
        omega
      · show ((([] : List (Nat × Bool)).length : Int)) = (0 : Int)
        simp
      · intro _ hcon
        have h01 : (1 : Int) ≤ 0 := hcon
        exact absurd h01 (by norm_num)
  | succ k ih =>
      intro d hWF
      rcases hf : findForRemoval d c z with _ | h
      · have hfe := (findForRemoval_none_iff d c z).mp hf
        have ht : countNameZone d c.name z = 0 := by
          rw [countNameZone_eq_countL]
          simp [countL, hfe]
        have hloop : removeExecLoop c z (k + 1) d = (d, [], 0) := by
          simp only [removeExecLoop, hf]
        rw [hloop]
        refine ⟨hWF, ?_, ?_, ?_, ?_, fun nm zz _ => rfl⟩
        · show (0 : Int) = min (((k + 1 : Nat)) : Int) (countNameZone d c.name z)
          rw [ht]
          omega
        · show countNameZone d c.name z = countNameZone d c.name z - 0
          omega
        · show ((([] : List (Nat × Bool)).length : Int)) = (0 : Int)
          simp
        · intro _ hcon
          have h01 : (1 : Int) ≤ 0 := hcon
          exact absurd h01 (by norm_num)
      · obtain ⟨e, hmem, heid, hnm⟩ := findForRemoval_mem d c z h hf
        subst heid
        obtain ⟨L, nid⟩ := d
        obtain ⟨A, B, hl⟩ := List.append_of_mem hmem
        subst hl
        obtain ⟨hA, hB⟩ := WF_decomp_ne A B e nid hWF
        have hcnt : 1 ≤ e.count :=
          hWF.2.2 e (List.mem_append.mpr (Or.inr (List.mem_cons_self e B)))
        have hA0 : 0 ≤ countL c.name z A :=
          countL_nonneg _ _ _ (fun x hx => hWF.2.2 x (List.mem_append.mpr (Or.inl hx)))
        have hB0 : 0 ≤ countL c.name z B :=
          countL_nonneg _ _ _
            (fun x hx => hWF.2.2 x (List.mem_append.mpr (Or.inr (List.mem_cons_of_mem e hx))))
        have htd : countNameZone ⟨A ++ e :: B, nid⟩ c.name z
            = countL c.name z A + e.count + countL c.name z B := by
          rw [countNameZone_eq_countL]
          show countL c.name z (A ++ e :: B) = _
          rw [countL_mid, if_pos hnm]
        by_cases hc : 1 < e.count
        · -- decrement branch
          have hstep : removeExecLoop c z (k + 1) ⟨A ++ e :: B, nid⟩
              = ((removeExecLoop c z k ⟨A ++ { e with count := e.count - 1 } :: B, nid⟩).1,
                 (e.eid, false)
                   :: (removeExecLoop c z k ⟨A ++ { e with count := e.count - 1 } :: B, nid⟩).2.1,
                 (removeExecLoop c z k ⟨A ++ { e with count := e.count - 1 } :: B, nid⟩).2.2 + 1) := by
            simp only [removeExecLoop, hf]
            rw [getCount_decomp A B e nid hA, if_pos hc,
                setCount_decomp A B e nid (e.count - 1) hA hB]
          have hWF' : WF ⟨A ++ { e with count := e.count - 1 } :: B, nid⟩ :=
            WF_setCount_mid A B e nid (e.count - 1) hWF (by omega)
          have htd' : countNameZone ⟨A ++ { e with count := e.count - 1 } :: B, nid⟩ c.name z
              = countL c.name z A + (e.count - 1) + countL c.name z B := by
            rw [countNameZone_eq_countL]
            show countL c.name z (A ++ { e with count := e.count - 1 } :: B) = _
            rw [countL_mid, if_pos (by simpa [nameMatch] using hnm)]
          obtain ⟨ih1, ih2, ih3, ih4, ih5, ih6⟩ := ih ⟨A ++ { e with count := e.count - 1 } :: B, nid⟩ hWF'
          rw [hstep]
          refine ⟨ih1, ?_, ?_, ?_, ?_, ?_⟩
          · show (removeExecLoop c z k _).2.2 + 1 = _
            rw [ih2, htd', htd]
            push_cast
            omega
          · show countNameZone _ c.name z = _ - ((removeExecLoop c z k _).2.2 + 1)
            rw [ih3, htd', htd]
            omega
          · show ((_ :: (removeExecLoop c z k _).2.1).length : Int)
                = (removeExecLoop c z k _).2.2 + 1
            rw [List.length_cons]
            push_cast
            omega
          · intro hz0 _
            show ∃ r0 hh, (e.eid, false) :: (removeExecLoop c z k _).2.1 = r0 ++ [(hh, true)]
            have hz0' : countNameZone (removeExecLoop c z k
                ⟨A ++ { e with count := e.count - 1 } :: B, nid⟩).1 c.name z = 0 := hz0
            by_cases hk1 : 1 ≤ (removeExecLoop c z k ⟨A ++ { e with count := e.count - 1 } :: B, nid⟩).2.2
            · obtain ⟨r0, hh, hr⟩ := ih5 hz0' hk1
              exact ⟨(e.eid, false) :: r0, hh, by rw [hr]; rfl⟩
            · exfalso
              rw [ih3, htd'] at hz0'
              rw [ih2, htd'] at hk1
              omega
          · intro nm zz hne
            show countNameZone (removeExecLoop c z k _).1 nm zz = _
            rw [ih6 nm zz hne]
            have h1 : nameMatch nm zz e = false := nameMatch_elim c.name z nm zz e hnm hne
            have h2 : nameMatch nm zz { e with count := e.count - 1 } = false := by
              simpa [nameMatch] using h1
            rw [countNameZone_eq_countL, countNameZone_eq_countL]
            show countL nm zz (A ++ { e with count := e.count - 1 } :: B)
                = countL nm zz (A ++ e :: B)
            rw [countL_mid, countL_mid, h1, h2]
            simp
        · -- remove-row branch: e.count = 1
          have hc1 : e.count = 1 := by omega
          have hstep : removeExecLoop c z (k + 1) ⟨A ++ e :: B, nid⟩
              = ((removeExecLoop c z k ⟨A ++ B, nid⟩).1,
                 (e.eid, true) :: (removeExecLoop c z k ⟨A ++ B, nid⟩).2.1,
                 (removeExecLoop c z k ⟨A ++ B, nid⟩).2.2 + 1) := by
            simp only [removeExecLoop, hf]
            rw [getCount_decomp A B e nid hA, if_neg hc,
                removeRow_decomp A B e nid hA hB]
          have hWF' : WF ⟨A ++ B, nid⟩ := WF_removeMid A B e nid hWF
          have htd' : countNameZone ⟨A ++ B, nid⟩ c.name z
              = countL c.name z A + countL c.name z B := by
            rw [countNameZone_eq_countL]
            show countL c.name z (A ++ B) = _
            rw [countL_append]
          obtain ⟨ih1, ih2, ih3, ih4, ih5, ih6⟩ := ih ⟨A ++ B, nid⟩ hWF'
          rw [hstep]
          refine ⟨ih1, ?_, ?_, ?_, ?_, ?_⟩
          · show (removeExecLoop c z k _).2.2 + 1 = _
            rw [ih2, htd', htd, hc1]
            push_cast
            omega
          · show countNameZone _ c.name z = _ - ((removeExecLoop c z k _).2.2 + 1)
            rw [ih3, htd', htd, hc1]
            omega
          · show ((_ :: (removeExecLoop c z k _).2.1).length : Int)
                = (removeExecLoop c z k _).2.2 + 1
            rw [List.length_cons]
            push_cast
            omega
          · intro hz0 _
            show ∃ r0 hh, (e.eid, true) :: (removeExecLoop c z k _).2.1 = r0 ++ [(hh, true)]
            have hz0' : countNameZone (removeExecLoop c z k ⟨A ++ B, nid⟩).1 c.name z = 0 := hz0
            by_cases hk1 : 1 ≤ (removeExecLoop c z k ⟨A ++ B, nid⟩).2.2
            · obtain ⟨r0, hh, hr⟩ := ih5 hz0' hk1
              exact ⟨(e.eid, true) :: r0, hh, by rw [hr]; rfl⟩
            · have hk0 : (removeExecLoop c z k ⟨A ++ B, nid⟩).2.2 = 0 := by
                rw [ih2, htd']
                rw [ih2, htd'] at hk1
                omega
              have hrl : (removeExecLoop c z k ⟨A ++ B, nid⟩).2.1 = [] := by
                have := ih4
                rw [hk0] at this
                rcases hr : (removeExecLoop c z k ⟨A ++ B, nid⟩).2.1 with _ | ⟨a, t⟩
                · rfl
                · rw [hr] at this
                  simp only [List.length_cons] at this
                  exact absurd this (by push_cast; omega)
              exact ⟨[], e.eid, by rw [hrl]; rfl⟩
          · intro nm zz hne
            show countNameZone (removeExecLoop c z k _).1 nm zz = _
            rw [ih6 nm zz hne]
            have h1 : nameMatch nm zz e = false := nameMatch_elim c.name z nm zz e hnm hne
            rw [countNameZone_eq_countL, countNameZone_eq_countL]
            show countL nm zz (A ++ B) = countL nm zz (A ++ e :: B)
            rw [countL_append, countL_mid, h1]
            simp

/-- One `RemoveCardCommand::undo` step restores exactly one copy: a
`wasRowRemoved` record re-adds a row (always possible), a decrement record
re-resolves by name+zone and increments (possible whenever at least one copy
is present). -/
theorem removeUndoStep_effect (c : ExactCard) (z : String) (d : Doc) (r : Nat × Bool)
    (hWF : WF d) (h : 1 ≤ countNameZone d c.name z ∨ r.2 = true) :
    WF (removeUndoStep c z d r) ∧
    countNameZone (removeUndoStep c z d r) c.name z = countNameZone d c.name z + 1 ∧
    (∀ nm zz : String, ¬(nm = c.name ∧ zz = z) →
      countNameZone (removeUndoStep c z d r) nm zz = countNameZone d nm zz) := by
  rcases r with ⟨x, fl⟩
  cases fl
  · have h1 : 1 ≤ countNameZone d c.name z := by
      rcases h with h | h
      · exact h
      · exact absurd h (by simp)
    rcases hf : findCard d c.name z with _ | hh
    · exfalso
      have hfe := (findCard_none_iff d c.name z).mp hf
      have : countNameZone d c.name z = 0 := by
        rw [countNameZone_eq_countL]
        simp [countL, hfe]
      omega
    · obtain ⟨e, hmem, heid, hnm⟩ := findCard_mem d c.name z hh hf
      subst heid
      obtain ⟨L, nid⟩ := d
      obtain ⟨A, B, hl⟩ := List.append_of_mem hmem
      subst hl
      obtain ⟨hA, hB⟩ := WF_decomp_ne A B e nid hWF
      have hcnt : 1 ≤ e.count :=
        hWF.2.2 e (List.mem_append.mpr (Or.inr (List.mem_cons_self e B)))
      have hstep : removeUndoStep c z ⟨A ++ e :: B, nid⟩ (x, false)
          = ⟨A ++ { e with count := e.count + 1 } :: B, nid⟩ := by
        simp only [removeUndoStep]
        rw [if_neg (by simp : ¬(((x, false) : Nat × Bool).2 = true))]
        rw [hf]
        show setCount ⟨A ++ e :: B, nid⟩ e.eid (getCount ⟨A ++ e :: B, nid⟩ e.eid + 1)
            = (⟨A ++ { e with count := e.count + 1 } :: B, nid⟩ : Doc)
        rw [getCount_decomp A B e nid hA,
            setCount_decomp A B e nid (e.count + 1) hA hB]
      rw [hstep]
      refine ⟨WF_setCount_mid A B e nid (e.count + 1) hWF (by omega), ?_, ?_⟩
      · have hnm' : nameMatch c.name z { e with count := e.count + 1 } = true := by
          simpa [nameMatch] using hnm
        rw [countNameZone_eq_countL, countNameZone_eq_countL]
        show countL c.name z (A ++ { e with count := e.count + 1 } :: B)
            = countL c.name z (A ++ e :: B) + 1
        rw [countL_mid, countL_mid, if_pos hnm, if_pos hnm']
        show _ = countL c.name z A + e.count + countL c.name z B + 1
        ring
      · intro nm zz hne
        have h1' : nameMatch nm zz e = false := nameMatch_elim c.name z nm zz e hnm hne
        have h2' : nameMatch nm zz { e with count := e.count + 1 } = false := by
          simpa [nameMatch] using h1'
        rw [countNameZone_eq_countL, countNameZone_eq_countL]
        show countL nm zz (A ++ { e with count := e.count + 1 } :: B)
            = countL nm zz (A ++ e :: B)
        rw [countL_mid, countL_mid, h1', h2']
        simp
  · have := addCard_effect d c z hWF
    simpa [removeUndoStep] using this

/-- Folding `RemoveCardCommand::undo` steps over any record list restores one
copy per record, provided at least one copy is present at the start. -/
theorem removeUndoFold_pos (c : ExactCard) (z : String) :
    ∀ (rs : List (Nat × Bool)) (d : Doc), WF d → 1 ≤ countNameZone d c.name z →
      WF (rs.foldl (removeUndoStep c z) d) ∧
      countNameZone (rs.foldl (removeUndoStep c z) d) c.name z
        = countNameZone d c.name z + rs.length ∧
      (∀ nm zz : String, ¬(nm = c.name ∧ zz = z) →
        countNameZone (rs.foldl (removeUndoStep c z) d) nm zz = countNameZone d nm zz) := by
  intro rs
  induction rs with
  | nil =>
      intro d hWF _
      exact ⟨hWF, by simp, fun nm zz _ => rfl⟩
  | cons r t ih =>
      intro d hWF h1
      obtain ⟨sWF, sInc, sOther⟩ := removeUndoStep_effect c z d r hWF (Or.inl h1)
      obtain ⟨iWF, iInc, iOther⟩ := ih (removeUndoStep c z d r) sWF (by omega)
      rw [List.foldl_cons]
      refine ⟨iWF, ?_, ?_⟩
      · rw [iInc, sInc]
        simp only [List.length_cons]
        push_cast
        ring
      · intro nm zz hne
        rw [iOther nm zz hne, sOther nm zz hne]

/-- Folding `RemoveCardCommand::undo` steps over a record list whose first
processed record is a `wasRowRemoved` one restores one copy per record even
starting from an emptied zone. -/
theorem removeUndoFold_first_true (c : ExactCard) (z : String) (x : Nat)
    (t : List (Nat × Bool)) (d : Doc) (hWF : WF d) :
    WF (((x, true) :: t).foldl (removeUndoStep c z) d) ∧
    countNameZone (((x, true) :: t).foldl (removeUndoStep c z) d) c.name z
      = countNameZone d c.name z + (t.length + 1) ∧
    (∀ nm zz : String, ¬(nm = c.name ∧ zz = z) →
      countNameZone (((x, true) :: t).foldl (removeUndoStep c z) d) nm zz
        = countNameZone d nm zz) := by
  have h0 : 0 ≤ countNameZone d c.name z := by
    rw [countNameZone_eq_countL]; exact countL_nonneg _ _ _ hWF.2.2
  obtain ⟨sWF, sInc, sOther⟩ := removeUndoStep_effect c z d (x, true) hWF (Or.inr rfl)
  obtain ⟨iWF, iInc, iOther⟩ := removeUndoFold_pos c z t (removeUndoStep c z d (x, true)) sWF
    (by omega)
  rw [List.foldl_cons]
  refine ⟨iWF, ?_, ?_⟩
  · rw [iInc, sInc]
    push_cast
    ring
  · intro nm zz hne
    rw [iOther nm zz hne, sOther nm zz hne]

theorem setDoc_self (st : Store) (i : Nat) (d : Doc) : setDoc st i d i = d := by
  simp [setDoc]

theorem removeExec_unfold (i : Nat) (c : ExactCard) (z : String) (n ts : Int) (ex : Bool)
    (ar : Int) (rc : List (Nat × Bool)) (st : Store)
    (hv : isValidCard c = true) (hn : 0 < n) :
    (Cmd.remove (some i) c z n ts ex ar rc).execute st
      = (decide (0 < (removeExecLoop c z n.toNat (st i)).2.2),
         .remove (some i) c z n ts true (removeExecLoop c z n.toNat (st i)).2.2
           (removeExecLoop c z n.toNat (st i)).2.1,
         setDoc st i (removeExecLoop c z n.toNat (st i)).1) := by
  have hcond : ¬(isValidCard c = false ∨ n ≤ 0) := by simp [hv]; omega
  simp [Cmd.execute, hcond]

theorem removeUndo_unfold (i : Nat) (c : ExactCard) (z : String) (n ts ar : Int)
    (rc : List (Nat × Bool)) (st : Store) (hv : isValidCard c = true) :
    (Cmd.remove (some i) c z n ts true ar rc).undo st
      = (true, .remove (some i) c z n ts false ar [],
         setDoc st i (rc.reverse.foldl (removeUndoStep c z) (st i))) := by
  have hcond : ¬(true = false ∨ isValidCard c = false) := by simp [hv]
  simp [Cmd.undo, hcond, hv]

/-- C4: a RemoveCardCommand asking for `n` copies when the zone holds only
`m` with `0 < m < n` succeeds, removes exactly those `m` copies (recording
`m_actuallyRemoved = m` with one record per copy, and touching no other
name/zone count), and its undo restores exactly those `m` copies, not `n`;
when the zone holds zero copies, execute() returns false. -/
theorem C4_partial_removal
    (i j : Nat) (c : ExactCard) (z : String) (n ts : Int) (ex : Bool) (ar : Int)
    (rc : List (Nat × Bool)) (st st0 : Store) (m : Int)
    (hv : isValidCard c = true) (hWF : WF (st i))
    (hm : countNameZone (st i) c.name z = m) (h0 : 0 < m) (hmn : m < n)
    (hWF0 : WF (st0 j)) (hz0 : countNameZone (st0 j) c.name z = 0) :
    ((Cmd.remove (some i) c z n ts ex ar rc).execute st).1 = true ∧
    (∃ recs : List (Nat × Bool),
      ((Cmd.remove (some i) c z n ts ex ar rc).execute st).2.1
        = .remove (some i) c z n ts true m recs ∧ (recs.length : Int) = m) ∧
    countNameZone (((Cmd.remove (some i) c z n ts ex ar rc).execute st).2.2 i) c.name z = 0 ∧
    (∀ nm zz : String, ¬(nm = c.name ∧ zz = z) →
      countNameZone (((Cmd.remove (some i) c z n ts ex ar rc).execute st).2.2 i) nm zz
        = countNameZone (st i) nm zz) ∧
    ((((Cmd.remove (some i) c z n ts ex ar rc).execute st).2.1).undo
        (((Cmd.remove (some i) c z n ts ex ar rc).execute st).2.2)).1 = true ∧
    countNameZone
      (((((Cmd.remove (some i) c z n ts ex ar rc).execute st).2.1).undo
          (((Cmd.remove (some i) c z n ts ex ar rc).execute st).2.2)).2.2 i) c.name z = m ∧
    (∀ nm zz : String, ¬(nm = c.name ∧ zz = z) →
      countNameZone
        (((((Cmd.remove (some i) c z n ts ex ar rc).execute st).2.1).undo
            (((Cmd.remove (some i) c z n ts ex ar rc).execute st).2.2)).2.2 i) nm zz
        = countNameZone (st i) nm zz) ∧
    ((Cmd.remove (some j) c z n ts ex ar rc).execute st0).1 = false := by
  have hn : 0 < n := by omega
  have hnn : (n.toNat : Int) = n := by omega
  have hunf := removeExec_unfold i c z n ts ex ar rc st hv hn
  obtain ⟨s1, s2, s3, s4, s5, s6⟩ := removeExecLoop_spec c z n.toNat (st i) hWF
  have hk : (removeExecLoop c z n.toNat (st i)).2.2 = m := by
    rw [s2, hm, hnn]
    omega
  have hc0 : countNameZone (removeExecLoop c z n.toNat (st i)).1 c.name z = 0 := by
    rw [s3, hk, hm]
    omega
  obtain ⟨r0, hh, hrec⟩ := s5 hc0 (by omega)
  have hreclen : ((removeExecLoop c z n.toNat (st i)).2.1.length : Int) = m := by
    rw [s4, hk]
  -- the m = 0 conjunct
  have hzero : ((Cmd.remove (some j) c z n ts ex ar rc).execute st0).1 = false := by
    rw [removeExec_unfold j c z n ts ex ar rc st0 hv hn]
    obtain ⟨_, t2, _, _, _, _⟩ := removeExecLoop_spec c z n.toNat (st0 j) hWF0
    have : (removeExecLoop c z n.toNat (st0 j)).2.2 = 0 := by
      rw [t2, hz0]
      have : (0 : Int) ≤ (n.toNat : Int) := by positivity
      omega
    simp [this]
  rw [hunf]
  refine ⟨by simp [hk]; omega, ⟨(removeExecLoop c z n.toNat (st i)).2.1, by rw [hk], hreclen⟩,
         ?_, ?_, ?_, ?_, ?_, hzero⟩
  · show countNameZone (setDoc st i (removeExecLoop c z n.toNat (st i)).1 i) c.name z = 0
    rw [setDoc_self]
    exact hc0
  · intro nm zz hne
    show countNameZone (setDoc st i (removeExecLoop c z n.toNat (st i)).1 i) nm zz = _
    rw [setDoc_self]
    exact s6 nm zz hne
  · show ((Cmd.remove (some i) c z n ts true _ _).undo _).1 = true
    rw [removeUndo_unfold i c z n ts _ _ _ hv]
  · show countNameZone (((Cmd.remove (some i) c z n ts true _ _).undo _).2.2 i) c.name z = m
    rw [removeUndo_unfold i c z n ts _ _ _ hv]
    simp only []
    rw [setDoc_self, setDoc_self]
    rw [hrec, List.reverse_append]
    simp only [List.reverse_cons, List.reverse_nil, List.nil_append, List.singleton_append]
    obtain ⟨_, u2, _⟩ := removeUndoFold_first_true c z hh r0.reverse
      (removeExecLoop c z n.toNat (st i)).1 s1
    rw [List.foldl_cons] at u2 ⊢
    rw [u2, hc0]
    have : (r0.length : Int) + 1 = m := by
      rw [hrec] at hreclen
      simpa using hreclen
    simp only [List.length_reverse]
    omega
  · intro nm zz hne
    show countNameZone (((Cmd.remove (some i) c z n ts true _ _).undo _).2.2 i) nm zz = _
    rw [removeUndo_unfold i c z n ts _ _ _ hv]
    simp only []
    rw [setDoc_self, setDoc_self]
    rw [hrec, List.reverse_append]
    simp only [List.reverse_cons, List.reverse_nil, List.nil_append, List.singleton_append]
    obtain ⟨_, _, u3⟩ := removeUndoFold_first_true c z hh r0.reverse
      (removeExecLoop c z n.toNat (st i)).1 s1
    rw [List.foldl_cons] at u3 ⊢
    rw [u3 nm zz hne]
    exact s6 nm zz hne

/-- Witness for C4 at a concrete input: requesting 3 copies when the zone
holds 2 succeeds, and undo restores exactly those 2; requesting from an empty
zone fails. -/
theorem C4_witness :
    isValidCard cardX = true ∧ WF (c4Store 0) ∧
    countNameZone (c4Store 0) cardX.name "main" = 2 ∧ (0 : Int) < 2 ∧ (2 : Int) < 3 ∧
    WF (emptyStore 1) ∧ countNameZone (emptyStore 1) cardX.name "main" = 0 ∧
    ((Cmd.remove (some 0) cardX "main" 3 0 false 0 []).execute c4Store).1 = true ∧
    countNameZone
      (((((Cmd.remove (some 0) cardX "main" 3 0 false 0 []).execute c4Store).2.1).undo
          (((Cmd.remove (some 0) cardX "main" 3 0 false 0 []).execute c4Store).2.2)).2.2 0)
      cardX.name "main" = 2 ∧
    ((Cmd.remove (some 1) cardX "main" 3 0 false 0 []).execute emptyStore).1 = false :=
  ⟨by decide, by decide, by decide, by decide, by decide, by decide, by decide,
   (C4_partial_removal 0 1 cardX "main" 3 0 false 0 [] c4Store emptyStore 2
      (by decide) (by decide) (by decide) (by decide) (by decide) (by decide) (by decide)).1,
   (C4_partial_removal 0 1 cardX "main" 3 0 false 0 [] c4Store emptyStore 2
      (by decide) (by decide) (by decide) (by decide) (by decide) (by decide)
      (by decide)).2.2.2.2.2.1,
   (C4_partial_removal 0 1 cardX "main" 3 0 false 0 [] c4Store emptyStore 2
      (by decide) (by decide) (by decide) (by decide) (by decide) (by decide)
      (by decide)).2.2.2.2.2.2.2⟩

/-! ### C5 support: AddCard loop effect, manager success path -/

theorem addLoop_count (c : ExactCard) (z : String) :
    ∀ (fuel : Nat) (d : Doc) (acc : List Nat), WF d →
      WF (addLoop c z fuel d acc).1 ∧
      countNameZone (addLoop c z fuel d acc).1 c.name z
        = countNameZone d c.name z + fuel ∧
      (∀ nm zz : String, ¬(nm = c.name ∧ zz = z) →
        countNameZone (addLoop c z fuel d acc).1 nm zz = countNameZone d nm zz) := by
  intro fuel
  induction fuel with
  | zero =>
      intro d acc hWF
      exact ⟨hWF, by simp [addLoop], fun nm zz _ => rfl⟩
  | succ k ih =>
      intro d acc hWF
      obtain ⟨aWF, aInc, aOther⟩ := addCard_effect d c z hWF
      obtain ⟨iWF, iInc, iOther⟩ := ih (addCard d c z).2 (acc ++ [(addCard d c z).1]) aWF
      simp only [addLoop]
      refine ⟨iWF, ?_, ?_⟩
      · rw [iInc, aInc]
        push_cast
        ring
      · intro nm zz hne
        rw [iOther nm zz hne, aOther nm zz hne]

theorem addExec_unfold (i : Nat) (c : ExactCard) (z : String) (n ts : Int) (ex : Bool)
    (ai : List Nat) (st : Store) (hv : isValidCard c = true) (hn : 0 < n) :
    (Cmd.add (some i) c z n ts ex ai).execute st
      = (true, .add (some i) c z n ts true (addLoop c z n.toNat (st i) ai).2,
         setDoc st i (addLoop c z n.toNat (st i) ai).1) := by
  have hcond : ¬(isValidCard c = false ∨ n ≤ 0) := by simp [hv]; omega
  simp [Cmd.execute, hcond]

theorem executeCommand_success_eq (m : CM) (cmd : Cmd) (st : Store)
    (hmod : cmd.isModifying = true) (hok : (cmd.execute st).1 = true) :
    m.executeCommand (some cmd) st
      = (true, execSuccessPush m (cmd.execute st).2.1, (cmd.execute st).2.2,
         stateEvents (execSuccessPush m (cmd.execute st).2.1)
           ++ [.commandExecuted (topDescription (execSuccessPush m (cmd.execute st).2.1))]) := by
  have hmod' : ¬ cmd.isModifying = false := by simp [hmod]
  have hok' : ¬ (cmd.execute st).1 = false := by simp [hok]
  simp [CM.executeCommand, hmod', hok']

theorem tryMergeCommand_empty (m : CM) (c : Cmd) (hu : m.undoStack = []) :
    m.tryMergeCommand c = (false, m) := by
  unfold CM.tryMergeCommand
  rw [hu]

theorem execSuccessPush_emptyStack (m : CM) (c : Cmd) (hu : m.undoStack = [])
    (hb : ¬(0 < m.maxHistorySize ∧ m.maxHistorySize < 1)) :
    execSuccessPush m c = { m with undoStack := [c], redoStack := [] } := by
  simp only [execSuccessPush, CM.tryMergeCommand, hu, ite_self]
  simp only [Bool.false_eq_true, if_false, List.length_cons, List.length_nil]
  rw [if_neg]
  intro hcon
  exact hb (by exact_mod_cast hcon)

theorem mergeWith_of_canMerge (a b : Cmd) (h : a.canMergeWith b = true) :
    (a.mergeWith b).1 = true := by
  cases a <;> cases b <;>
    first
      | (exfalso; simp [Cmd.canMergeWith] at h; done)
      | (unfold Cmd.mergeWith; rw [if_pos h])

theorem execSuccessPush_oneStack (m : CM) (c top : Cmd) (hu : m.undoStack = [top])
    (hb2 : ¬(0 < m.maxHistorySize ∧ m.maxHistorySize < 2))
    (hb1 : ¬(0 < m.maxHistorySize ∧ m.maxHistorySize < 1)) :
    execSuccessPush m c
      = if m.mergingEnabled = true ∧ top.canMergeWith c = true
        then { m with undoStack := [(top.mergeWith c).2], redoStack := [] }
        else { m with undoStack := [c, top], redoStack := [] } := by
  by_cases hme : m.mergingEnabled = true
  · by_cases hc : top.canMergeWith c = true
    · rw [if_pos ⟨hme, hc⟩]
      simp only [execSuccessPush, CM.tryMergeCommand, hu, hme, if_true, hc,
        mergeWith_of_canMerge top c hc]
      simp only [List.length_cons, List.length_nil]
      rw [if_neg]
      intro hcon
      exact hb1 (by exact_mod_cast hcon)
    · rw [if_neg (fun hh => hc hh.2)]
      simp only [execSuccessPush, CM.tryMergeCommand, hu, hme, if_true, hc]
      simp only [Bool.false_eq_true, if_false]
      simp only [List.length_cons, List.length_nil]
      rw [if_neg]
      intro hcon
      exact hb2 (by exact_mod_cast hcon)
  · rw [if_neg (fun hh => hme hh.1)]
    simp only [execSuccessPush, CM.tryMergeCommand, hu, hme]
    simp only [Bool.false_eq_true, if_false]
    simp only [List.length_cons, List.length_nil]
    rw [if_neg]
    intro hcon
    exact hb2 (by exact_mod_cast hcon)

/-! ### C5: merge window -/

/-- C5: two AddCard commands executed through `executeCommand` merge into a
single undo-stack entry whose effective count is the sum exactly when merging
is enabled, the deck pointer, card name and zone agree, and the creation
timestamps differ by strictly less than 5000ms; otherwise (>= 5000ms apart,
merging disabled, or different deck/card/zone) they remain two separate
entries.  A command of a different kind (RemoveCard after AddCard) never
merges and always yields two separate entries. -/
theorem C5_merge_window
    (i jj : Nat) (c1 c2 : ExactCard) (z1 z2 : String) (n1 n2 n3 t1 t2 t3 : Int)
    (rs : List Cmd) (mflag : Bool) (st : Store)
    (hv1 : isValidCard c1 = true) (hv2 : isValidCard c2 = true)
    (hn1 : 0 < n1) (hn2 : 0 < n2) (hn3 : 0 < n3) (hWF : WF (st i)) :
    (c5Run1 i c1 z1 n1 t1 rs mflag st).1 = true ∧
    (c5Run2 i jj c1 c2 z1 z2 n1 n2 t1 t2 rs mflag st).1 = true ∧
    (c5Run2 i jj c1 c2 z1 z2 n1 n2 t1 t2 rs mflag st).2.1.undoStack.length
      = (if mflag = true ∧ i = jj ∧ c1.name = c2.name ∧ z1 = z2 ∧ |t1 - t2| < 5000
         then 1 else 2) ∧
    ((c5Run2 i jj c1 c2 z1 z2 n1 n2 t1 t2 rs mflag st).2.1.undoStack.head?).map Cmd.count
      = some (if mflag = true ∧ i = jj ∧ c1.name = c2.name ∧ z1 = z2 ∧ |t1 - t2| < 5000
              then n1 + n2 else n2) ∧
    ((c5Run2 i jj c1 c2 z1 z2 n1 n2 t1 t2 rs mflag st).2.1.undoStack.getLast?).map Cmd.count
      = some (if mflag = true ∧ i = jj ∧ c1.name = c2.name ∧ z1 = z2 ∧ |t1 - t2| < 5000
              then n1 + n2 else n1) ∧
    (c5RunR i c1 z1 n1 n3 t1 t3 rs mflag st).1 = true ∧
    (c5RunR i c1 z1 n1 n3 t1 t3 rs mflag st).2.1.undoStack.length = 2 := by
  have hmodA : (Cmd.add (some i) c1 z1 n1 t1 false []).isModifying = true := by
    simp [Cmd.isModifying, hv1]
    omega
  have hokA : ((Cmd.add (some i) c1 z1 n1 t1 false []).execute st).1 = true := by
    rw [addExec_unfold i c1 z1 n1 t1 false [] st hv1 hn1]
  have hE1 := executeCommand_success_eq (CM.mk [] rs 100 mflag false)
      (.add (some i) c1 z1 n1 t1 false []) st hmodA hokA
  rw [addExec_unfold i c1 z1 n1 t1 false [] st hv1 hn1] at hE1
  simp only [] at hE1
  rw [execSuccessPush_emptyStack _ _ rfl (by norm_num)] at hE1
  simp only [] at hE1
  obtain ⟨hWF1, hinc1, _⟩ := addLoop_count c1 z1 n1.toNat (st i) [] hWF
  have hnn1 : ((n1.toNat : Nat) : Int) = n1 := by omega
  have hge0 : 0 ≤ countNameZone (st i) c1.name z1 := by
    rw [countNameZone_eq_countL]
    exact countL_nonneg _ _ _ hWF.2.2
  have hmodB : (Cmd.add (some jj) c2 z2 n2 t2 false []).isModifying = true := by
    simp [Cmd.isModifying, hv2]
    omega
  have hokB : ∀ stx : Store, ((Cmd.add (some jj) c2 z2 n2 t2 false []).execute stx).1 = true := by
    intro stx
    rw [addExec_unfold jj c2 z2 n2 t2 false [] stx hv2 hn2]
  have hE2 := executeCommand_success_eq
      (CM.mk [.add (some i) c1 z1 n1 t1 true (addLoop c1 z1 n1.toNat (st i) []).2] [] 100
        mflag false)
      (.add (some jj) c2 z2 n2 t2 false []) (setDoc st i (addLoop c1 z1 n1.toNat (st i) []).1)
      hmodB (hokB _)
  rw [addExec_unfold jj c2 z2 n2 t2 false [] _ hv2 hn2] at hE2
  simp only [] at hE2
  rw [execSuccessPush_oneStack _ _ _ rfl (by norm_num) (by norm_num)] at hE2
  simp only [] at hE2
  have hcanm : ((Cmd.add (some i) c1 z1 n1 t1 true (addLoop c1 z1 n1.toNat (st i) []).2).canMergeWith
        (Cmd.add (some jj) c2 z2 n2 t2 true
          (addLoop c2 z2 n2.toNat
            (setDoc st i (addLoop c1 z1 n1.toNat (st i) []).1 jj) []).2) = true)
      ↔ (i = jj ∧ c1.name = c2.name ∧ z1 = z2 ∧ |t1 - t2| < 5000) := by
    simp [Cmd.canMergeWith]
    tauto
  have hmodR : (Cmd.remove (some i) c1 z1 n3 t3 false 0 []).isModifying = true := by
    simp [Cmd.isModifying, hv1]
    omega
  have hst1i : setDoc st i (addLoop c1 z1 n1.toNat (st i) []).1 i
      = (addLoop c1 z1 n1.toNat (st i) []).1 := setDoc_self st i _
  have hokR : ((Cmd.remove (some i) c1 z1 n3 t3 false 0 []).execute
      (setDoc st i (addLoop c1 z1 n1.toNat (st i) []).1)).1 = true := by
    rw [removeExec_unfold i c1 z1 n3 t3 false 0 [] _ hv1 hn3]
    simp only []
    obtain ⟨_, s2, _, _, _, _⟩ :=
      removeExecLoop_spec c1 z1 n3.toNat (setDoc st i (addLoop c1 z1 n1.toNat (st i) []).1 i)
        (by rw [hst1i]; exact hWF1)
    rw [s2, hst1i, hinc1]
    simp only [decide_eq_true_eq]
    have hnn3 : ((n3.toNat : Nat) : Int) = n3 := by omega
    rw [hnn3, hnn1]
    omega
  have hE3 := executeCommand_success_eq
      (CM.mk [.add (some i) c1 z1 n1 t1 true (addLoop c1 z1 n1.toNat (st i) []).2] [] 100
        mflag false)
      (.remove (some i) c1 z1 n3 t3 false 0 [])
      (setDoc st i (addLoop c1 z1 n1.toNat (st i) []).1) hmodR hokR
  rw [removeExec_unfold i c1 z1 n3 t3 false 0 [] _ hv1 hn3] at hE3
  simp only [] at hE3
  rw [execSuccessPush_oneStack _ _ _ rfl (by norm_num) (by norm_num)] at hE3
  rw [if_neg (by
    intro hcon
    have hmix := hcon.2
    simp [Cmd.canMergeWith] at hmix)] at hE3
  simp only [] at hE3
  simp only [c5Run1, c5Run2, c5RunR]
  rw [hE1]
  simp only []
  rw [hE2, hE3]
  simp only []
  refine ⟨trivial, trivial, ?_, ?_, ?_, trivial, rfl⟩ <;>
    by_cases hcond : mflag = true ∧ i = jj ∧ c1.name = c2.name ∧ z1 = z2 ∧ |t1 - t2| < 5000
  · rw [if_pos ⟨hcond.1, hcanm.mpr hcond.2⟩, if_pos hcond]
    rfl
  · rw [if_neg (fun hcon => hcond ⟨hcon.1, hcanm.mp hcon.2⟩), if_neg hcond]
    rfl
  · rw [if_pos ⟨hcond.1, hcanm.mpr hcond.2⟩, if_pos hcond]
    have hmw : ((Cmd.add (some i) c1 z1 n1 t1 true (addLoop c1 z1 n1.toNat (st i) []).2).mergeWith
        (Cmd.add (some jj) c2 z2 n2 t2 true
          (addLoop c2 z2 n2.toNat
            (setDoc st i (addLoop c1 z1 n1.toNat (st i) []).1 jj) []).2)).2
        = .add (some i) c1 z1 (n1 + n2) t1 true (addLoop c1 z1 n1.toNat (st i) []).2 := by
      unfold Cmd.mergeWith
      rw [if_pos (hcanm.mpr hcond.2)]
    rw [hmw]
    rfl
  · rw [if_neg (fun hcon => hcond ⟨hcon.1, hcanm.mp hcon.2⟩), if_neg hcond]
    rfl
  · rw [if_pos ⟨hcond.1, hcanm.mpr hcond.2⟩, if_pos hcond]
    have hmw : ((Cmd.add (some i) c1 z1 n1 t1 true (addLoop c1 z1 n1.toNat (st i) []).2).mergeWith
        (Cmd.add (some jj) c2 z2 n2 t2 true
          (addLoop c2 z2 n2.toNat
            (setDoc st i (addLoop c1 z1 n1.toNat (st i) []).1 jj) []).2)).2
        = .add (some i) c1 z1 (n1 + n2) t1 true (addLoop c1 z1 n1.toNat (st i) []).2 := by
      unfold Cmd.mergeWith
      rw [if_pos (hcanm.mpr hcond.2)]
    rw [hmw]
    rfl
  · rw [if_neg (fun hcon => hcond ⟨hcon.1, hcanm.mp hcon.2⟩), if_neg hcond]
    rfl

/-- Witness for C5 at concrete inputs: two AddCard(X, "main", 1) at
timestamps 0 and 500ms with merging enabled merge into one entry of count 2;
an AddCard followed by a RemoveCard stays two entries. -/
theorem C5_witness :
    isValidCard cardX = true ∧ (0 : Int) < 1 ∧ WF (emptyStore 0) ∧
    (c5Run1 0 cardX "main" 1 0 [] true emptyStore).1 = true ∧
    (c5Run2 0 0 cardX cardX "main" "main" 1 1 0 500 [] true emptyStore).2.1.undoStack.length
      = 1 ∧
    ((c5Run2 0 0 cardX cardX "main" "main" 1 1 0 500 [] true
        emptyStore).2.1.undoStack.head?).map Cmd.count = some 2 ∧
    (c5RunR 0 cardX "main" 1 1 0 600 [] true emptyStore).2.1.undoStack.length = 2 :=
  ⟨by decide, by decide, by decide,
   (C5_merge_window 0 0 cardX cardX "main" "main" 1 1 1 0 500 600 [] true emptyStore
      (by decide) (by decide) (by decide) (by decide) (by decide) (by decide)).1,
   by
     rw [(C5_merge_window 0 0 cardX cardX "main" "main" 1 1 1 0 500 600 [] true emptyStore
        (by decide) (by decide) (by decide) (by decide) (by decide) (by decide)).2.2.1]
     decide,
   by
     rw [(C5_merge_window 0 0 cardX cardX "main" "main" 1 1 1 0 500 600 [] true emptyStore
        (by decide) (by decide) (by decide) (by decide) (by decide) (by decide)).2.2.2.1]
     decide,
   (C5_merge_window 0 0 cardX cardX "main" "main" 1 1 1 0 500 600 [] true emptyStore
      (by decide) (by decide) (by decide) (by decide) (by decide) (by decide)).2.2.2.2.2.2⟩

/-! ### C1: round-trip -/

/-- Counterexample to C1 as stated, in two concrete scenarios whose execute()
calls all succeed.  Scenario 1 (sequence of two commands): AddCard X then
RemoveCard X on an empty document; undoing in reverse order leaves one copy
of X (the RemoveCard's undo re-adds a row, and the AddCard's undo finds its
recorded handle no longer valid and silently skips it), so the zone/count
state is not restored.  Scenario 2 (single command, mixed printings): a
RemoveCard for printing p of X falls back to the row holding printing p2,
removes it, and its undo re-adds printing p --- the zone/count state ends
with the wrong printing. -/
theorem C1_counterexample :
    (c1SeqA.1 = true ∧ c1SeqR.1 = true ∧ c1SeqRu.1 = true ∧ c1SeqAu.1 = true ∧
      ¬ mstate (c1SeqAu.2.2 0) = mstate (emptyStore 0)) ∧
    (c1PrintRun.1 = true ∧ c1PrintUndo.1 = true ∧
      ¬ mstate (c1PrintUndo.2.2 0) = mstate c1PrintDoc) := by
  refine ⟨⟨rfl, rfl, rfl, rfl, by decide⟩, rfl, rfl, by decide⟩

theorem addLoop_match (c : ExactCard) (z : String) (A B : List Entry) (e : Entry) (nid : Nat)
    (hA : ∀ x ∈ A, ¬ exactPred c z x = true) (he : exactPred c z e = true)
    (hAe : ∀ x ∈ A, x.eid ≠ e.eid) (hBe : ∀ x ∈ B, x.eid ≠ e.eid) :
    ∀ (n : Nat) (t : Int) (acc : List Nat),
      addLoop c z n ⟨A ++ { e with count := t } :: B, nid⟩ acc
        = (⟨A ++ { e with count := t + n } :: B, nid⟩, acc ++ List.replicate n e.eid) := by
  intro n
  induction n with
  | zero => intro t acc; simp [addLoop]
  | succ k ih =>
      intro t acc
      have hfind : (A ++ { e with count := t } :: B).find? (exactPred c z)
          = some { e with count := t } := by
        rw [List.find?_append]
        have hAn : A.find? (exactPred c z) = none := by
          rw [List.find?_eq_none]; exact hA
        rw [hAn,
          List.find?_cons_of_pos _ (show exactPred c z { e with count := t } = true from he)]
        rfl
      have hadd : addCard ⟨A ++ { e with count := t } :: B, nid⟩ c z
          = (e.eid, ⟨A ++ { e with count := t + 1 } :: B, nid⟩) := by
        unfold addCard
        rw [hfind]
        show (({ e with count := t } : Entry).eid,
             setCount ⟨A ++ { e with count := t } :: B, nid⟩ ({ e with count := t } : Entry).eid
               (({ e with count := t } : Entry).count + 1))
            = (e.eid, ⟨A ++ { e with count := t + 1 } :: B, nid⟩)
        rw [setCount_decomp A B { e with count := t } nid (t + 1) hAe hBe]
      simp only [addLoop, hadd]
      rw [ih (t + 1) (acc ++ [e.eid])]
      rw [show t + 1 + (k : Int) = t + ((k : Nat) + 1 : Nat) by push_cast; ring]
      rw [List.append_assoc, List.singleton_append, ← List.replicate_succ]

theorem addUndo_descend (c : ExactCard) (z : String) (A B : List Entry) (e : Entry) (nid : Nat)
    (hAe : ∀ x ∈ A, x.eid ≠ e.eid) (hBe : ∀ x ∈ B, x.eid ≠ e.eid) :
    ∀ (k : Nat) (t : Int), 1 ≤ t →
      (List.replicate k e.eid).foldl addUndoStep ⟨A ++ { e with count := t + k } :: B, nid⟩
        = ⟨A ++ { e with count := t } :: B, nid⟩ := by
  intro k
  induction k with
  | zero => intro t _; simp
  | succ k2 ih =>
      intro t ht
      have hvh : validHandle ⟨A ++ { e with count := t + (k2 + 1 : Nat) } :: B, nid⟩ e.eid
          = true := by
        simp only [validHandle, List.any_eq_true]
        exact ⟨{ e with count := t + (k2 + 1 : Nat) },
               List.mem_append.mpr (Or.inr (List.mem_cons_self _ B)), by simp⟩
      have hgc : getCount ⟨A ++ { e with count := t + (k2 + 1 : Nat) } :: B, nid⟩ e.eid
          = t + (k2 + 1 : Nat) :=
        getCount_decomp A B { e with count := t + (k2 + 1 : Nat) } nid hAe
      have hstep : addUndoStep ⟨A ++ { e with count := t + (k2 + 1 : Nat) } :: B, nid⟩ e.eid
          = ⟨A ++ { e with count := t + k2 } :: B, nid⟩ := by
        unfold addUndoStep
        rw [if_pos hvh, hgc, if_pos (by push_cast; omega)]
        rw [show t + ((k2 + 1 : Nat) : Int) - 1 = t + k2 by push_cast; ring]
        exact setCount_decomp A B { e with count := t + (k2 + 1 : Nat) } nid (t + k2) hAe hBe
      rw [List.replicate_succ, List.foldl_cons, hstep, ih t ht]

theorem addUndo_full (c : ExactCard) (z : String) (A : List Entry) (e : Entry) (nid : Nat)
    (hAe : ∀ x ∈ A, x.eid ≠ e.eid) :
    ∀ (k : Nat),
      (List.replicate (k + 1) e.eid).foldl addUndoStep ⟨A ++ [{ e with count := (1 : Int) + k }], nid⟩
        = ⟨A, nid⟩ := by
  intro k
  rw [List.replicate_succ', List.foldl_append]
  have hdesc := addUndo_descend c z A [] e nid hAe (by simp) k 1 (by norm_num)
  rw [hdesc]
  simp only [List.foldl_cons, List.foldl_nil]
  have hvh : validHandle ⟨A ++ [{ e with count := (1 : Int) }], nid⟩ e.eid = true := by
    simp only [validHandle, List.any_eq_true]
    exact ⟨{ e with count := (1 : Int) },
           List.mem_append.mpr (Or.inr (List.mem_cons_self _ [])), by simp⟩
  have hgc : getCount ⟨A ++ [{ e with count := (1 : Int) }], nid⟩ e.eid = 1 :=
    getCount_decomp A [] { e with count := (1 : Int) } nid hAe
  unfold addUndoStep
  rw [if_pos hvh, hgc, if_neg (by norm_num)]
  have := removeRow_decomp A [] { e with count := (1 : Int) } nid hAe (by simp)
  rw [this]
  simp

theorem addUndo_unfold (i : Nat) (c : ExactCard) (z : String) (n ts : Int) (ai : List Nat)
    (st : Store) (hv : isValidCard c = true) :
    (Cmd.add (some i) c z n ts true ai).undo st
      = (true, .add (some i) c z n ts false [], setDoc st i (ai.foldl addUndoStep (st i))) := by
  have hcond : ¬(true = false ∨ isValidCard c = false) := by simp [hv]
  simp [Cmd.undo, hcond, hv]

/-- Core of the AddCard round trip: running the undo walk over the handles
recorded by the execute loop restores the document's entries exactly, for
every well-formed document. -/
theorem addLoop_undo_entries (c : ExactCard) (z : String) (d : Doc) (fuel : Nat)
    (hWF : WF d) (hfuel : 1 ≤ fuel) :
    ((addLoop c z fuel d []).2.foldl addUndoStep (addLoop c z fuel d []).1).entries
      = d.entries := by
  rcases hd : d.entries.find? (exactPred c z) with _ | e
  · -- fresh row case
    obtain ⟨k, hk⟩ : ∃ k, fuel = k + 1 := ⟨fuel - 1, by omega⟩
    subst hk
    rcases d with ⟨L, nid⟩
    have hstep : addCard ⟨L, nid⟩ c z
        = (nid, ⟨L ++ [⟨nid, c.name, c.pid, c.num, z, 1⟩], nid + 1⟩) := by
      unfold addCard
      rw [hd]
    have hAe : ∀ x ∈ L, x.eid ≠ (⟨nid, c.name, c.pid, c.num, z, (1 : Int)⟩ : Entry).eid := by
      intro x hx
      exact Nat.ne_of_lt (hWF.2.1 x hx)
    have hAex : ∀ x ∈ L, ¬ exactPred c z x = true := List.find?_eq_none.mp hd
    have hloop := addLoop_match c z L [] (⟨nid, c.name, c.pid, c.num, z, 1⟩ : Entry) (nid + 1)
      hAex (by simp [exactPred]) hAe (by simp) k 1 [nid]
    simp only [addLoop, hstep]
    rw [show ([] : List Nat) ++ [nid] = [nid] from rfl]
    rw [hloop]
    simp only []
    have hfull := addUndo_full c z L (⟨nid, c.name, c.pid, c.num, z, 1⟩ : Entry) (nid + 1) hAe k
    rw [show ([nid] ++ List.replicate k ((⟨nid, c.name, c.pid, c.num, z, (1 : Int)⟩ : Entry).eid))
        = List.replicate (k + 1) ((⟨nid, c.name, c.pid, c.num, z, (1 : Int)⟩ : Entry).eid) by
      rw [List.replicate_succ]
      rfl]
    rw [hfull]
  · -- existing row case
    obtain ⟨A, B, hl, hAex⟩ := findDecomp (exactPred c z) d.entries e hd
    rcases d with ⟨L, nid⟩
    simp only [] at hl
    subst hl
    obtain ⟨hAe, hBe⟩ := WF_decomp_ne A B e nid hWF
    have he : exactPred c z e = true := List.find?_some hd
    have hcnt : 1 ≤ e.count :=
      hWF.2.2 e (List.mem_append.mpr (Or.inr (List.mem_cons_self e B)))
    have hloop : addLoop c z fuel ⟨A ++ e :: B, nid⟩ []
        = (⟨A ++ { e with count := e.count + fuel } :: B, nid⟩,
           [] ++ List.replicate fuel e.eid) :=
      addLoop_match c z A B e nid hAex he hAe hBe fuel e.count []
    rw [hloop]
    simp only [List.nil_append]
    have hdesc := addUndo_descend c z A B e nid hAe hBe fuel e.count hcnt
    rw [hdesc]

theorem removeLoop_noMatch (c : ExactCard) (z : String) (d : Doc)
    (hf : d.entries.filter (nameMatch c.name z) = []) :
    ∀ fuel, removeExecLoop c z fuel d = (d, [], 0) := by
  intro fuel
  cases fuel with
  | zero => rfl
  | succ k =>
      have hnone : findForRemoval d c z = none := (findForRemoval_none_iff d c z).mpr hf
      simp [removeExecLoop, hnone]

theorem findForRemoval_mid (c : ExactCard) (z : String) (A B : List Entry) (e : Entry)
    (nid : Nat) (t : Int)
    (hA : ∀ x ∈ A, ¬ nameMatch c.name z x = true)
    (he : exactPred c z e = true) :
    findForRemoval ⟨A ++ { e with count := t } :: B, nid⟩ c z = some e.eid := by
  have hAex : A.find? (exactPred c z) = none := by
    rw [List.find?_eq_none]
    intro x hx hex
    exact hA x hx (exactPred_nameMatch c z x hex)
  have hfind : (A ++ { e with count := t } :: B).find? (exactPred c z)
      = some { e with count := t } := by
    rw [List.find?_append, hAex,
      List.find?_cons_of_pos _ (show exactPred c z { e with count := t } = true from he)]
    rfl
  unfold findForRemoval findCardFull
  rw [hfind]
  rfl

theorem findCard_mid (cn z : String) (A B : List Entry) (e : Entry) (nid : Nat) (t : Int)
    (hA : ∀ x ∈ A, ¬ nameMatch cn z x = true) (he : nameMatch cn z e = true) :
    findCard ⟨A ++ { e with count := t } :: B, nid⟩ cn z = some e.eid := by
  have hAn : A.find? (nameMatch cn z) = none := by
    rw [List.find?_eq_none]; exact hA
  have hfind : (A ++ { e with count := t } :: B).find? (nameMatch cn z)
      = some { e with count := t } := by
    rw [List.find?_append, hAn,
      List.find?_cons_of_pos _ (show nameMatch cn z { e with count := t } = true from he)]
    rfl
  unfold findCard
  rw [hfind]
  rfl

theorem removeLoop_dec (c : ExactCard) (z : String) (A B : List Entry) (e : Entry) (nid : Nat)
    (hA : ∀ x ∈ A, ¬ nameMatch c.name z x = true)
    (he : exactPred c z e = true)
    (hAe : ∀ x ∈ A, x.eid ≠ e.eid) (hBe : ∀ x ∈ B, x.eid ≠ e.eid) :
    ∀ (fuel : Nat) (t : Int), (fuel : Int) < t →
      removeExecLoop c z fuel ⟨A ++ { e with count := t } :: B, nid⟩
        = (⟨A ++ { e with count := t - fuel } :: B, nid⟩,
           List.replicate fuel (e.eid, false), (fuel : Int)) := by
  intro fuel
  induction fuel with
  | zero =>
      intro t _
      simp [removeExecLoop]
  | succ k ih =>
      intro t ht
      have hf := findForRemoval_mid c z A B e nid t hA he
      have hgc : getCount ⟨A ++ { e with count := t } :: B, nid⟩ e.eid = t :=
        getCount_decomp A B { e with count := t } nid hAe
      have hone : (1 : Int) < t := by push_cast at ht; omega
      have hsc := setCount_decomp A B { e with count := t } nid (t - 1) hAe hBe
      simp only [removeExecLoop, hf, hgc, if_pos hone, hsc]
      rw [ih (t - 1) (by push_cast at ht ⊢; omega)]
      simp only []
      rw [show t - 1 - (k : Int) = t - ((k + 1 : Nat) : Int) by push_cast; ring]
      rw [show ((k : Int) + 1) = ((k + 1 : Nat) : Int) by push_cast; ring]
      rw [show ((e.eid, false) :: List.replicate k (e.eid, false))
          = List.replicate (k + 1) (e.eid, false) from (List.replicate_succ _ _).symm]

theorem removeLoop_drain (c : ExactCard) (z : String) (A B : List Entry) (e : Entry) (nid : Nat)
    (hA : ∀ x ∈ A, ¬ nameMatch c.name z x = true)
    (hB : ∀ x ∈ B, ¬ nameMatch c.name z x = true)
    (he : exactPred c z e = true)
    (hAe : ∀ x ∈ A, x.eid ≠ e.eid) (hBe : ∀ x ∈ B, x.eid ≠ e.eid) :
    ∀ (tn : Nat) (fuel : Nat), 1 ≤ tn → tn ≤ fuel →
      removeExecLoop c z fuel ⟨A ++ { e with count := (tn : Int) } :: B, nid⟩
        = (⟨A ++ B, nid⟩,
           List.replicate (tn - 1) (e.eid, false) ++ [(e.eid, true)], (tn : Int)) := by
  intro tn
  induction tn with
  | zero => intro fuel h1 _; omega
  | succ t2 ih =>
      intro fuel _ hle
      obtain ⟨m, hm⟩ : ∃ m, fuel = m + 1 := ⟨fuel - 1, by omega⟩
      subst hm
      have hf := findForRemoval_mid c z A B e nid ((t2 + 1 : Nat) : Int) hA he
      have hgc : getCount ⟨A ++ { e with count := ((t2 + 1 : Nat) : Int) } :: B, nid⟩ e.eid
          = ((t2 + 1 : Nat) : Int) :=
        getCount_decomp A B { e with count := ((t2 + 1 : Nat) : Int) } nid hAe
      rcases Nat.eq_zero_or_pos t2 with ht2 | ht2
      · subst ht2
        have hnotone : ¬ (1 : Int) < ((0 + 1 : Nat) : Int) := by norm_num
        have hrr := removeRow_decomp A B { e with count := ((0 + 1 : Nat) : Int) } nid hAe hBe
        simp only [removeExecLoop, hf, hgc, if_neg hnotone, hrr]
        have hrest : (⟨A ++ B, nid⟩ : Doc).entries.filter (nameMatch c.name z) = [] := by
          simp only []
          rw [List.filter_append]
          rw [List.filter_eq_nil_iff.mpr hA, List.filter_eq_nil_iff.mpr hB]
          rfl
        rw [removeLoop_noMatch c z ⟨A ++ B, nid⟩ hrest m]
        simp only []
        norm_num
      · have hone : (1 : Int) < ((t2 + 1 : Nat) : Int) := by push_cast; omega
        have hsc := setCount_decomp A B { e with count := ((t2 + 1 : Nat) : Int) } nid
          (((t2 + 1 : Nat) : Int) - 1) hAe hBe
        simp only [removeExecLoop, hf, hgc, if_pos hone, hsc]
        rw [show (((t2 + 1 : Nat) : Int) - 1) = ((t2 : Nat) : Int) by push_cast; ring]
        rw [ih m ht2 (by omega)]
        simp only []
        rw [show ((t2 : Int) + 1) = ((t2 + 1 : Nat) : Int) by push_cast; ring]
        rw [show (t2 + 1 - 1) = (t2 - 1) + 1 by omega]
        rw [show (List.replicate ((t2 - 1) + 1) (e.eid, false))
            = (e.eid, false) :: List.replicate (t2 - 1) (e.eid, false) from
            List.replicate_succ _ _]
        rfl

theorem removeUndo_incs (c : ExactCard) (z : String) (A B : List Entry) (e : Entry) (nid : Nat)
    (hA : ∀ x ∈ A, ¬ nameMatch c.name z x = true)
    (he : nameMatch c.name z e = true)
    (hAe : ∀ x ∈ A, x.eid ≠ e.eid) (hBe : ∀ x ∈ B, x.eid ≠ e.eid) :
    ∀ (k : Nat) (t : Int) (x : Nat),
      (List.replicate k (x, false)).foldl (removeUndoStep c z)
          ⟨A ++ { e with count := t } :: B, nid⟩
        = ⟨A ++ { e with count := t + k } :: B, nid⟩ := by
  intro k
  induction k with
  | zero => intro t x; simp
  | succ k2 ih =>
      intro t x
      have hfc := findCard_mid c.name z A B e nid t hA he
      have hgc : getCount ⟨A ++ { e with count := t } :: B, nid⟩ e.eid = t :=
        getCount_decomp A B { e with count := t } nid hAe
      have hstep : removeUndoStep c z ⟨A ++ { e with count := t } :: B, nid⟩ (x, false)
          = ⟨A ++ { e with count := t + 1 } :: B, nid⟩ := by
        simp only [removeUndoStep]
        rw [if_neg (by simp : ¬(((x, false) : Nat × Bool).2 = true))]
        rw [hfc]
        show setCount ⟨A ++ { e with count := t } :: B, nid⟩ e.eid
            (getCount ⟨A ++ { e with count := t } :: B, nid⟩ e.eid + 1) = _
        rw [hgc]
        exact setCount_decomp A B { e with count := t } nid (t + 1) hAe hBe
      rw [List.replicate_succ, List.foldl_cons, hstep, ih (t + 1) x]
      rw [show t + 1 + (k2 : Int) = t + ((k2 + 1 : Nat) : Int) by push_cast; ring]

theorem removeLoop_undo_mstate (c : ExactCard) (z : String) (A B : List Entry) (e : Entry)
    (nid : Nat)
    (hA : ∀ x ∈ A, ¬ nameMatch c.name z x = true)
    (hB : ∀ x ∈ B, ¬ nameMatch c.name z x = true)
    (he : exactPred c z e = true)
    (hAe : ∀ x ∈ A, x.eid ≠ e.eid) (hBe : ∀ x ∈ B, x.eid ≠ e.eid)
    (hlt : ∀ x ∈ A ++ B, x.eid < nid)
    (n tn : Nat) (hn : 1 ≤ n) (htn : 1 ≤ tn) :
    0 < (removeExecLoop c z n ⟨A ++ { e with count := (tn : Int) } :: B, nid⟩).2.2 ∧
    mstate ((removeExecLoop c z n
          ⟨A ++ { e with count := (tn : Int) } :: B, nid⟩).2.1.reverse.foldl
        (removeUndoStep c z)
        (removeExecLoop c z n ⟨A ++ { e with count := (tn : Int) } :: B, nid⟩).1)
      = mstate ⟨A ++ { e with count := (tn : Int) } :: B, nid⟩ := by
  have hnm : nameMatch c.name z e = true := exactPred_nameMatch c z e he
  rcases Nat.lt_or_ge n tn with hcase | hcase
  · -- partial removal: the loop runs out of fuel before the row drains
    have hd := removeLoop_dec c z A B e nid hA he hAe hBe n (tn : Int) (by push_cast; omega)
    rw [hd]
    simp only []
    refine ⟨by omega, ?_⟩
    rw [List.reverse_replicate]
    rw [removeUndo_incs c z A B e nid hA hnm hAe hBe n ((tn : Int) - n) e.eid]
    rw [show ((tn : Int) - (n : Int)) + (n : Int) = (tn : Int) by ring]
  · -- full drain: the row is emptied and removed, undo re-adds it afresh
    have hd := removeLoop_drain c z A B e nid hA hB he hAe hBe tn n htn hcase
    rw [hd]
    simp only []
    refine ⟨by omega, ?_⟩
    rw [List.reverse_append, List.reverse_replicate]
    simp only [List.reverse_cons, List.reverse_nil, List.nil_append]
    rw [List.singleton_append, List.foldl_cons]
    have hnone : (A ++ B).find? (exactPred c z) = none := by
      rw [List.find?_eq_none]
      intro x hx hex
      rcases List.mem_append.mp hx with h | h
      · exact hA x h (exactPred_nameMatch c z x hex)
      · exact hB x h (exactPred_nameMatch c z x hex)
    have hstep : removeUndoStep c z ⟨A ++ B, nid⟩ (e.eid, true)
        = (addCard ⟨A ++ B, nid⟩ c z).2 := by
      simp [removeUndoStep]
    have haddc : addCard ⟨A ++ B, nid⟩ c z
        = (nid, ⟨(A ++ B) ++ [⟨nid, c.name, c.pid, c.num, z, 1⟩], nid + 1⟩) := by
      unfold addCard
      rw [hnone]
    rw [hstep, haddc]
    simp only []
    have hA2 : ∀ x ∈ A ++ B, ¬ nameMatch c.name z x = true := by
      intro x hx
      rcases List.mem_append.mp hx with h | h
      · exact hA x h
      · exact hB x h
    have hAe2 : ∀ x ∈ A ++ B,
        x.eid ≠ (⟨nid, c.name, c.pid, c.num, z, (1 : Int)⟩ : Entry).eid := by
      intro x hx
      exact Nat.ne_of_lt (hlt x hx)
    have hincs := removeUndo_incs c z (A ++ B) []
      (⟨nid, c.name, c.pid, c.num, z, 1⟩ : Entry) (nid + 1) hA2 (by simp [nameMatch]) hAe2
      (by simp) (tn - 1) 1 e.eid
    rw [hincs]
    simp only []
    rw [show (1 : Int) + ((tn - 1 : Nat) : Int) = ((tn : Nat) : Int) by push_cast; omega]
    simp only [mstate]
    rw [Multiset.coe_eq_coe]
    have hkey : entryKey { e with count := (tn : Int) }
        = entryKey ⟨nid, c.name, c.pid, c.num, z, (tn : Int)⟩ := by
      have he2 := he
      simp only [exactPred, Bool.and_eq_true, beq_iff_eq] at he2
      obtain ⟨⟨⟨h1, h2⟩, h3⟩, h4⟩ := he2
      simp [entryKey, h1, h2, h3, h4]
    have hperm := (permMidEnd A ({ e with count := (tn : Int) }) B).map entryKey
    have h2 : ((A ++ B) ++ [{ e with count := (tn : Int) }]).map entryKey
        = ((A ++ B) ++ [(⟨nid, c.name, c.pid, c.num, z, (tn : Int)⟩ : Entry)]).map entryKey := by
      simp [hkey]
    rw [h2] at hperm
    exact hperm.symm

theorem find?_midPos (p : Entry → Bool) (A B : List Entry) (g : Entry)
    (hA : ∀ x ∈ A, ¬ p x = true) (hg : p g = true) :
    (A ++ g :: B).find? p = some g := by
  have hAn : A.find? p = none := List.find?_eq_none.mpr hA
  rw [List.find?_append, hAn, List.find?_cons_of_pos _ hg]
  rfl

theorem addCard_fresh (L : List Entry) (m : Nat) (c : ExactCard) (z : String)
    (h : L.find? (exactPred c z) = none) :
    addCard ⟨L, m⟩ c z
      = (m, ⟨L ++ [⟨m, c.name, c.pid, c.num, z, 1⟩], m + 1⟩) := by
  unfold addCard
  rw [h]

theorem addCard_found (A B : List Entry) (g : Entry) (m : Nat) (c : ExactCard) (z : String)
    (hA : ∀ x ∈ A, ¬ exactPred c z x = true) (hg : exactPred c z g = true)
    (hAe : ∀ x ∈ A, x.eid ≠ g.eid) (hBe : ∀ x ∈ B, x.eid ≠ g.eid) :
    addCard ⟨A ++ g :: B, m⟩ c z
      = (g.eid, ⟨A ++ { g with count := g.count + 1 } :: B, m⟩) := by
  unfold addCard
  rw [find?_midPos (exactPred c z) A B g hA hg]
  show (g.eid, setCount ⟨A ++ g :: B, m⟩ g.eid (g.count + 1)) = _
  rw [setCount_decomp A B g m (g.count + 1) hAe hBe]

theorem swapLoop_noMatch (c : ExactCard) (fz tz : String) (d : Doc)
    (hf : d.entries.filter (nameMatch c.name fz) = []) :
    ∀ fuel, swapExecLoop c fz tz fuel d = (d, [], 0) := by
  intro fuel
  cases fuel with
  | zero => rfl
  | succ k =>
      have hnone : findForRemoval d c fz = none := (findForRemoval_none_iff d c fz).mpr hf
      simp [swapExecLoop, hnone]

theorem swapLoop_inc (c : ExactCard) (fz tz : String) (A B : List Entry) (e : Entry)
    (gid nid2 : Nat)
    (hAfz : ∀ x ∈ A, ¬ nameMatch c.name fz x = true)
    (hAtz : ∀ x ∈ A, ¬ nameMatch c.name tz x = true)
    (hBtz : ∀ x ∈ B, ¬ nameMatch c.name tz x = true)
    (he : exactPred c fz e = true)
    (hAe : ∀ x ∈ A, x.eid ≠ e.eid) (hBe : ∀ x ∈ B, x.eid ≠ e.eid)
    (hAg : ∀ x ∈ A, x.eid ≠ gid) (hBg : ∀ x ∈ B, x.eid ≠ gid)
    (heg : e.eid ≠ gid) (hzz : ¬ fz = tz) :
    ∀ (fuel : Nat) (t k : Int), (fuel : Int) < t →
      swapExecLoop c fz tz fuel
          ⟨A ++ { e with count := t } :: (B ++ [⟨gid, c.name, c.pid, c.num, tz, k⟩]), nid2⟩
        = (⟨A ++ { e with count := t - fuel }
              :: (B ++ [⟨gid, c.name, c.pid, c.num, tz, k + fuel⟩]), nid2⟩,
           List.replicate fuel (e.eid, gid, false), (fuel : Int)) := by
  have he2 := he
  simp only [exactPred, Bool.and_eq_true, beq_iff_eq] at he2
  obtain ⟨⟨⟨h1, h2⟩, h3⟩, h4⟩ := he2
  have hetz : ¬ nameMatch c.name tz e = true := by
    simp [nameMatch, h1, h4]
    exact hzz
  intro fuel
  induction fuel with
  | zero =>
      intro t k _
      simp [swapExecLoop]
  | succ m ih =>
      intro t k ht
      have hBe2 : ∀ x ∈ B ++ [(⟨gid, c.name, c.pid, c.num, tz, k⟩ : Entry)],
          x.eid ≠ e.eid := by
        intro x hx
        rcases List.mem_append.mp hx with hx | hx
        · exact hBe x hx
        · simp at hx; subst hx; exact Ne.symm heg
      have hf := findForRemoval_mid c fz A
        (B ++ [⟨gid, c.name, c.pid, c.num, tz, k⟩]) e nid2 t hAfz he
      have hgc : getCount ⟨A ++ { e with count := t }
            :: (B ++ [⟨gid, c.name, c.pid, c.num, tz, k⟩]), nid2⟩ e.eid = t :=
        getCount_decomp A (B ++ [⟨gid, c.name, c.pid, c.num, tz, k⟩])
          { e with count := t } nid2 hAe
      have hone : (1 : Int) < t := by push_cast at ht; omega
      have hsc := setCount_decomp A (B ++ [⟨gid, c.name, c.pid, c.num, tz, k⟩])
        { e with count := t } nid2 (t - 1) hAe hBe2
      have hXtz : ∀ x ∈ A ++ { e with count := t - 1 } :: B,
          ¬ exactPred c tz x = true := by
        intro x hx hex
        rcases List.mem_append.mp hx with hx | hx
        · exact hAtz x hx (exactPred_nameMatch c tz x hex)
        · rcases List.mem_cons.mp hx with rfl | hx
          · exact hetz (exactPred_nameMatch c tz _ hex)
          · exact hBtz x hx (exactPred_nameMatch c tz x hex)
      have hXg : ∀ x ∈ A ++ { e with count := t - 1 } :: B,
          x.eid ≠ (⟨gid, c.name, c.pid, c.num, tz, k⟩ : Entry).eid := by
        intro x hx
        rcases List.mem_append.mp hx with hx | hx
        · exact hAg x hx
        · rcases List.mem_cons.mp hx with rfl | hx
          · exact heg
          · exact hBg x hx
      have haf := addCard_found (A ++ { e with count := t - 1 } :: B) []
        (⟨gid, c.name, c.pid, c.num, tz, k⟩ : Entry) nid2 c tz hXtz
        (by simp [exactPred]) hXg (by simp)
      have hshape : A ++ { e with count := t - 1 }
            :: (B ++ [(⟨gid, c.name, c.pid, c.num, tz, k⟩ : Entry)])
          = (A ++ { e with count := t - 1 } :: B)
            ++ [(⟨gid, c.name, c.pid, c.num, tz, k⟩ : Entry)] := by
        simp
      have haddc : addCard ⟨A ++ { e with count := t - 1 }
            :: (B ++ [⟨gid, c.name, c.pid, c.num, tz, k⟩]), nid2⟩ c tz
          = (gid, ⟨A ++ { e with count := t - 1 }
              :: (B ++ [⟨gid, c.name, c.pid, c.num, tz, k + 1⟩]), nid2⟩) := by
        rw [hshape, haf]
        simp
      simp only [swapExecLoop, hf, hgc, if_pos hone, hsc, haddc]
      rw [ih (t - 1) (k + 1) (by push_cast at ht ⊢; omega)]
      simp only []
      rw [show t - 1 - (m : Int) = t - ((m + 1 : Nat) : Int) by push_cast; ring]
      rw [show k + 1 + (m : Int) = k + ((m + 1 : Nat) : Int) by push_cast; ring]
      rw [show ((m : Int) + 1) = ((m + 1 : Nat) : Int) by push_cast; ring]
      rw [show ((e.eid, gid, false) :: List.replicate m (e.eid, gid, false))
          = List.replicate (m + 1) (e.eid, gid, false) from (List.replicate_succ _ _).symm]

theorem swapLoop_drain (c : ExactCard) (fz tz : String) (A B : List Entry) (e : Entry)
    (gid nid2 : Nat)
    (hAfz : ∀ x ∈ A, ¬ nameMatch c.name fz x = true)
    (hBfz : ∀ x ∈ B, ¬ nameMatch c.name fz x = true)
    (hAtz : ∀ x ∈ A, ¬ nameMatch c.name tz x = true)
    (hBtz : ∀ x ∈ B, ¬ nameMatch c.name tz x = true)
    (he : exactPred c fz e = true)
    (hAe : ∀ x ∈ A, x.eid ≠ e.eid) (hBe : ∀ x ∈ B, x.eid ≠ e.eid)
    (hAg : ∀ x ∈ A, x.eid ≠ gid) (hBg : ∀ x ∈ B, x.eid ≠ gid)
    (heg : e.eid ≠ gid) (hzz : ¬ fz = tz) :
    ∀ (tn : Nat) (fuel : Nat) (k : Int), 1 ≤ tn → tn ≤ fuel →
      swapExecLoop c fz tz fuel
          ⟨A ++ { e with count := (tn : Int) } :: (B ++ [⟨gid, c.name, c.pid, c.num, tz, k⟩]),
           nid2⟩
        = (⟨A ++ (B ++ [⟨gid, c.name, c.pid, c.num, tz, k + tn⟩]), nid2⟩,
           List.replicate (tn - 1) (e.eid, gid, false) ++ [(e.eid, gid, true)], (tn : Int)) := by
  have he2 := he
  simp only [exactPred, Bool.and_eq_true, beq_iff_eq] at he2
  obtain ⟨⟨⟨h1, h2⟩, h3⟩, h4⟩ := he2
  have hetz : ¬ nameMatch c.name tz e = true := by
    simp [nameMatch, h1, h4]
    exact hzz
  have hgfz : ∀ j : Int,
      ¬ nameMatch c.name fz (⟨gid, c.name, c.pid, c.num, tz, j⟩ : Entry) = true := by
    intro j
    simp [nameMatch]
    exact fun h => hzz h.symm
  intro tn
  induction tn with
  | zero => intro fuel k h1' _; omega
  | succ t2 ih =>
      intro fuel k _ hle
      obtain ⟨m, hm⟩ : ∃ m, fuel = m + 1 := ⟨fuel - 1, by omega⟩
      subst hm
      have hBe2 : ∀ x ∈ B ++ [(⟨gid, c.name, c.pid, c.num, tz, k⟩ : Entry)],
          x.eid ≠ e.eid := by
        intro x hx
        rcases List.mem_append.mp hx with hx | hx
        · exact hBe x hx
        · simp at hx; subst hx; exact Ne.symm heg
      have hf := findForRemoval_mid c fz A
        (B ++ [⟨gid, c.name, c.pid, c.num, tz, k⟩]) e nid2 ((t2 + 1 : Nat) : Int) hAfz he
      have hgc : getCount ⟨A ++ { e with count := ((t2 + 1 : Nat) : Int) }
            :: (B ++ [⟨gid, c.name, c.pid, c.num, tz, k⟩]), nid2⟩ e.eid
          = ((t2 + 1 : Nat) : Int) :=
        getCount_decomp A (B ++ [⟨gid, c.name, c.pid, c.num, tz, k⟩])
          { e with count := ((t2 + 1 : Nat) : Int) } nid2 hAe
      rcases Nat.eq_zero_or_pos t2 with ht2 | ht2
      · subst ht2
        have hnotone : ¬ (1 : Int) < ((0 + 1 : Nat) : Int) := by norm_num
        have hrr := removeRow_decomp A (B ++ [⟨gid, c.name, c.pid, c.num, tz, k⟩])
          { e with count := ((0 + 1 : Nat) : Int) } nid2 hAe hBe2
        have hYtz : ∀ x ∈ A ++ B, ¬ exactPred c tz x = true := by
          intro x hx hex
          rcases List.mem_append.mp hx with hx | hx
          · exact hAtz x hx (exactPred_nameMatch c tz x hex)
          · exact hBtz x hx (exactPred_nameMatch c tz x hex)
        have hYg : ∀ x ∈ A ++ B,
            x.eid ≠ (⟨gid, c.name, c.pid, c.num, tz, k⟩ : Entry).eid := by
          intro x hx
          rcases List.mem_append.mp hx with hx | hx
          · exact hAg x hx
          · exact hBg x hx
        have haf := addCard_found (A ++ B) []
          (⟨gid, c.name, c.pid, c.num, tz, k⟩ : Entry) nid2 c tz hYtz
          (by simp [exactPred]) hYg (by simp)
        have hshape : A ++ (B ++ [(⟨gid, c.name, c.pid, c.num, tz, k⟩ : Entry)])
            = (A ++ B) ++ [(⟨gid, c.name, c.pid, c.num, tz, k⟩ : Entry)] := by
          simp
        have haddc : addCard ⟨A ++ (B ++ [⟨gid, c.name, c.pid, c.num, tz, k⟩]), nid2⟩ c tz
            = (gid, ⟨A ++ (B ++ [⟨gid, c.name, c.pid, c.num, tz, k + 1⟩]), nid2⟩) := by
          rw [hshape, haf]
          simp
        have hrest : (A ++ (B ++ [(⟨gid, c.name, c.pid, c.num, tz, k + 1⟩ : Entry)])).filter
            (nameMatch c.name fz) = [] := by
          refine List.filter_eq_nil_iff.mpr ?_
          intro x hx
          rcases List.mem_append.mp hx with hx | hx
          · exact hAfz x hx
          · rcases List.mem_append.mp hx with hx | hx
            · exact hBfz x hx
            · simp at hx; subst hx; exact hgfz (k + 1)
        simp only [swapExecLoop, hf, hgc, if_neg hnotone, hrr, haddc]
        have hnm2 := swapLoop_noMatch c fz tz
          ⟨A ++ (B ++ [(⟨gid, c.name, c.pid, c.num, tz, k + 1⟩ : Entry)]), nid2⟩ hrest m
        rw [hnm2]
        simp only []
        norm_num
      · have hone : (1 : Int) < ((t2 + 1 : Nat) : Int) := by push_cast; omega
        have hsc := setCount_decomp A (B ++ [⟨gid, c.name, c.pid, c.num, tz, k⟩])
          { e with count := ((t2 + 1 : Nat) : Int) } nid2 (((t2 + 1 : Nat) : Int) - 1)
          hAe hBe2
        have hXtz : ∀ x ∈ A ++ { e with count := ((t2 : Nat) : Int) } :: B,
            ¬ exactPred c tz x = true := by
          intro x hx hex
          rcases List.mem_append.mp hx with hx | hx
          · exact hAtz x hx (exactPred_nameMatch c tz x hex)
          · rcases List.mem_cons.mp hx with rfl | hx
            · exact hetz (exactPred_nameMatch c tz _ hex)
            · exact hBtz x hx (exactPred_nameMatch c tz x hex)
        have hXg : ∀ x ∈ A ++ { e with count := ((t2 : Nat) : Int) } :: B,
            x.eid ≠ (⟨gid, c.name, c.pid, c.num, tz, k⟩ : Entry).eid := by
          intro x hx
          rcases List.mem_append.mp hx with hx | hx
          · exact hAg x hx
          · rcases List.mem_cons.mp hx with rfl | hx
            · exact heg
            · exact hBg x hx
        have haf := addCard_found (A ++ { e with count := ((t2 : Nat) : Int) } :: B) []
          (⟨gid, c.name, c.pid, c.num, tz, k⟩ : Entry) nid2 c tz hXtz
          (by simp [exactPred]) hXg (by simp)
        have hshape : A ++ { e with count := ((t2 : Nat) : Int) }
              :: (B ++ [(⟨gid, c.name, c.pid, c.num, tz, k⟩ : Entry)])
            = (A ++ { e with count := ((t2 : Nat) : Int) } :: B)
              ++ [(⟨gid, c.name, c.pid, c.num, tz, k⟩ : Entry)] := by
          simp
        have haddc : addCard ⟨A ++ { e with count := ((t2 : Nat) : Int) }
              :: (B ++ [⟨gid, c.name, c.pid, c.num, tz, k⟩]), nid2⟩ c tz
            = (gid, ⟨A ++ { e with count := ((t2 : Nat) : Int) }
                :: (B ++ [⟨gid, c.name, c.pid, c.num, tz, k + 1⟩]), nid2⟩) := by
          rw [hshape, haf]
          simp
        simp only [swapExecLoop, hf, hgc, if_pos hone, hsc]
        rw [show (((t2 + 1 : Nat) : Int) - 1) = ((t2 : Nat) : Int) by push_cast; ring]
        rw [haddc]
        simp only []
        rw [ih m (k + 1) ht2 (by omega)]
        simp only []
        rw [show k + 1 + ((t2 : Nat) : Int) = k + ((t2 + 1 : Nat) : Int) by push_cast; ring]
        rw [show ((t2 : Int) + 1) = ((t2 + 1 : Nat) : Int) by push_cast; ring]
        rw [show (t2 + 1 - 1) = (t2 - 1) + 1 by omega]
        rw [show (List.replicate ((t2 - 1) + 1) (e.eid, gid, false))
            = (e.eid, gid, false) :: List.replicate (t2 - 1) (e.eid, gid, false) from
            List.replicate_succ _ _]
        rfl

theorem swapExec_dec (c : ExactCard) (fz tz : String) (A B : List Entry) (e : Entry)
    (nid : Nat)
    (hAfz : ∀ x ∈ A, ¬ nameMatch c.name fz x = true)
    (hAtz : ∀ x ∈ A, ¬ nameMatch c.name tz x = true)
    (hBtz : ∀ x ∈ B, ¬ nameMatch c.name tz x = true)
    (he : exactPred c fz e = true)
    (hAe : ∀ x ∈ A, x.eid ≠ e.eid) (hBe : ∀ x ∈ B, x.eid ≠ e.eid)
    (hlt : ∀ x ∈ A ++ B, x.eid < nid) (helt : e.eid < nid)
    (hzz : ¬ fz = tz)
    (n tn : Nat) (hn : 1 ≤ n) (hntn : n < tn) :
    swapExecLoop c fz tz n ⟨A ++ { e with count := (tn : Int) } :: B, nid⟩
      = (⟨A ++ { e with count := (tn : Int) - n }
            :: (B ++ [⟨nid, c.name, c.pid, c.num, tz, (n : Int)⟩]), nid + 1⟩,
         List.replicate n (e.eid, nid, false), (n : Int)) := by
  have he2 := he
  simp only [exactPred, Bool.and_eq_true, beq_iff_eq] at he2
  obtain ⟨⟨⟨h1, h2⟩, h3⟩, h4⟩ := he2
  have hetz : ¬ nameMatch c.name tz e = true := by
    simp [nameMatch, h1, h4]
    exact hzz
  have hAg : ∀ x ∈ A, x.eid ≠ nid :=
    fun x hx => Nat.ne_of_lt (hlt x (List.mem_append.mpr (Or.inl hx)))
  have hBg : ∀ x ∈ B, x.eid ≠ nid :=
    fun x hx => Nat.ne_of_lt (hlt x (List.mem_append.mpr (Or.inr hx)))
  have heg : e.eid ≠ nid := Nat.ne_of_lt helt
  obtain ⟨m, hm⟩ : ∃ m, n = m + 1 := ⟨n - 1, by omega⟩
  subst hm
  have hf := findForRemoval_mid c fz A B e nid ((tn : Nat) : Int) hAfz he
  have hgc : getCount ⟨A ++ { e with count := ((tn : Nat) : Int) } :: B, nid⟩ e.eid
      = ((tn : Nat) : Int) :=
    getCount_decomp A B { e with count := ((tn : Nat) : Int) } nid hAe
  have hone : (1 : Int) < ((tn : Nat) : Int) := by push_cast; omega
  have hsc := setCount_decomp A B { e with count := ((tn : Nat) : Int) } nid
    (((tn : Nat) : Int) - 1) hAe hBe
  have hfind_none : (A ++ { e with count := ((tn : Nat) : Int) - 1 } :: B).find?
      (exactPred c tz) = none := by
    rw [List.find?_eq_none]
    intro x hx hex
    rcases List.mem_append.mp hx with hx | hx
    · exact hAtz x hx (exactPred_nameMatch c tz x hex)
    · rcases List.mem_cons.mp hx with rfl | hx
      · exact hetz (exactPred_nameMatch c tz _ hex)
      · exact hBtz x hx (exactPred_nameMatch c tz x hex)
  have haddc : addCard ⟨A ++ { e with count := ((tn : Nat) : Int) - 1 } :: B, nid⟩ c tz
      = (nid, ⟨A ++ { e with count := ((tn : Nat) : Int) - 1 }
          :: (B ++ [⟨nid, c.name, c.pid, c.num, tz, 1⟩]), nid + 1⟩) := by
    rw [addCard_fresh _ nid c tz hfind_none]
    simp
  simp only [swapExecLoop, hf, hgc, if_pos hone, hsc, haddc]
  have hloop := swapLoop_inc c fz tz A B e nid (nid + 1) hAfz hAtz hBtz he hAe hBe
    hAg hBg heg hzz m (((tn : Nat) : Int) - 1) 1 (by push_cast; omega)
  rw [hloop]
  simp only []
  rw [show ((tn : Nat) : Int) - 1 - (m : Int) = ((tn : Nat) : Int) - ((m + 1 : Nat) : Int)
      by push_cast; ring]
  rw [show (1 : Int) + (m : Int) = ((m + 1 : Nat) : Int) by push_cast; ring]
  rw [show ((m : Int) + 1) = ((m + 1 : Nat) : Int) by push_cast; ring]
  rw [show ((e.eid, nid, false) :: List.replicate m (e.eid, nid, false))
      = List.replicate (m + 1) (e.eid, nid, false) from (List.replicate_succ _ _).symm]

theorem swapExec_drain (c : ExactCard) (fz tz : String) (A B : List Entry) (e : Entry)
    (nid : Nat)
    (hAfz : ∀ x ∈ A, ¬ nameMatch c.name fz x = true)
    (hBfz : ∀ x ∈ B, ¬ nameMatch c.name fz x = true)
    (hAtz : ∀ x ∈ A, ¬ nameMatch c.name tz x = true)
    (hBtz : ∀ x ∈ B, ¬ nameMatch c.name tz x = true)
    (he : exactPred c fz e = true)
    (hAe : ∀ x ∈ A, x.eid ≠ e.eid) (hBe : ∀ x ∈ B, x.eid ≠ e.eid)
    (hlt : ∀ x ∈ A ++ B, x.eid < nid) (helt : e.eid < nid)
    (hzz : ¬ fz = tz)
    (n tn : Nat) (htn : 1 ≤ tn) (htnn : tn ≤ n) :
    swapExecLoop c fz tz n ⟨A ++ { e with count := (tn : Int) } :: B, nid⟩
      = (⟨A ++ (B ++ [⟨nid, c.name, c.pid, c.num, tz, (tn : Int)⟩]), nid + 1⟩,
         List.replicate (tn - 1) (e.eid, nid, false) ++ [(e.eid, nid, true)], (tn : Int)) := by
  have he2 := he
  simp only [exactPred, Bool.and_eq_true, beq_iff_eq] at he2
  obtain ⟨⟨⟨h1, h2⟩, h3⟩, h4⟩ := he2
  have hetz : ¬ nameMatch c.name tz e = true := by
    simp [nameMatch, h1, h4]
    exact hzz
  have hgfz : ∀ j : Int,
      ¬ nameMatch c.name fz (⟨nid, c.name, c.pid, c.num, tz, j⟩ : Entry) = true := by
    intro j
    simp [nameMatch]
    exact fun h => hzz h.symm
  have hAg : ∀ x ∈ A, x.eid ≠ nid :=
    fun x hx => Nat.ne_of_lt (hlt x (List.mem_append.mpr (Or.inl hx)))
  have hBg : ∀ x ∈ B, x.eid ≠ nid :=
    fun x hx => Nat.ne_of_lt (hlt x (List.mem_append.mpr (Or.inr hx)))
  have heg : e.eid ≠ nid := Nat.ne_of_lt helt
  obtain ⟨m, hm⟩ : ∃ m, n = m + 1 := ⟨n - 1, by omega⟩
  subst hm
  have hf := findForRemoval_mid c fz A B e nid ((tn : Nat) : Int) hAfz he
  have hgc : getCount ⟨A ++ { e with count := ((tn : Nat) : Int) } :: B, nid⟩ e.eid
      = ((tn : Nat) : Int) :=
    getCount_decomp A B { e with count := ((tn : Nat) : Int) } nid hAe
  rcases Nat.lt_or_ge tn 2 with htn1 | htn2
  · -- tn = 1: the source row is removed on the very first iteration
    have htn1' : tn = 1 := by omega
    subst htn1'
    have hnotone : ¬ (1 : Int) < ((1 : Nat) : Int) := by norm_num
    have hrr := removeRow_decomp A B { e with count := ((1 : Nat) : Int) } nid hAe hBe
    have hfind_none : (A ++ B).find? (exactPred c tz) = none := by
      rw [List.find?_eq_none]
      intro x hx hex
      rcases List.mem_append.mp hx with hx | hx
      · exact hAtz x hx (exactPred_nameMatch c tz x hex)
      · exact hBtz x hx (exactPred_nameMatch c tz x hex)
    have haddc : addCard ⟨A ++ B, nid⟩ c tz
        = (nid, ⟨A ++ (B ++ [⟨nid, c.name, c.pid, c.num, tz, 1⟩]), nid + 1⟩) := by
      rw [addCard_fresh _ nid c tz hfind_none]
      simp
    have hrest : (A ++ (B ++ [(⟨nid, c.name, c.pid, c.num, tz, (1 : Int)⟩ : Entry)])).filter
        (nameMatch c.name fz) = [] := by
      refine List.filter_eq_nil_iff.mpr ?_
      intro x hx
      rcases List.mem_append.mp hx with hx | hx
      · exact hAfz x hx
      · rcases List.mem_append.mp hx with hx | hx
        · exact hBfz x hx
        · simp at hx; subst hx; exact hgfz 1
    simp only [swapExecLoop, hf, hgc, if_neg hnotone, hrr, haddc]
    have hnm2 := swapLoop_noMatch c fz tz
      ⟨A ++ (B ++ [(⟨nid, c.name, c.pid, c.num, tz, (1 : Int)⟩ : Entry)]), nid + 1⟩ hrest m
    rw [hnm2]
    simp only []
    norm_num
  · -- tn >= 2: decrement once, then drain the remaining tn-1 copies
    have hone : (1 : Int) < ((tn : Nat) : Int) := by push_cast; omega
    have hsc := setCount_decomp A B { e with count := ((tn : Nat) : Int) } nid
      (((tn : Nat) : Int) - 1) hAe hBe
    have hfind_none : (A ++ { e with count := ((tn - 1 : Nat) : Int) } :: B).find?
        (exactPred c tz) = none := by
      rw [List.find?_eq_none]
      intro x hx hex
      rcases List.mem_append.mp hx with hx | hx
      · exact hAtz x hx (exactPred_nameMatch c tz x hex)
      · rcases List.mem_cons.mp hx with rfl | hx
        · exact hetz (exactPred_nameMatch c tz _ hex)
        · exact hBtz x hx (exactPred_nameMatch c tz x hex)
    have haddc : addCard ⟨A ++ { e with count := ((tn - 1 : Nat) : Int) } :: B, nid⟩ c tz
        = (nid, ⟨A ++ { e with count := ((tn - 1 : Nat) : Int) }
            :: (B ++ [⟨nid, c.name, c.pid, c.num, tz, 1⟩]), nid + 1⟩) := by
      rw [addCard_fresh _ nid c tz hfind_none]
      simp
    simp only [swapExecLoop, hf, hgc, if_pos hone, hsc]
    rw [show (((tn : Nat) : Int) - 1) = ((tn - 1 : Nat) : Int) by push_cast; omega]
    rw [haddc]
    simp only []
    have hloop := swapLoop_drain c fz tz A B e nid (nid + 1) hAfz hBfz hAtz hBtz he
      hAe hBe hAg hBg heg hzz (tn - 1) m 1 (by omega) (by omega)
    rw [hloop]
    simp only []
    rw [show (1 : Int) + ((tn - 1 : Nat) : Int) = ((tn : Nat) : Int) by push_cast; omega]
    rw [show ((tn - 1 : Nat) : Int) + 1 = ((tn : Nat) : Int) by push_cast; omega]
    rw [show (tn - 1) = ((tn - 1) - 1) + 1 by omega]
    rw [show (List.replicate (((tn - 1) - 1) + 1) (e.eid, nid, false))
        = (e.eid, nid, false) :: List.replicate ((tn - 1) - 1) (e.eid, nid, false) from
        List.replicate_succ _ _]
    rw [show (tn - 1 - 1 + 1 - 1) = tn - 1 - 1 by omega]
    rfl

theorem find?_last_pos (p : Entry → Bool) (A B : List Entry) (e g : Entry)
    (hA : ∀ x ∈ A, ¬ p x = true) (hep : ¬ p e = true) (hB : ∀ x ∈ B, ¬ p x = true)
    (hg : p g = true) :
    (A ++ e :: (B ++ [g])).find? p = some g := by
  rw [show A ++ e :: (B ++ [g]) = (A ++ e :: B) ++ [g] by simp]
  refine find?_midPos p (A ++ e :: B) [] g ?_ hg
  intro x hx
  rcases List.mem_append.mp hx with hx | hx
  · exact hA x hx
  · rcases List.mem_cons.mp hx with rfl | hx
    · exact hep
    · exact hB x hx

theorem getCount_last (A B : List Entry) (e g : Entry) (nid2 : Nat)
    (hAg : ∀ x ∈ A, x.eid ≠ g.eid) (hBg : ∀ x ∈ B, x.eid ≠ g.eid)
    (heg : e.eid ≠ g.eid) :
    getCount ⟨A ++ e :: (B ++ [g]), nid2⟩ g.eid = g.count := by
  unfold getCount
  show (match (A ++ e :: (B ++ [g])).find? (fun x => x.eid == g.eid) with
        | some x => x.count | none => 0) = g.count
  rw [find?_last_pos _ A B e g
    (by intro x hx; simp [hAg x hx]) (by simp [heg]) (by intro x hx; simp [hBg x hx])
    (by simp)]

theorem setCount_last (A B : List Entry) (e g : Entry) (nid2 : Nat) (v : Int)
    (hAg : ∀ x ∈ A, x.eid ≠ g.eid) (hBg : ∀ x ∈ B, x.eid ≠ g.eid)
    (heg : e.eid ≠ g.eid) :
    setCount ⟨A ++ e :: (B ++ [g]), nid2⟩ g.eid v
      = ⟨A ++ e :: (B ++ [{ g with count := v }]), nid2⟩ := by
  simp only [setCount, List.map_append, List.map_cons, List.map_nil]
  rw [map_upd_id A g.eid v hAg, map_upd_id B g.eid v hBg]
  simp [heg]

theorem removeRow_last (A B : List Entry) (e g : Entry) (nid2 : Nat)
    (hAg : ∀ x ∈ A, x.eid ≠ g.eid) (hBg : ∀ x ∈ B, x.eid ≠ g.eid)
    (heg : e.eid ≠ g.eid) :
    removeRow ⟨A ++ e :: (B ++ [g]), nid2⟩ g.eid = ⟨A ++ e :: B, nid2⟩ := by
  simp only [removeRow, List.filter_append, List.filter_cons]
  rw [filter_ne_id A g.eid hAg, filter_ne_id B g.eid hBg]
  simp [heg]

theorem swapUndoFold_dec (c : ExactCard) (fz tz : String) (A B : List Entry) (e : Entry)
    (gid nid2 : Nat)
    (hAfz : ∀ x ∈ A, ¬ nameMatch c.name fz x = true)
    (hAtz : ∀ x ∈ A, ¬ nameMatch c.name tz x = true)
    (hBtz : ∀ x ∈ B, ¬ nameMatch c.name tz x = true)
    (he : exactPred c fz e = true)
    (hAe : ∀ x ∈ A, x.eid ≠ e.eid) (hBe : ∀ x ∈ B, x.eid ≠ e.eid)
    (hAg : ∀ x ∈ A, x.eid ≠ gid) (hBg : ∀ x ∈ B, x.eid ≠ gid)
    (heg : e.eid ≠ gid) (hzz : ¬ fz = tz) :
    ∀ (m : Nat) (t : Int) (x y : Nat), 1 ≤ m →
      (List.replicate m (x, y, false)).foldl (swapUndoStep c fz tz)
          ⟨A ++ { e with count := t }
            :: (B ++ [⟨gid, c.name, c.pid, c.num, tz, (m : Int)⟩]), nid2⟩
        = ⟨A ++ { e with count := t + m } :: B, nid2⟩ := by
  have he2 := he
  simp only [exactPred, Bool.and_eq_true, beq_iff_eq] at he2
  obtain ⟨⟨⟨h1, h2⟩, h3⟩, h4⟩ := he2
  have hetz : ¬ nameMatch c.name tz e = true := by
    simp [nameMatch, h1, h4]
    exact hzz
  have hnmfz : nameMatch c.name fz e = true := exactPred_nameMatch c fz e he
  intro m
  induction m with
  | zero => intro t x y h; omega
  | succ m2 ih =>
      intro t x y _
      rw [List.replicate_succ, List.foldl_cons]
      have hfc : findCard ⟨A ++ { e with count := t }
            :: (B ++ [⟨gid, c.name, c.pid, c.num, tz, ((m2 + 1 : Nat) : Int)⟩]), nid2⟩
          c.name tz = some gid := by
        unfold findCard
        rw [find?_last_pos (nameMatch c.name tz) A B { e with count := t }
          (⟨gid, c.name, c.pid, c.num, tz, ((m2 + 1 : Nat) : Int)⟩ : Entry)
          hAtz hetz hBtz (by simp [nameMatch])]
        rfl
      have hgcg : getCount ⟨A ++ { e with count := t }
            :: (B ++ [⟨gid, c.name, c.pid, c.num, tz, ((m2 + 1 : Nat) : Int)⟩]), nid2⟩ gid
          = ((m2 + 1 : Nat) : Int) :=
        getCount_last A B { e with count := t }
          (⟨gid, c.name, c.pid, c.num, tz, ((m2 + 1 : Nat) : Int)⟩ : Entry) nid2 hAg hBg heg
      rcases Nat.eq_zero_or_pos m2 with hm2 | hm2
      · -- last record: the destination row drains away, source gets its last copy back
        subst hm2
        have hnotone : ¬ (1 : Int) < ((0 + 1 : Nat) : Int) := by norm_num
        have hrr := removeRow_last A B { e with count := t }
          (⟨gid, c.name, c.pid, c.num, tz, ((0 + 1 : Nat) : Int)⟩ : Entry) nid2 hAg hBg heg
        have hfcf := findCard_mid c.name fz A B e nid2 t hAfz hnmfz
        have hgce : getCount ⟨A ++ { e with count := t } :: B, nid2⟩ e.eid = t :=
          getCount_decomp A B { e with count := t } nid2 hAe
        have hsce := setCount_decomp A B { e with count := t } nid2 (t + 1) hAe hBe
        simp only [swapUndoStep, hfc, hgcg, if_neg hnotone, hrr, Bool.false_eq_true,
          if_false, hfcf, hgce, hsce]
        norm_num
      · -- the destination row still has copies: decrement it, increment the source
        have hone : (1 : Int) < ((m2 + 1 : Nat) : Int) := by push_cast; omega
        have hscg := setCount_last A B { e with count := t }
          (⟨gid, c.name, c.pid, c.num, tz, ((m2 + 1 : Nat) : Int)⟩ : Entry) nid2
          (((m2 + 1 : Nat) : Int) - 1) hAg hBg heg
        have hBe2 : ∀ x ∈ B ++ [(⟨gid, c.name, c.pid, c.num, tz,
            ((m2 : Nat) : Int)⟩ : Entry)], x.eid ≠ e.eid := by
          intro x hx
          rcases List.mem_append.mp hx with hx | hx
          · exact hBe x hx
          · simp at hx; subst hx; exact Ne.symm heg
        have hfcf := findCard_mid c.name fz A
          (B ++ [⟨gid, c.name, c.pid, c.num, tz, ((m2 : Nat) : Int)⟩]) e nid2 t hAfz hnmfz
        have hgce : getCount ⟨A ++ { e with count := t }
              :: (B ++ [⟨gid, c.name, c.pid, c.num, tz, ((m2 : Nat) : Int)⟩]), nid2⟩ e.eid
            = t :=
          getCount_decomp A (B ++ [⟨gid, c.name, c.pid, c.num, tz, ((m2 : Nat) : Int)⟩])
            { e with count := t } nid2 hAe
        have hsce := setCount_decomp A
          (B ++ [⟨gid, c.name, c.pid, c.num, tz, ((m2 : Nat) : Int)⟩])
          { e with count := t } nid2 (t + 1) hAe hBe2
        simp only [swapUndoStep, hfc, hgcg, if_pos hone, hscg]
        rw [show (((m2 + 1 : Nat) : Int) - 1) = ((m2 : Nat) : Int) by push_cast; omega]
        simp only [Bool.false_eq_true, if_false, hfcf, hgce, hsce]
        rw [ih (t + 1) x y hm2]
        rw [show t + 1 + ((m2 : Nat) : Int) = t + ((m2 + 1 : Nat) : Int) by push_cast; ring]

theorem swapUndoFold2 (c : ExactCard) (fz tz : String) (A B : List Entry)
    (gid eid2 nid3 : Nat)
    (hAfz : ∀ x ∈ A, ¬ nameMatch c.name fz x = true)
    (hBfz : ∀ x ∈ B, ¬ nameMatch c.name fz x = true)
    (hAtz : ∀ x ∈ A, ¬ nameMatch c.name tz x = true)
    (hBtz : ∀ x ∈ B, ¬ nameMatch c.name tz x = true)
    (hA2 : ∀ x ∈ A, x.eid ≠ eid2) (hB2 : ∀ x ∈ B, x.eid ≠ eid2)
    (hAg : ∀ x ∈ A, x.eid ≠ gid) (hBg : ∀ x ∈ B, x.eid ≠ gid)
    (hge : gid ≠ eid2) (hzz : ¬ fz = tz) :
    ∀ (m : Nat) (s : Int) (x y : Nat), 1 ≤ m →
      (List.replicate m (x, y, false)).foldl (swapUndoStep c fz tz)
          ⟨(A ++ B) ++ (⟨gid, c.name, c.pid, c.num, tz, (m : Int)⟩ : Entry)
            :: [⟨eid2, c.name, c.pid, c.num, fz, s⟩], nid3⟩
        = ⟨(A ++ B) ++ [⟨eid2, c.name, c.pid, c.num, fz, s + m⟩], nid3⟩ := by
  have hpretz : ∀ x ∈ A ++ B, ¬ nameMatch c.name tz x = true := by
    intro x hx
    rcases List.mem_append.mp hx with hx | hx
    · exact hAtz x hx
    · exact hBtz x hx
  have hprefz : ∀ x ∈ A ++ B, ¬ nameMatch c.name fz x = true := by
    intro x hx
    rcases List.mem_append.mp hx with hx | hx
    · exact hAfz x hx
    · exact hBfz x hx
  have hpre2 : ∀ x ∈ A ++ B, x.eid ≠ eid2 := by
    intro x hx
    rcases List.mem_append.mp hx with hx | hx
    · exact hA2 x hx
    · exact hB2 x hx
  have hpreg : ∀ x ∈ A ++ B, x.eid ≠ gid := by
    intro x hx
    rcases List.mem_append.mp hx with hx | hx
    · exact hAg x hx
    · exact hBg x hx
  intro m
  induction m with
  | zero => intro s x y h; omega
  | succ m2 ih =>
      intro s x y _
      rw [List.replicate_succ, List.foldl_cons]
      have hfc : findCard ⟨(A ++ B) ++ (⟨gid, c.name, c.pid, c.num, tz,
            ((m2 + 1 : Nat) : Int)⟩ : Entry)
            :: [⟨eid2, c.name, c.pid, c.num, fz, s⟩], nid3⟩ c.name tz = some gid := by
        unfold findCard
        rw [find?_midPos (nameMatch c.name tz) (A ++ B)
          [⟨eid2, c.name, c.pid, c.num, fz, s⟩]
          (⟨gid, c.name, c.pid, c.num, tz, ((m2 + 1 : Nat) : Int)⟩ : Entry)
          hpretz (by simp [nameMatch])]
        rfl
      have hgcg : getCount ⟨(A ++ B) ++ (⟨gid, c.name, c.pid, c.num, tz,
            ((m2 + 1 : Nat) : Int)⟩ : Entry)
            :: [⟨eid2, c.name, c.pid, c.num, fz, s⟩], nid3⟩ gid
          = ((m2 + 1 : Nat) : Int) :=
        getCount_decomp (A ++ B) [⟨eid2, c.name, c.pid, c.num, fz, s⟩]
          (⟨gid, c.name, c.pid, c.num, tz, ((m2 + 1 : Nat) : Int)⟩ : Entry) nid3 hpreg
      rcases Nat.eq_zero_or_pos m2 with hm2 | hm2
      · -- last record: destination row drains, source row gets its last copy
        subst hm2
        have hnotone : ¬ (1 : Int) < ((0 + 1 : Nat) : Int) := by norm_num
        have hrr := removeRow_decomp (A ++ B) [⟨eid2, c.name, c.pid, c.num, fz, s⟩]
          (⟨gid, c.name, c.pid, c.num, tz, ((0 + 1 : Nat) : Int)⟩ : Entry) nid3 hpreg
          (by intro x hx; simp at hx; subst hx; exact Ne.symm hge)
        have hfcf : findCard ⟨(A ++ B) ++ [⟨eid2, c.name, c.pid, c.num, fz, s⟩], nid3⟩
            c.name fz = some eid2 := by
          unfold findCard
          rw [find?_midPos (nameMatch c.name fz) (A ++ B) []
            (⟨eid2, c.name, c.pid, c.num, fz, s⟩ : Entry) hprefz (by simp [nameMatch])]
          rfl
        have hgce : getCount ⟨(A ++ B) ++ [⟨eid2, c.name, c.pid, c.num, fz, s⟩], nid3⟩
            eid2 = s :=
          getCount_decomp (A ++ B) [] (⟨eid2, c.name, c.pid, c.num, fz, s⟩ : Entry)
            nid3 hpre2
        have hsce := setCount_decomp (A ++ B) []
          (⟨eid2, c.name, c.pid, c.num, fz, s⟩ : Entry) nid3 (s + 1) hpre2 (by simp)
        simp only [swapUndoStep, hfc, hgcg, if_neg hnotone, hrr, Bool.false_eq_true,
          if_false, hfcf, hgce, hsce]
        norm_num
      · -- destination row still has copies: decrement it, increment the source row
        have hone : (1 : Int) < ((m2 + 1 : Nat) : Int) := by push_cast; omega
        have hscg := setCount_decomp (A ++ B) [⟨eid2, c.name, c.pid, c.num, fz, s⟩]
          (⟨gid, c.name, c.pid, c.num, tz, ((m2 + 1 : Nat) : Int)⟩ : Entry) nid3
          (((m2 + 1 : Nat) : Int) - 1) hpreg
          (by intro x hx; simp at hx; subst hx; exact Ne.symm hge)
        have hfcf : findCard ⟨(A ++ B) ++ (⟨gid, c.name, c.pid, c.num, tz,
              ((m2 : Nat) : Int)⟩ : Entry)
              :: [⟨eid2, c.name, c.pid, c.num, fz, s⟩], nid3⟩ c.name fz = some eid2 := by
          unfold findCard
          rw [show ((A ++ B) ++ (⟨gid, c.name, c.pid, c.num, tz,
                ((m2 : Nat) : Int)⟩ : Entry) :: [⟨eid2, c.name, c.pid, c.num, fz, s⟩])
              = (((A ++ B) ++ [⟨gid, c.name, c.pid, c.num, tz, ((m2 : Nat) : Int)⟩])
                ++ (⟨eid2, c.name, c.pid, c.num, fz, s⟩ : Entry) :: []) by simp]
          have hmid := find?_midPos (nameMatch c.name fz)
            ((A ++ B) ++ [(⟨gid, c.name, c.pid, c.num, tz, ((m2 : Nat) : Int)⟩ : Entry)]) []
            (⟨eid2, c.name, c.pid, c.num, fz, s⟩ : Entry)
            (by
              intro x hx
              rcases List.mem_append.mp hx with hx | hx
              · exact hprefz x hx
              · simp at hx; subst hx; simp [nameMatch]; exact fun h => hzz h.symm)
            (by simp [nameMatch])
          rw [hmid]
          rfl
        have hgce : getCount ⟨(A ++ B) ++ (⟨gid, c.name, c.pid, c.num, tz,
              ((m2 : Nat) : Int)⟩ : Entry)
              :: [⟨eid2, c.name, c.pid, c.num, fz, s⟩], nid3⟩ eid2 = s := by
          have h' := getCount_last (A ++ B) []
            (⟨gid, c.name, c.pid, c.num, tz, ((m2 : Nat) : Int)⟩ : Entry)
            (⟨eid2, c.name, c.pid, c.num, fz, s⟩ : Entry) nid3 hpre2 (by simp) hge
          simpa using h'
        have hsce : setCount ⟨(A ++ B) ++ (⟨gid, c.name, c.pid, c.num, tz,
              ((m2 : Nat) : Int)⟩ : Entry)
              :: [⟨eid2, c.name, c.pid, c.num, fz, s⟩], nid3⟩ eid2 (s + 1)
            = ⟨(A ++ B) ++ (⟨gid, c.name, c.pid, c.num, tz, ((m2 : Nat) : Int)⟩ : Entry)
              :: [⟨eid2, c.name, c.pid, c.num, fz, s + 1⟩], nid3⟩ := by
          have h' := setCount_last (A ++ B) []
            (⟨gid, c.name, c.pid, c.num, tz, ((m2 : Nat) : Int)⟩ : Entry)
            (⟨eid2, c.name, c.pid, c.num, fz, s⟩ : Entry) nid3 (s + 1) hpre2 (by simp) hge
          simpa using h'
        simp only [swapUndoStep, hfc, hgcg, if_pos hone, hscg]
        rw [show (((m2 + 1 : Nat) : Int) - 1) = ((m2 : Nat) : Int) by push_cast; omega]
        simp only [Bool.false_eq_true, if_false, hfcf, hgce, hsce]
        rw [ih (s + 1) x y hm2]
        rw [show s + 1 + ((m2 : Nat) : Int) = s + ((m2 + 1 : Nat) : Int) by push_cast; ring]

theorem swapLoop_undo_mstate (c : ExactCard) (fz tz : String) (A B : List Entry) (e : Entry)
    (nid : Nat)
    (hAfz : ∀ x ∈ A, ¬ nameMatch c.name fz x = true)
    (hBfz : ∀ x ∈ B, ¬ nameMatch c.name fz x = true)
    (hAtz : ∀ x ∈ A, ¬ nameMatch c.name tz x = true)
    (hBtz : ∀ x ∈ B, ¬ nameMatch c.name tz x = true)
    (he : exactPred c fz e = true)
    (hAe : ∀ x ∈ A, x.eid ≠ e.eid) (hBe : ∀ x ∈ B, x.eid ≠ e.eid)
    (hlt : ∀ x ∈ A ++ B, x.eid < nid) (helt : e.eid < nid)
    (hzz : ¬ fz = tz)
    (n tn : Nat) (hn : 1 ≤ n) (htn : 1 ≤ tn) :
    0 < (swapExecLoop c fz tz n ⟨A ++ { e with count := (tn : Int) } :: B, nid⟩).2.2 ∧
    mstate ((swapExecLoop c fz tz n
          ⟨A ++ { e with count := (tn : Int) } :: B, nid⟩).2.1.reverse.foldl
        (swapUndoStep c fz tz)
        (swapExecLoop c fz tz n ⟨A ++ { e with count := (tn : Int) } :: B, nid⟩).1)
      = mstate ⟨A ++ { e with count := (tn : Int) } :: B, nid⟩ := by
  have hAg : ∀ x ∈ A, x.eid ≠ nid :=
    fun x hx => Nat.ne_of_lt (hlt x (List.mem_append.mpr (Or.inl hx)))
  have hBg : ∀ x ∈ B, x.eid ≠ nid :=
    fun x hx => Nat.ne_of_lt (hlt x (List.mem_append.mpr (Or.inr hx)))
  have heg : e.eid ≠ nid := Nat.ne_of_lt helt
  have he2 := he
  simp only [exactPred, Bool.and_eq_true, beq_iff_eq] at he2
  obtain ⟨⟨⟨h1, h2⟩, h3⟩, h4⟩ := he2
  rcases Nat.lt_or_ge n tn with hcase | hcase
  · -- partial move: fuel runs out before the source row drains
    have hd := swapExec_dec c fz tz A B e nid hAfz hAtz hBtz he hAe hBe hlt helt hzz
      n tn hn hcase
    rw [hd]
    simp only []
    refine ⟨by omega, ?_⟩
    rw [List.reverse_replicate]
    rw [swapUndoFold_dec c fz tz A B e nid (nid + 1) hAfz hAtz hBtz he hAe hBe
      hAg hBg heg hzz n ((tn : Int) - n) e.eid nid hn]
    rw [show ((tn : Int) - (n : Int)) + (n : Int) = (tn : Int) by ring]
    rfl
  · -- full drain: all copies move, undo re-creates the source row afresh
    have hd := swapExec_drain c fz tz A B e nid hAfz hBfz hAtz hBtz he hAe hBe hlt helt
      hzz n tn htn hcase
    rw [hd]
    simp only []
    refine ⟨by omega, ?_⟩
    rw [List.reverse_append, List.reverse_replicate]
    simp only [List.reverse_cons, List.reverse_nil, List.nil_append]
    rw [List.singleton_append, List.foldl_cons]
    have hpretz : ∀ x ∈ A ++ B, ¬ nameMatch c.name tz x = true := by
      intro x hx
      rcases List.mem_append.mp hx with hx | hx
      · exact hAtz x hx
      · exact hBtz x hx
    have hprefz : ∀ x ∈ A ++ B, ¬ nameMatch c.name fz x = true := by
      intro x hx
      rcases List.mem_append.mp hx with hx | hx
      · exact hAfz x hx
      · exact hBfz x hx
    have hpreg : ∀ x ∈ A ++ B, x.eid ≠ nid :=
      fun x hx => Nat.ne_of_lt (hlt x hx)
    have hshape : (A ++ (B ++ [(⟨nid, c.name, c.pid, c.num, tz, (tn : Int)⟩ : Entry)]))
        = ((A ++ B) ++ [(⟨nid, c.name, c.pid, c.num, tz, (tn : Int)⟩ : Entry)]) := by
      simp
    have hfc : findCard ⟨A ++ (B ++ [⟨nid, c.name, c.pid, c.num, tz, (tn : Int)⟩]),
        nid + 1⟩ c.name tz = some nid := by
      unfold findCard
      rw [hshape]
      have hmid := find?_midPos (nameMatch c.name tz) (A ++ B) []
        (⟨nid, c.name, c.pid, c.num, tz, (tn : Int)⟩ : Entry) hpretz (by simp [nameMatch])
      rw [hmid]
      rfl
    have hgcg : getCount ⟨A ++ (B ++ [⟨nid, c.name, c.pid, c.num, tz, (tn : Int)⟩]),
        nid + 1⟩ nid = (tn : Int) := by
      rw [show (⟨A ++ (B ++ [⟨nid, c.name, c.pid, c.num, tz, (tn : Int)⟩]), nid + 1⟩ : Doc)
          = ⟨(A ++ B) ++ [⟨nid, c.name, c.pid, c.num, tz, (tn : Int)⟩], nid + 1⟩ by
        rw [hshape]]
      exact getCount_decomp (A ++ B) [] (⟨nid, c.name, c.pid, c.num, tz,
        (tn : Int)⟩ : Entry) (nid + 1) hpreg
    have hfreshfz : (A ++ B).find? (exactPred c fz) = none := by
      rw [List.find?_eq_none]
      intro x hx hex
      exact hprefz x hx (exactPred_nameMatch c fz x hex)
    rcases Nat.lt_or_ge tn 2 with htn1 | htn2
    · -- tn = 1
      have htn1' : tn = 1 := by omega
      subst htn1'
      have hnotone : ¬ (1 : Int) < ((1 : Nat) : Int) := by norm_num
      have hrr : removeRow ⟨A ++ (B ++ [⟨nid, c.name, c.pid, c.num, tz, ((1 : Nat) : Int)⟩]),
          nid + 1⟩ nid = ⟨A ++ B, nid + 1⟩ := by
        rw [show (⟨A ++ (B ++ [⟨nid, c.name, c.pid, c.num, tz, ((1 : Nat) : Int)⟩]),
            nid + 1⟩ : Doc)
            = ⟨(A ++ B) ++ [⟨nid, c.name, c.pid, c.num, tz, ((1 : Nat) : Int)⟩],
               nid + 1⟩ by rw [hshape]]
        have h' := removeRow_decomp (A ++ B) []
          (⟨nid, c.name, c.pid, c.num, tz, ((1 : Nat) : Int)⟩ : Entry) (nid + 1)
          hpreg (by simp)
        simpa using h'
      have haddf := addCard_fresh (A ++ B) (nid + 1) c fz hfreshfz
      have hstep : swapUndoStep c fz tz
          ⟨A ++ (B ++ [⟨nid, c.name, c.pid, c.num, tz, ((1 : Nat) : Int)⟩]), nid + 1⟩
          (e.eid, nid, true)
          = ⟨(A ++ B) ++ [⟨nid + 1, c.name, c.pid, c.num, fz, 1⟩], nid + 1 + 1⟩ := by
        simp only [swapUndoStep, hfc, hgcg, if_neg hnotone, hrr, haddf, if_true]
      rw [hstep]
      simp only [Nat.sub_self, List.replicate_zero, List.foldl_nil]
      simp only [mstate]
      rw [Multiset.coe_eq_coe]
      have hkey : entryKey { e with count := ((1 : Nat) : Int) }
          = entryKey ⟨nid + 1, c.name, c.pid, c.num, fz, 1⟩ := by
        simp [entryKey, h1, h2, h3, h4]
      have hperm := (permMidEnd A ({ e with count := ((1 : Nat) : Int) }) B).map entryKey
      have hx2 : ((A ++ B) ++ [{ e with count := ((1 : Nat) : Int) }]).map entryKey
          = ((A ++ B) ++ [(⟨nid + 1, c.name, c.pid, c.num, fz, (1 : Int)⟩ : Entry)]).map
            entryKey := by
        simp [entryKey, h1, h2, h3, h4]
      rw [hx2] at hperm
      exact hperm.symm
    · -- tn >= 2
      have hone : (1 : Int) < ((tn : Nat) : Int) := by push_cast; omega
      have hscg : setCount ⟨A ++ (B ++ [⟨nid, c.name, c.pid, c.num, tz, (tn : Int)⟩]),
          nid + 1⟩ nid ((tn : Int) - 1)
          = ⟨(A ++ B) ++ [⟨nid, c.name, c.pid, c.num, tz, ((tn - 1 : Nat) : Int)⟩],
             nid + 1⟩ := by
        rw [show (⟨A ++ (B ++ [⟨nid, c.name, c.pid, c.num, tz, (tn : Int)⟩]),
            nid + 1⟩ : Doc)
            = ⟨(A ++ B) ++ [⟨nid, c.name, c.pid, c.num, tz, (tn : Int)⟩], nid + 1⟩ by
          rw [hshape]]
        have h' := setCount_decomp (A ++ B) []
          (⟨nid, c.name, c.pid, c.num, tz, (tn : Int)⟩ : Entry) (nid + 1)
          ((tn : Int) - 1) hpreg (by simp)
        rw [h']
        rw [show ((tn : Int) - 1) = ((tn - 1 : Nat) : Int) by push_cast; omega]
      have haddf : addCard ⟨(A ++ B) ++ [⟨nid, c.name, c.pid, c.num, tz,
            ((tn - 1 : Nat) : Int)⟩], nid + 1⟩ c fz
          = (nid + 1, ⟨(A ++ B) ++ (⟨nid, c.name, c.pid, c.num, tz,
              ((tn - 1 : Nat) : Int)⟩ : Entry)
              :: [⟨nid + 1, c.name, c.pid, c.num, fz, 1⟩], nid + 1 + 1⟩) := by
        have hfind_none : ((A ++ B) ++ [(⟨nid, c.name, c.pid, c.num, tz,
            ((tn - 1 : Nat) : Int)⟩ : Entry)]).find? (exactPred c fz) = none := by
          rw [List.find?_eq_none]
          intro x hx hex
          rcases List.mem_append.mp hx with hx | hx
          · exact hprefz x hx (exactPred_nameMatch c fz x hex)
          · simp at hx
            subst hx
            have := exactPred_nameMatch c fz _ hex
            simp [nameMatch] at this
            exact hzz this.symm
        rw [addCard_fresh _ (nid + 1) c fz hfind_none]
        simp
      have hstep : swapUndoStep c fz tz
          ⟨A ++ (B ++ [⟨nid, c.name, c.pid, c.num, tz, (tn : Int)⟩]), nid + 1⟩
          (e.eid, nid, true)
          = ⟨(A ++ B) ++ (⟨nid, c.name, c.pid, c.num, tz, ((tn - 1 : Nat) : Int)⟩ : Entry)
              :: [⟨nid + 1, c.name, c.pid, c.num, fz, 1⟩], nid + 1 + 1⟩ := by
        simp only [swapUndoStep, hfc, hgcg, if_pos hone, hscg, haddf, if_true]
      rw [hstep]
      rw [swapUndoFold2 c fz tz A B nid (nid + 1) (nid + 1 + 1) hAfz hBfz hAtz hBtz
        (fun x hx => Nat.ne_of_lt (Nat.lt_succ_of_lt
          (hlt x (List.mem_append.mpr (Or.inl hx)))))
        (fun x hx => Nat.ne_of_lt (Nat.lt_succ_of_lt
          (hlt x (List.mem_append.mpr (Or.inr hx)))))
        hAg hBg (by omega) hzz (tn - 1) 1 e.eid nid (by omega)]
      rw [show (1 : Int) + ((tn - 1 : Nat) : Int) = ((tn : Nat) : Int) by push_cast; omega]
      simp only [mstate]
      rw [Multiset.coe_eq_coe]
      have hkey : entryKey { e with count := ((tn : Nat) : Int) }
          = entryKey ⟨nid + 1, c.name, c.pid, c.num, fz, ((tn : Nat) : Int)⟩ := by
        simp [entryKey, h1, h2, h3, h4]
      have hperm := (permMidEnd A ({ e with count := ((tn : Nat) : Int) }) B).map entryKey
      have hx2 : ((A ++ B) ++ [{ e with count := ((tn : Nat) : Int) }]).map entryKey
          = ((A ++ B) ++ [(⟨nid + 1, c.name, c.pid, c.num, fz,
              ((tn : Nat) : Int)⟩ : Entry)]).map entryKey := by
        simp [entryKey, h1, h2, h3, h4]
      rw [hx2] at hperm
      exact hperm.symm

theorem swapExec_unfold (i : Nat) (c : ExactCard) (fz tz : String) (n ts : Int) (ex : Bool)
    (am : Int) (mc : List (Nat × Nat × Bool)) (st : Store)
    (hv : isValidCard c = true) (hn : 0 < n) (hzz : ¬ fz = tz) :
    (Cmd.swap (some i) c fz tz n ts ex am mc).execute st
      = (decide (0 < (swapExecLoop c fz tz n.toNat (st i)).2.2),
         .swap (some i) c fz tz n ts true (swapExecLoop c fz tz n.toNat (st i)).2.2
           (swapExecLoop c fz tz n.toNat (st i)).2.1,
         setDoc st i (swapExecLoop c fz tz n.toNat (st i)).1) := by
  have hcond : ¬(isValidCard c = false ∨ n ≤ 0) := by simp [hv]; omega
  simp [Cmd.execute, hcond, hzz]

theorem swapUndo_unfold (i : Nat) (c : ExactCard) (fz tz : String) (n ts am : Int)
    (mc : List (Nat × Nat × Bool)) (st : Store) (hv : isValidCard c = true) :
    (Cmd.swap (some i) c fz tz n ts true am mc).undo st
      = (true, .swap (some i) c fz tz n ts false am [],
         setDoc st i (mc.reverse.foldl (swapUndoStep c fz tz) (st i))) := by
  have hcond : ¬(true = false ∨ isValidCard c = false) := by simp [hv]
  simp [Cmd.undo, hcond, hv]

theorem roundtrip_add (st : Store) (i : Nat) (c : ExactCard) (z : String) (n ts : Int)
    (hWF : WF (st i)) (hv : isValidCard c = true) (hn : 0 < n) :
    ((Cmd.add (some i) c z n ts false []).execute st).1 = true ∧
    (((Cmd.add (some i) c z n ts false []).execute st).2.1.undo
        ((Cmd.add (some i) c z n ts false []).execute st).2.2).1 = true ∧
    mstate ((((Cmd.add (some i) c z n ts false []).execute st).2.1.undo
        ((Cmd.add (some i) c z n ts false []).execute st).2.2).2.2 i) = mstate (st i) := by
  rw [addExec_unfold i c z n ts false [] st hv hn]
  simp only []
  rw [addUndo_unfold i c z n ts ((addLoop c z n.toNat (st i) []).2)
    (setDoc st i (addLoop c z n.toNat (st i) []).1) hv]
  simp only []
  refine ⟨trivial, trivial, ?_⟩
  rw [setDoc_self, setDoc_self]
  have hent := addLoop_undo_entries c z (st i) n.toNat hWF (by omega)
  simp only [mstate]
  rw [hent]

theorem roundtrip_remove (st : Store) (i : Nat) (c : ExactCard) (z : String) (n ts : Int)
    (A B : List Entry) (e : Entry) (nid : Nat) (tn : Nat)
    (hst : st i = ⟨A ++ { e with count := (tn : Int) } :: B, nid⟩)
    (hWF : WF (st i))
    (hA : ∀ x ∈ A, ¬ nameMatch c.name z x = true)
    (hB : ∀ x ∈ B, ¬ nameMatch c.name z x = true)
    (he : exactPred c z e = true)
    (hv : isValidCard c = true) (hn : 0 < n) (htn : 1 ≤ tn) :
    ((Cmd.remove (some i) c z n ts false 0 []).execute st).1 = true ∧
    (((Cmd.remove (some i) c z n ts false 0 []).execute st).2.1.undo
        ((Cmd.remove (some i) c z n ts false 0 []).execute st).2.2).1 = true ∧
    mstate ((((Cmd.remove (some i) c z n ts false 0 []).execute st).2.1.undo
        ((Cmd.remove (some i) c z n ts false 0 []).execute st).2.2).2.2 i)
      = mstate (st i) := by
  rw [hst] at hWF
  obtain ⟨hAe, hBe⟩ := WF_decomp_ne A B { e with count := (tn : Int) } nid hWF
  have hlt : ∀ x ∈ A ++ B, x.eid < nid := by
    intro x hx
    rcases List.mem_append.mp hx with hx | hx
    · exact hWF.2.1 x (List.mem_append.mpr (Or.inl hx))
    · exact hWF.2.1 x (List.mem_append.mpr (Or.inr (List.mem_cons_of_mem _ hx)))
  have main := removeLoop_undo_mstate c z A B e nid hA hB he hAe hBe hlt
    n.toNat tn (by omega) htn
  rw [removeExec_unfold i c z n ts false 0 [] st hv hn]
  simp only []
  rw [hst]
  rw [removeUndo_unfold i c z n ts _ _ _ hv]
  simp only []
  rw [setDoc_self, setDoc_self]
  exact ⟨decide_eq_true main.1, trivial, main.2⟩

theorem roundtrip_swap (st : Store) (i : Nat) (c : ExactCard) (fz tz : String) (n ts : Int)
    (A B : List Entry) (e : Entry) (nid : Nat) (tn : Nat)
    (hst : st i = ⟨A ++ { e with count := (tn : Int) } :: B, nid⟩)
    (hWF : WF (st i))
    (hAfz : ∀ x ∈ A, ¬ nameMatch c.name fz x = true)
    (hBfz : ∀ x ∈ B, ¬ nameMatch c.name fz x = true)
    (hAtz : ∀ x ∈ A, ¬ nameMatch c.name tz x = true)
    (hBtz : ∀ x ∈ B, ¬ nameMatch c.name tz x = true)
    (he : exactPred c fz e = true) (hzz : ¬ fz = tz)
    (hv : isValidCard c = true) (hn : 0 < n) (htn : 1 ≤ tn) :
    ((Cmd.swap (some i) c fz tz n ts false 0 []).execute st).1 = true ∧
    (((Cmd.swap (some i) c fz tz n ts false 0 []).execute st).2.1.undo
        ((Cmd.swap (some i) c fz tz n ts false 0 []).execute st).2.2).1 = true ∧
    mstate ((((Cmd.swap (some i) c fz tz n ts false 0 []).execute st).2.1.undo
        ((Cmd.swap (some i) c fz tz n ts false 0 []).execute st).2.2).2.2 i)
      = mstate (st i) := by
  rw [hst] at hWF
  obtain ⟨hAe, hBe⟩ := WF_decomp_ne A B { e with count := (tn : Int) } nid hWF
  have hlt : ∀ x ∈ A ++ B, x.eid < nid := by
    intro x hx
    rcases List.mem_append.mp hx with hx | hx
    · exact hWF.2.1 x (List.mem_append.mpr (Or.inl hx))
    · exact hWF.2.1 x (List.mem_append.mpr (Or.inr (List.mem_cons_of_mem _ hx)))
  have helt : e.eid < nid :=
    hWF.2.1 { e with count := (tn : Int) }
      (List.mem_append.mpr (Or.inr (List.mem_cons_self _ B)))
  have main := swapLoop_undo_mstate c fz tz A B e nid hAfz hBfz hAtz hBtz he hAe hBe
    hlt helt hzz n.toNat tn (by omega) htn
  rw [swapExec_unfold i c fz tz n ts false 0 [] st hv hn hzz]
  simp only []
  rw [hst]
  rw [swapUndo_unfold i c fz tz n ts _ _ _ hv]
  simp only []
  rw [setDoc_self, setDoc_self]
  exact ⟨decide_eq_true main.1, trivial, main.2⟩

/-- C1 (amended): the execute/undo round trip holds for each single
successful command, not for arbitrary sequences.  (a) For every AddCard on a
well-formed document, execute() succeeds and undo() restores the document's
full zone/count state.  (b) For every RemoveCard whose zone holds the
command's card as exactly one row carrying the command's exact printing (no
other row of that name in the zone), execute() succeeds and undo() restores
the full zone/count state.  (c) Likewise for every SwapCard whose source
zone holds the card as one exact-printing row, whose destination zone holds
no row of that name, and whose zones differ. -/
theorem C1_amended_single_roundtrip :
    (∀ (st : Store) (i : Nat) (c : ExactCard) (z : String) (n ts : Int),
      WF (st i) → isValidCard c = true → 0 < n →
      ((Cmd.add (some i) c z n ts false []).execute st).1 = true ∧
      (((Cmd.add (some i) c z n ts false []).execute st).2.1.undo
          ((Cmd.add (some i) c z n ts false []).execute st).2.2).1 = true ∧
      mstate ((((Cmd.add (some i) c z n ts false []).execute st).2.1.undo
          ((Cmd.add (some i) c z n ts false []).execute st).2.2).2.2 i) = mstate (st i)) ∧
    (∀ (st : Store) (i : Nat) (c : ExactCard) (z : String) (n ts : Int)
      (A B : List Entry) (e : Entry) (nid : Nat) (tn : Nat),
      st i = ⟨A ++ { e with count := (tn : Int) } :: B, nid⟩ → WF (st i) →
      (∀ x ∈ A, ¬ nameMatch c.name z x = true) →
      (∀ x ∈ B, ¬ nameMatch c.name z x = true) →
      exactPred c z e = true →
      isValidCard c = true → 0 < n → 1 ≤ tn →
      ((Cmd.remove (some i) c z n ts false 0 []).execute st).1 = true ∧
      (((Cmd.remove (some i) c z n ts false 0 []).execute st).2.1.undo
          ((Cmd.remove (some i) c z n ts false 0 []).execute st).2.2).1 = true ∧
      mstate ((((Cmd.remove (some i) c z n ts false 0 []).execute st).2.1.undo
          ((Cmd.remove (some i) c z n ts false 0 []).execute st).2.2).2.2 i)
        = mstate (st i)) ∧
    (∀ (st : Store) (i : Nat) (c : ExactCard) (fz tz : String) (n ts : Int)
      (A B : List Entry) (e : Entry) (nid : Nat) (tn : Nat),
      st i = ⟨A ++ { e with count := (tn : Int) } :: B, nid⟩ → WF (st i) →
      (∀ x ∈ A, ¬ nameMatch c.name fz x = true) →
      (∀ x ∈ B, ¬ nameMatch c.name fz x = true) →
      (∀ x ∈ A, ¬ nameMatch c.name tz x = true) →
      (∀ x ∈ B, ¬ nameMatch c.name tz x = true) →
      exactPred c fz e = true → ¬ fz = tz →
      isValidCard c = true → 0 < n → 1 ≤ tn →
      ((Cmd.swap (some i) c fz tz n ts false 0 []).execute st).1 = true ∧
      (((Cmd.swap (some i) c fz tz n ts false 0 []).execute st).2.1.undo
          ((Cmd.swap (some i) c fz tz n ts false 0 []).execute st).2.2).1 = true ∧
      mstate ((((Cmd.swap (some i) c fz tz n ts false 0 []).execute st).2.1.undo
          ((Cmd.swap (some i) c fz tz n ts false 0 []).execute st).2.2).2.2 i)
        = mstate (st i)) :=
  ⟨roundtrip_add, roundtrip_remove, roundtrip_swap⟩

/-- Witness for the amended C1: all three parts instantiated at concrete
stores and commands, with every hypothesis discharged by evaluation. -/
theorem C1_amended_witness :
    (WF (emptyStore 0) ∧
      ((Cmd.add (some 0) cardX "main" 2 0 false []).execute emptyStore).1 = true ∧
      (((Cmd.add (some 0) cardX "main" 2 0 false []).execute emptyStore).2.1.undo
          ((Cmd.add (some 0) cardX "main" 2 0 false []).execute emptyStore).2.2).1 = true ∧
      mstate ((((Cmd.add (some 0) cardX "main" 2 0 false []).execute emptyStore).2.1.undo
          ((Cmd.add (some 0) cardX "main" 2 0 false []).execute emptyStore).2.2).2.2 0)
        = mstate (emptyStore 0)) ∧
    (WF (c1wStB 0) ∧
      ((Cmd.remove (some 0) cardX "main" 1 0 false 0 []).execute c1wStB).1 = true ∧
      (((Cmd.remove (some 0) cardX "main" 1 0 false 0 []).execute c1wStB).2.1.undo
          ((Cmd.remove (some 0) cardX "main" 1 0 false 0 []).execute c1wStB).2.2).1 = true ∧
      mstate ((((Cmd.remove (some 0) cardX "main" 1 0 false 0 []).execute c1wStB).2.1.undo
          ((Cmd.remove (some 0) cardX "main" 1 0 false 0 []).execute c1wStB).2.2).2.2 0)
        = mstate (c1wStB 0)) ∧
    (WF (c1wStB 0) ∧
      ((Cmd.swap (some 0) cardX "main" "side" 3 0 false 0 []).execute c1wStB).1 = true ∧
      (((Cmd.swap (some 0) cardX "main" "side" 3 0 false 0 []).execute c1wStB).2.1.undo
          ((Cmd.swap (some 0) cardX "main" "side" 3 0 false 0 []).execute c1wStB).2.2).1
        = true ∧
      mstate ((((Cmd.swap (some 0) cardX "main" "side" 3 0 false 0 []).execute
            c1wStB).2.1.undo
          ((Cmd.swap (some 0) cardX "main" "side" 3 0 false 0 []).execute c1wStB).2.2).2.2 0)
        = mstate (c1wStB 0)) :=
  ⟨⟨by decide, C1_amended_single_roundtrip.1 emptyStore 0 cardX "main" 2 0
      (by decide) (by decide) (by decide)⟩,
   ⟨by decide, C1_amended_single_roundtrip.2.1 c1wStB 0 cardX "main" 1 0
      [] [] ⟨0, "X", "p", "1", "main", 2⟩ 1 2
      (by decide) (by decide) (by decide) (by decide) (by decide) (by decide)
      (by decide) (by decide)⟩,
   ⟨by decide, C1_amended_single_roundtrip.2.2 c1wStB 0 cardX "main" "side" 3 0
      [] [] ⟨0, "X", "p", "1", "main", 2⟩ 1 2
      (by decide) (by decide) (by decide) (by decide) (by decide) (by decide)
      (by decide) (by decide) (by decide) (by decide) (by decide)⟩⟩
